import Mathlib

/-!
# Verification of the Olive export pipeline coordinator

Shallow embedding of `src/app/render/backend/exporter.cpp` (class `Exporter`)
and `src/app/widget/clickablelabel/clickablelabel.cpp` (class `ClickableLabel`).

Timestamps (`rational` in the source) are modelled as `ℚ`.  Qt's `QMap` is
modelled as an association list whose `insert` replaces an existing entry, so
keys are unique; `QMap` iterates in ascending key order, which matters only
for the backend's `time_hash_map()` — we carry that map as a list already
sorted by key (the hypothesis `thm.map Prod.fst = gridList n tb` used in the
theorems implies this ordering).

Asynchronous signal/slot interaction is modelled as an explicit event machine:
the environment delivers completion events (`Event`), the coordinator's slots
are the `step` function, and everything the coordinator sends out (encoder
requests, backend requests, Qt signals) is collected in an output list
(`Out`).  An event trace is *valid* (`validRun`) when each event is a
completion of a request the coordinator actually issued and has not been
answered yet; frame-ready events must lie on the frame grid inside the ranges
requested for rendering and may arrive in any order.
-/

namespace OliveExport

attribute [local semireducible] Rat.add Rat.mul Rat.sub Rat.inv

/-- Association-list lookup, modelling `QMap::value` / `QMap::contains`. -/
def alookup {κ γ : Type} [DecidableEq κ] : List (κ × γ) → κ → Option γ
  | [], _ => none
  | p :: r, k => if p.1 = k then some p.2 else alookup r k

/-- `QMap::contains`. -/
def acontains {κ γ : Type} [DecidableEq κ] (m : List (κ × γ)) (k : κ) : Bool :=
  (alookup m k).isSome

/-- Removal of a key, the removal part of `QMap::take` / `QMap::erase`. -/
def aerase {κ γ : Type} [DecidableEq κ] : List (κ × γ) → κ → List (κ × γ)
  | [], _ => []
  | p :: r, k => if p.1 = k then aerase r k else p :: aerase r k

/-- `QMap::insert`: replaces any existing entry for the key. -/
def ainsert {κ γ : Type} [DecidableEq κ] (m : List (κ × γ)) (k : κ) (v : γ) : List (κ × γ) :=
  (k, v) :: aerase m k

/-- Keys of an association list. -/
def akeys {κ γ : Type} (m : List (κ × γ)) : List κ :=
  m.map Prod.fst

/-- `QMap::value` on a `QMap<H, QList<rational>>`, defaulting to the empty
list like a default-constructed `QList` (used for `matched_frames_`). -/
def alookupD {κ : Type} [DecidableEq κ] (m : List (κ × List ℚ)) (k : κ) : List ℚ :=
  (alookup m k).getD []

/-- A closed-open time interval `[tin, tout)`, the `TimeRange` of the source. -/
structure TimeRange where
  tin : ℚ
  tout : ℚ
deriving DecidableEq

/-- Modelled from the spec: `TimeRange` subtraction — the source of
`TimeRangeList::RemoveTimeRange` is not part of the excerpt; the spec says a
`TimeRange` is a closed-open interval `[in, out)` supporting subtraction of
sub-ranges.  Subtracting `sub` from `r` keeps the (at most two) parts of `r`
outside `sub`. -/
def TimeRange.subtract (r sub : TimeRange) : List TimeRange :=
  (if r.tin < sub.tin then [⟨r.tin, min r.tout sub.tin⟩] else []) ++
  (if sub.tout < r.tout then [⟨max r.tin sub.tout, r.tout⟩] else [])

/-- Modelled from the spec: `TimeRangeList::RemoveTimeRange` removes the
sub-range from every range of the list. -/
def removeTimeRange (l : List TimeRange) (sub : TimeRange) : List TimeRange :=
  l.flatMap (fun r => r.subtract sub)

/-- A timestamp is covered by a range list. -/
def covers (l : List TimeRange) (t : ℚ) : Bool :=
  l.any (fun r => decide (r.tin ≤ t) && decide (t < r.tout))

/-- `qRound` on the (non-negative) values fed to it by the exporter:
round to nearest, halves away from zero, i.e. `⌊q + 1/2⌋`. -/
def qround (q : ℚ) : ℤ :=
  ⌊q + 1 / 2⌋

/-- The frame grid `0, tb, 2·tb, …, (n-1)·tb`: the timestamps of `[0, n·tb)`
at time-base step `tb`. -/
def gridList (n : ℕ) (tb : ℚ) : List ℚ :=
  (List.range n).map (fun k : ℕ => (k : ℚ) * tb)

/-- `w, w+tb, …, w+(m-1)·tb`: the consecutive timestamps written by one
drain of the encode loop. -/
def segList (w : ℚ) (m : ℕ) (tb : ℚ) : List ℚ :=
  (List.range m).map (fun j : ℕ => w + (j : ℚ) * tb)

/-- Whether `t` is a non-negative integer multiple of the time base `tb`
(a frame-grid point), as a decidable check. -/
def isGridMul (tb t : ℚ) : Bool :=
  decide (0 ≤ t) && decide ((⌊t / tb⌋ : ℚ) * tb = t)

/-- Requests the coordinator sends to the encoder and the two render
backends. -/
inductive Request (β : Type) where
  | openEnc
  | setVideoParams
  | setSoundParams
  | setMode (hashOnly : Bool)
  | invalidateVideo (tin tout : ℚ)
  | invalidateSound (tin tout : ℚ)
  | writeFrame (t : ℚ) (c : β)
  | writeSound
  | closeEnc
deriving DecidableEq

/-- Everything observable the coordinator produces: requests, one marker per
run of the texture→frame/pixel-format/alpha/color conversion pipeline, the
`ProgressChanged` signal, and the terminal `ExportEnded` signal (recording
`export_status_` at emission time). -/
inductive Out (α β : Type) where
  | req (r : Request β)
  | convertRun (v : α)
  | progress (p : ℤ)
  | exportEnded (status : Bool)
deriving DecidableEq

/-- The timestamps of the `WriteFrame` requests of an output list, in
emission order. -/
def writeTimes {α β : Type} (outs : List (Out α β)) : List ℚ :=
  outs.filterMap (fun o => match o with
    | Out.req (Request.writeFrame t _) => some t
    | _ => none)

/-- The `(timestamp, content)` pairs of the `WriteFrame` requests. -/
def writesOf {α β : Type} (outs : List (Out α β)) : List (ℚ × β) :=
  outs.filterMap (fun o => match o with
    | Out.req (Request.writeFrame t c) => some (t, c)
    | _ => none)

/-- The values of the `ProgressChanged` emissions, in order. -/
def progressOf {α β : Type} (outs : List (Out α β)) : List ℤ :=
  outs.filterMap (fun o => match o with
    | Out.progress p => some p
    | _ => none)

/-- The conversion-pipeline runs, in order (one per `TextureToFrame` /
pixel-format / alpha / color-transform pass of `EncodeFrame`). -/
def convertsOf {α β : Type} (outs : List (Out α β)) : List α :=
  outs.filterMap (fun o => match o with
    | Out.convertRun v => some v
    | _ => none)

/-- One iteration block of the `do … while (cached_frames_.contains(...))`
loop of `Exporter::EncodeFrame`: run the conversion pipeline on the value,
write the frame stamped with the current `waiting_for_frame_`, advance by the
time base, emit progress; then, if the next expected timestamp is already in
`cached_frames_`, take it and continue.  The fuel starts at
`cached.length`, which is enough: every drain step removes an entry of the
cache, and with an empty cache the loop condition fails anyway. -/
def encodeLoopAux {α β : Type} (pipe : α → β) (tb len : ℚ) :
    ℕ → α → ℚ → List (ℚ × α) → List (Out α β) × ℚ × List (ℚ × α)
  | 0, v, w, cached =>
    ([Out.convertRun v, Out.req (Request.writeFrame w (pipe v)),
      Out.progress (qround (100 * ((w + tb) / len)))], w + tb, cached)
  | f + 1, v, w, cached =>
    match alookup cached (w + tb) with
    | some v' =>
      let r := encodeLoopAux pipe tb len f v' (w + tb) (aerase cached (w + tb))
      ([Out.convertRun v, Out.req (Request.writeFrame w (pipe v)),
        Out.progress (qround (100 * ((w + tb) / len)))] ++ r.1, r.2)
    | none =>
      ([Out.convertRun v, Out.req (Request.writeFrame w (pipe v)),
        Out.progress (qround (100 * ((w + tb) / len)))], w + tb, cached)

/-- The matched branch of `Exporter::EncodeFrame` (`time == waiting_for_frame_`). -/
def encodeLoop {α β : Type} (pipe : α → β) (tb len : ℚ) (v : α) (w : ℚ)
    (cached : List (ℚ × α)) : List (Out α β) × ℚ × List (ℚ × α) :=
  encodeLoopAux pipe tb len cached.length v w cached

/-- `Exporter::EncodeFrame` restricted to its video-serialization state
`(waiting_for_frame_, cached_frames_)`: encode-and-drain when the timestamp
is the expected one, otherwise buffer the value in `cached_frames_`. -/
def encodeFrame {α β : Type} (pipe : α → β) (tb len : ℚ) (t : ℚ) (v : α)
    (w : ℚ) (cached : List (ℚ × α)) : List (Out α β) × ℚ × List (ℚ × α) :=
  if t = w then encodeLoop pipe tb len v w cached
  else ([], w, ainsert cached t v)

/-- A sequence of `EncodeFrame` calls, accumulating outputs. -/
def encodeMany {α β : Type} (pipe : α → β) (tb len : ℚ) :
    List (ℚ × α) → ℚ → List (ℚ × α) → List (Out α β) × ℚ × List (ℚ × α)
  | [], w, cached => ([], w, cached)
  | (t, v) :: calls, w, cached =>
    let r := encodeFrame pipe tb len t v w cached
    let rest := encodeMany pipe tb len calls r.2.1 r.2.2
    (r.1 ++ rest.1, rest.2)

/-- The inner `j` scan of `Exporter::VideoHashesComplete` for a fixed outer
entry with hash `h`: walk the remaining entries in key order; every entry
sharing hash `h` has its one-time-base-wide sub-range removed from the
pending ranges, its key appended to `matched_frames_[h]`, and is erased from
the map; the others are kept.  (In the source the scan restarts from
`begin()`, but entries before the outer iterator can never share its hash:
their duplicates were all erased when they were the outer entry themselves.) -/
def scanInner {H : Type} [DecidableEq H] (tb : ℚ) (h : H) :
    List (ℚ × H) → List TimeRange → List (H × List ℚ) →
    List (ℚ × H) × List TimeRange × List (H × List ℚ)
  | [], rs, m => ([], rs, m)
  | (t', h') :: rest, rs, m =>
    if h' = h then
      scanInner tb h rest (removeTimeRange rs ⟨t', t' + tb⟩)
        (ainsert m h (alookupD m h ++ [t']))
    else
      let r := scanInner tb h rest rs m
      ((t', h') :: r.1, r.2)

/-- The double scan of `Exporter::VideoHashesComplete` over (a copy of) the
backend's `time_hash_map`, in ascending key order: for each entry still in
the map, erase all later entries sharing its hash, removing their unit
ranges from the pending ranges and recording them in `matched_frames_`.
Returns the surviving entries, the collapsed ranges, and the updated
`matched_frames_`. -/
def collapseAux {H : Type} [DecidableEq H] (tb : ℚ) :
    ℕ → List (ℚ × H) → List TimeRange → List (H × List ℚ) →
    List (ℚ × H) × List TimeRange × List (H × List ℚ)
  | 0, _, rs, m => ([], rs, m)
  | _ + 1, [], rs, m => ([], rs, m)
  | fuel + 1, (t, h) :: rest, rs, m =>
    let s := scanInner tb h rest rs m
    let r := collapseAux tb fuel (rest.filter (fun p => p.2 ≠ h)) s.2.1 s.2.2
    ((t, h) :: r.1, r.2)

def collapse {H : Type} [DecidableEq H] (tb : ℚ) (l : List (ℚ × H))
    (rs : List TimeRange) (m : List (H × List ℚ)) :
    List (ℚ × H) × List TimeRange × List (H × List ℚ) :=
  collapseAux tb l.length l rs m

/-- The entries surviving the dedup scan: the first entry (in key order) of
every hash group. -/
def survivorsAux {H : Type} [DecidableEq H] : ℕ → List (ℚ × H) → List (ℚ × H)
  | 0, _ => []
  | _ + 1, [] => []
  | fuel + 1, (t, h) :: rest =>
    (t, h) :: survivorsAux fuel (rest.filter (fun p => p.2 ≠ h))

def survivors {H : Type} [DecidableEq H] (l : List (ℚ × H)) : List (ℚ × H) :=
  survivorsAux l.length l

/-- The duplicate timestamps erased by the dedup scan, in scan order. -/
def removedOfAux {H : Type} [DecidableEq H] : ℕ → List (ℚ × H) → List ℚ
  | 0, _ => []
  | _ + 1, [] => []
  | fuel + 1, (_, h) :: rest =>
    (rest.filter (fun p => p.2 = h)).map Prod.fst ++
      removedOfAux fuel (rest.filter (fun p => p.2 ≠ h))

def removedOf {H : Type} [DecidableEq H] (l : List (ℚ × H)) : List ℚ :=
  removedOfAux l.length l

/-- The static configuration of one export job: timeline length
(`viewer_node_->Length()`), the video time base, the backend's
`time_hash_map()` in ascending key order, and the conversion pipeline.
The pipeline (`TextureToFrame`, `PixelService::ConvertPixelFormat`,
`ColorManager::DisassociateAlpha`, `ColorProcessor::ConvertFrame`) is
modelled from the spec as one abstract pure function `pipe`: its components
are external to the excerpt, and §4.3 of the spec states the conversion is
deterministic and side-effect-free. -/
structure Config (α β H : Type) where
  len : ℚ
  tb : ℚ
  thm : List (ℚ × H)
  pipe : α → β

/-- The exporter's state.  The first block are the members of `Exporter`;
the second block is bookkeeping recording which requests have been issued
and answered, used to say which completion events the environment can
deliver (in Qt this is implicit in the signal/slot connections). -/
structure ExpState (α H : Type) where
  video_done : Bool
  sound_done : Bool
  export_status : Bool
  export_msg : String
  waiting : ℚ
  cached : List (ℚ × α)
  matched : List (H × List ℚ)
  openAnswered : Bool
  hashRequested : Bool
  hashDone : Bool
  renderPhase : Bool
  renderRanges : List TimeRange
  delivered : List (ℚ × α)
  soundInvalidated : Bool
  soundQueueDone : Bool
  soundWritten : Bool
  soundCompleted : Bool
  closeRequested : Bool
  closedDone : Bool
  ended : Bool

/-- Completion events delivered to the exporter by the encoder and the two
render backends. -/
inductive Event (α : Type) where
  | openSucceeded
  | openFailed
  | videoQueueComplete
  | cachedFrameReady (t : ℚ) (v : α)
  | soundQueueComplete
  | soundComplete
  | closed
deriving DecidableEq

/-- `Exporter::ExportSucceeded`: return unless both streams are done;
otherwise mark success and ask the encoder to close. -/
def exportSucceeded {α β H : Type} (s : ExpState α H) :
    ExpState α H × List (Out α β) :=
  if s.sound_done && s.video_done then
    ({ s with export_status := true, closeRequested := true },
     [Out.req Request.closeEnc])
  else (s, [])

/-- `Exporter::EncodeFrame` on the full state: the serialization logic of
`encodeFrame`, plus the end-of-stream check (`waiting_for_frame_ >=
viewer_node_->Length()`) that marks the video stream done and calls
`ExportSucceeded`. -/
def encodeFrameS {α β H : Type} (cfg : Config α β H) (t : ℚ) (v : α)
    (s : ExpState α H) : ExpState α H × List (Out α β) :=
  if t = s.waiting then
    let r := encodeLoop cfg.pipe cfg.tb cfg.len v s.waiting s.cached
    let s1 := { s with waiting := r.2.1, cached := r.2.2 }
    if cfg.len ≤ r.2.1 then
      let s2 := { s1 with video_done := true }
      let e := exportSucceeded (β := β) s2
      (e.1, r.1 ++ e.2)
    else (s1, r.1)
  else ({ s with cached := ainsert s.cached t v }, [])

/-- The duplicate timestamps replayed for a rendered frame at `t`: look up
the frame's hash in the backend's `time_hash_map` and take the
`matched_frames_` entry of that hash (`QMap::value` of a missing hash is a
default-constructed empty list). -/
def dupTimes {H : Type} [DecidableEq H] (thm : List (ℚ × H))
    (m : List (H × List ℚ)) (t : ℚ) : List ℚ :=
  match alookup thm t with
  | some h => alookupD m h
  | none => []

/-- `Exporter::FrameRendered`: encode the frame at its own timestamp, then
once more (with the same rendered value) for every duplicate timestamp
sharing its hash.  The ghost field `delivered` records the event. -/
def frameRendered {α β H : Type} [DecidableEq H] (cfg : Config α β H)
    (t : ℚ) (v : α) (s : ExpState α H) : ExpState α H × List (Out α β) :=
  let s0 := { s with delivered := s.delivered ++ [(t, v)] }
  let r0 := encodeFrameS cfg t v s0
  (dupTimes cfg.thm s.matched t).foldl
    (fun acc td =>
      let r := encodeFrameS cfg td v acc.1
      (r.1, acc.2 ++ r.2))
    (r0.1, r0.2)

/-- `Exporter::VideoHashesComplete`: collapse duplicate-hash entries of the
time-hash map, then switch the video backend to render-only mode and
invalidate (request rendering of) the remaining ranges. -/
def videoHashesComplete {α β H : Type} [DecidableEq H] (cfg : Config α β H)
    (s : ExpState α H) : ExpState α H × List (Out α β) :=
  let c := collapse cfg.tb cfg.thm [⟨0, cfg.len⟩] s.matched
  ({ s with matched := c.2.2, hashDone := true, renderPhase := true,
            renderRanges := c.2.1 },
   Out.req (Request.setMode false) ::
     c.2.1.map (fun r => Out.req (Request.invalidateVideo r.tin r.tout)))

/-- The exporter's slots: one transition per completion event. -/
def step {α β H : Type} [DecidableEq H] (cfg : Config α β H)
    (s : ExpState α H) : Event α → ExpState α H × List (Out α β)
  | Event.openSucceeded =>
    let s0 := { s with openAnswered := true }
    let s1 := if s0.video_done then s0 else { s0 with hashRequested := true }
    let o1 : List (Out α β) :=
      if s0.video_done then [] else
        [Out.req (Request.setMode true), Out.req (Request.invalidateVideo 0 cfg.len)]
    let s2 := if s1.sound_done then s1 else { s1 with soundInvalidated := true }
    let o2 : List (Out α β) :=
      if s1.sound_done then [] else [Out.req (Request.invalidateSound 0 cfg.len)]
    (s2, o1 ++ o2)
  | Event.openFailed =>
    ({ s with openAnswered := true, export_msg := "Failed to open encoder",
              ended := true },
     [Out.exportEnded s.export_status])
  | Event.videoQueueComplete => videoHashesComplete cfg s
  | Event.cachedFrameReady t v => frameRendered cfg t v s
  | Event.soundQueueComplete =>
    ({ s with soundQueueDone := true, soundWritten := true },
     [Out.req Request.writeSound])
  | Event.soundComplete =>
    let s1 := { s with soundCompleted := true, sound_done := true }
    exportSucceeded s1
  | Event.closed =>
    ({ s with closedDone := true, ended := true },
     [Out.progress 100, Out.exportEnded s.export_status])

/-- Which completion events the environment can deliver in a given state:
only completions of issued, not-yet-answered requests; rendered frames must
be grid timestamps inside the requested render ranges, each delivered at
most once, in an arbitrary order. -/
def enabledB {α β H : Type} [DecidableEq H] (cfg : Config α β H)
    (s : ExpState α H) : Event α → Bool
  | Event.openSucceeded => !s.ended && !s.openAnswered
  | Event.openFailed => !s.ended && !s.openAnswered
  | Event.videoQueueComplete => !s.ended && s.hashRequested && !s.hashDone
  | Event.cachedFrameReady t _ =>
    s.renderPhase && !s.ended && isGridMul cfg.tb t &&
      covers s.renderRanges t && decide (t ∉ s.delivered.map Prod.fst)
  | Event.soundQueueComplete => !s.ended && s.soundInvalidated && !s.soundQueueDone
  | Event.soundComplete => !s.ended && s.soundWritten && !s.soundCompleted
  | Event.closed => !s.ended && s.closeRequested && !s.closedDone

/-- A trace of completion events is valid when each event is enabled in the
state reached by the preceding ones. -/
def validRun {α β H : Type} [DecidableEq H] (cfg : Config α β H)
    (s : ExpState α H) : List (Event α) → Bool
  | [] => true
  | e :: es => enabledB (β := β) cfg s e && validRun cfg (step (β := β) cfg s e).1 es

/-- Run the machine over a list of events, accumulating outputs. -/
def run {α β H : Type} [DecidableEq H] (cfg : Config α β H)
    (s : ExpState α H) : List (Event α) → ExpState α H × List (Out α β)
  | [] => (s, [])
  | e :: es =>
    let r := step cfg s e
    let rest := run cfg r.1 es
    (rest.1, r.2 ++ rest.2)

/-- No completion event can be delivered any more: the job is quiescent. -/
def noEventEnabled {α β H : Type} [DecidableEq H] (cfg : Config α β H)
    (s : ExpState α H) : Prop :=
  ∀ e : Event α, enabledB (β := β) cfg s e = false

/-- The state after the constructor, `EnableVideo`/`EnableAudio` (each
enabled stream clears its done flag), and `StartExporting` (which resets
`export_status_` to false).  `Initialize()` is external to the excerpt and
is modelled from the spec as succeeding (its failure path only sets a
message and ends the job before any event is processed). -/
def initState (α H : Type) (videoEnabled soundEnabled : Bool) : ExpState α H :=
  { video_done := !videoEnabled
    sound_done := !soundEnabled
    export_status := false
    export_msg := "Export has not started yet"
    waiting := 0
    cached := []
    matched := []
    openAnswered := false
    hashRequested := false
    hashDone := false
    renderPhase := false
    renderRanges := []
    delivered := []
    soundInvalidated := false
    soundQueueDone := false
    soundWritten := false
    soundCompleted := false
    closeRequested := false
    closedDone := false
    ended := false }

/-- The requests `StartExporting` itself sends (backend parameter setup and
the asynchronous encoder `Open`). -/
def startRequests (α β : Type) (videoEnabled soundEnabled : Bool) :
    List (Out α β) :=
  (if videoEnabled then [Out.req (Request.setVideoParams (β := β))] else []) ++
  (if soundEnabled then [Out.req (Request.setSoundParams (β := β))] else []) ++
  [Out.req (Request.openEnc (β := β))]

/-- Requests addressed to the audio backend or carrying audio data. -/
def isSoundReq {α β : Type} : Out α β → Bool
  | Out.req Request.setSoundParams => true
  | Out.req (Request.invalidateSound _ _) => true
  | Out.req Request.writeSound => true
  | _ => false

/-- The audio-related outputs of a run. -/
def soundOuts {α β : Type} (outs : List (Out α β)) : List (Out α β) :=
  outs.filter isSoundReq

/-- The render ranges produced by the dedup collapse of a job. -/
def colRanges {α β H : Type} [DecidableEq H] (cfg : Config α β H) : List TimeRange :=
  (collapse cfg.tb cfg.thm [⟨0, cfg.len⟩] []).2.1

/-- The `matched_frames_` map produced by the dedup collapse of a job. -/
def colMatched {α β H : Type} [DecidableEq H] (cfg : Config α β H) : List (H × List ℚ) :=
  (collapse cfg.tb cfg.thm [⟨0, cfg.len⟩] []).2.2

/-- The duplicate timestamps replayed for a primary timestamp `t` once the
hash phase has completed. -/
def dupsOf {α β H : Type} [DecidableEq H] (cfg : Config α β H) (t : ℚ) : List ℚ :=
  dupTimes cfg.thm (colMatched cfg) t

/-- The `EncodeFrame` calls generated by a list of delivered frames: each
frame is encoded at its own timestamp and once more, with the same rendered
value, at every duplicate timestamp of its hash. -/
def flattenCalls {α β H : Type} [DecidableEq H] (cfg : Config α β H)
    (d : List (ℚ × α)) : List (ℚ × α) :=
  d.flatMap (fun p => p :: (dupsOf cfg p.1).map (fun q => (q, p.2)))

/-- The timestamps of `flattenCalls`. -/
def flattenTimes {α β H : Type} [DecidableEq H] (cfg : Config α β H)
    (ts : List ℚ) : List ℚ :=
  ts.flatMap (fun t => t :: dupsOf cfg t)

/-- The progress value emitted after writing the frame at timestamp `τ`. -/
def progAt (tb len τ : ℚ) : ℤ :=
  qround (100 * ((τ + tb) / len))

/-- Invariant of the video-serialization state after a list `processed` of
`EncodeFrame` calls from the initial state `(0, ∅)`: exactly the grid prefix
`0, tb, …, (k-1)·tb` has been written, the cache holds precisely the
processed timestamps not yet written, the next expected timestamp is not
cached, and every written timestamp came from a processed call. -/
def EncInv {α : Type} (tb : ℚ) (processed : List (ℚ × α)) (k : ℕ) (w : ℚ)
    (cached : List (ℚ × α)) : Prop :=
  w = (k : ℚ) * tb ∧
  (∀ τ, alookup cached τ =
    if τ ∈ gridList k tb then none else alookup processed τ) ∧
  alookup cached w = none ∧
  (∀ τ ∈ gridList k tb, (alookup processed τ).isSome = true)

/-- `ExportSucceeded`'s guard discipline: whenever a `Close` has been
requested, both streams were done and the status was already set to
success. -/
def CloseFlagsOk {α H : Type} (s : ExpState α H) : Prop :=
  s.closeRequested = true →
    s.video_done = true ∧ s.sound_done = true ∧ s.export_status = true

/-- The control fields of the exporter state that `EncodeFrame` never
touches: `s1` and `s2` agree on everything except the video-serialization
state and the success flags. -/
def ctlEq {α H : Type} (s1 s2 : ExpState α H) : Prop :=
  s1.delivered = s2.delivered ∧ s1.matched = s2.matched ∧
  s1.hashDone = s2.hashDone ∧ s1.renderPhase = s2.renderPhase ∧
  s1.renderRanges = s2.renderRanges ∧ s1.sound_done = s2.sound_done ∧
  s1.ended = s2.ended ∧ s1.closedDone = s2.closedDone ∧
  s1.openAnswered = s2.openAnswered ∧ s1.hashRequested = s2.hashRequested ∧
  s1.soundInvalidated = s2.soundInvalidated ∧
  s1.soundQueueDone = s2.soundQueueDone ∧ s1.soundWritten = s2.soundWritten ∧
  s1.soundCompleted = s2.soundCompleted ∧ s1.export_msg = s2.export_msg

/-- Monotonicity of the completion flags: `s1` (the newer state) keeps every
flag that was already set in `s2`. -/
def flagsMono {α H : Type} (s1 s2 : ExpState α H) : Prop :=
  (s2.video_done = true → s1.video_done = true) ∧
  (s2.export_status = true → s1.export_status = true) ∧
  (s2.closeRequested = true → s1.closeRequested = true)

/-- Run invariant of a video-enabled job: before the hash phase completes
nothing has been rendered or encoded; afterwards `matched_frames_` and the
render ranges are the collapse results; delivered frames are distinct
primaries; and the video-serialization state together with the emitted
writes and progress values is exactly the result of replaying the flattened
`EncodeFrame` calls of the delivered frames from scratch. -/
def ExpInv {α β H : Type} [DecidableEq H] (cfg : Config α β H)
    (s : ExpState α H) (outs : List (Out α β)) : Prop :=
  (s.hashDone = false → s.ended = false →
    s.renderPhase = false ∧ s.delivered = [] ∧ s.waiting = 0 ∧
    s.cached = [] ∧ s.matched = [] ∧ writesOf outs = [] ∧
    progressOf outs = [] ∧ s.closedDone = false) ∧
  (s.hashDone = true →
    s.matched = colMatched cfg ∧ s.renderRanges = colRanges cfg ∧
    s.renderPhase = true) ∧
  ((s.delivered.map Prod.fst).Nodup ∧
    ∀ p ∈ s.delivered, p.1 ∈ (survivors cfg.thm).map Prod.fst) ∧
  (writesOf outs =
      writesOf (encodeMany cfg.pipe cfg.tb cfg.len
        (flattenCalls cfg s.delivered) 0 []).1 ∧
   progressOf outs =
      progressOf (encodeMany cfg.pipe cfg.tb cfg.len
        (flattenCalls cfg s.delivered) 0 []).1 ++
        (if s.closedDone then [100] else []) ∧
   s.waiting = (encodeMany cfg.pipe cfg.tb cfg.len
        (flattenCalls cfg s.delivered) 0 []).2.1 ∧
   s.cached = (encodeMany cfg.pipe cfg.tb cfg.len
        (flattenCalls cfg s.delivered) 0 []).2.2) ∧
  (s.closedDone = true → s.ended = true)

/-- Signals of `ClickableLabel`
(`src/app/widget/clickablelabel/clickablelabel.cpp`). -/
inductive LabelSignal where
  | mouseClicked
  | mouseDoubleClicked
deriving DecidableEq

/-- `ClickableLabel::mouseReleaseEvent`: emit `MouseClicked` only when the
cursor is still over the widget (`underMouse()`). -/
def mouseReleaseEvent (underMouse : Bool) : List LabelSignal :=
  if underMouse then [LabelSignal.mouseClicked] else []

/-- `ClickableLabel::mouseDoubleClickEvent`: emit `MouseDoubleClicked`
unconditionally (the cursor position is ignored). -/
def mouseDoubleClickEvent (_underMouse : Bool) : List LabelSignal :=
  [LabelSignal.mouseDoubleClicked]

/-! ### Concrete scenarios used by witnesses and counterexamples -/

/-- The §8 spec scenario: 10 frames at step 1, timestamps 3 and 7 share a
hash (hash value 3). -/
def thm10 : List (ℚ × ℕ) :=
  [(0, 0), (1, 1), (2, 2), (3, 3), (4, 4), (5, 5), (6, 6), (7, 3), (8, 8), (9, 9)]

/-- Configuration of the 10-frame scenario (trivial frame values). -/
def cfg10 : Config Unit Unit ℕ :=
  { len := 10, tb := 1, thm := thm10, pipe := fun _ => () }

/-- A complete event trace for the 10-frame scenario: open succeeds, hashes
complete, the nine primaries arrive out of order, the encoder closes. -/
def trace10 : List (Event Unit) :=
  [Event.openSucceeded, Event.videoQueueComplete,
   Event.cachedFrameReady 4 (), Event.cachedFrameReady 0 (),
   Event.cachedFrameReady 1 (), Event.cachedFrameReady 2 (),
   Event.cachedFrameReady 3 (), Event.cachedFrameReady 8 (),
   Event.cachedFrameReady 5 (), Event.cachedFrameReady 6 (),
   Event.cachedFrameReady 9 (), Event.closed]

/-- A two-frame timeline whose frames share one hash: one primary (0), one
duplicate (1). -/
def cfg2 : Config Unit Unit ℕ :=
  { len := 2, tb := 1, thm := [(0, 5), (1, 5)], pipe := fun _ => () }

/-- A single-frame timeline. -/
def cfg1 : Config Unit Unit ℕ :=
  { len := 1, tb := 1, thm := [(0, 0)], pipe := fun _ => () }

/-- A complete event trace for the 10-frame scenario with both streams
enabled: the audio queue completes and the audio encode finishes (with video
still pending, so the close guard fails there), then the frames arrive and
the last one re-evaluates the guard successfully. -/
def trace10a : List (Event Unit) :=
  [Event.openSucceeded, Event.videoQueueComplete,
   Event.soundQueueComplete, Event.soundComplete,
   Event.cachedFrameReady 4 (), Event.cachedFrameReady 0 (),
   Event.cachedFrameReady 1 (), Event.cachedFrameReady 2 (),
   Event.cachedFrameReady 3 (), Event.cachedFrameReady 8 (),
   Event.cachedFrameReady 5 (), Event.cachedFrameReady 6 (),
   Event.cachedFrameReady 9 (), Event.closed]

/-- An empty timeline used for the job with neither stream enabled. -/
def cfgNoop : Config Unit Unit ℕ :=
  { len := 0, tb := 1, thm := [], pipe := fun _ => () }

/-- A complete event trace for the two-frame duplicate scenario of `cfg2`:
the single primary frame 0 arrives and the encoder closes. -/
def trace2 : List (Event Unit) :=
  [Event.openSucceeded, Event.videoQueueComplete,
   Event.cachedFrameReady 0 (), Event.closed]

/-- A prefix trace for `cfg1`: the single frame is encoded but the encoder
has not yet closed. -/
def trace1pre : List (Event Unit) :=
  [Event.openSucceeded, Event.videoQueueComplete, Event.cachedFrameReady 0 ()]

/-! ### Association-list lemmas -/

theorem alookup_aerase {κ γ : Type} [DecidableEq κ] (m : List (κ × γ)) (k τ : κ) :
    alookup (aerase m k) τ = if τ = k then none else alookup m τ := by
  induction m with
  | nil => simp [aerase, alookup]
  | cons p r ih =>
    by_cases hp : p.1 = k
    · subst hp
      rw [show aerase (p :: r) p.1 = aerase r p.1 from by simp [aerase], ih]
      by_cases hτ : τ = p.1
      · simp [hτ]
      · simp [alookup, hτ, Ne.symm hτ]
    · rw [show aerase (p :: r) k = p :: aerase r k from by simp [aerase, hp]]
      by_cases hpτ : p.1 = τ
      · have : ¬ τ = k := fun h => hp (hpτ.trans h)
        simp [alookup, hpτ, this]
      · simp [alookup, hpτ, ih]

theorem alookup_ainsert {κ γ : Type} [DecidableEq κ] (m : List (κ × γ)) (k : κ)
    (v : γ) (τ : κ) :
    alookup (ainsert m k v) τ = if k = τ then some v else alookup m τ := by
  unfold ainsert
  rw [show alookup ((k, v) :: aerase m k) τ =
        if k = τ then some v else alookup (aerase m k) τ from rfl,
      alookup_aerase]
  by_cases h : k = τ
  · simp [h]
  · simp [h, Ne.symm h]

theorem mem_of_alookup_eq_some {κ γ : Type} [DecidableEq κ]
    {m : List (κ × γ)} {k : κ} {v : γ} (h : alookup m k = some v) : (k, v) ∈ m := by
  induction m with
  | nil => simp [alookup] at h
  | cons p r ih =>
    by_cases hp : p.1 = k
    · simp only [alookup, if_pos hp] at h
      obtain rfl : p.2 = v := Option.some.inj h
      subst hp
      exact List.mem_cons_self _ _
    · simp only [alookup, if_neg hp] at h
      exact List.mem_cons_of_mem _ (ih h)

theorem alookup_eq_some_of_mem_nodup {κ γ : Type} [DecidableEq κ]
    {m : List (κ × γ)} {k : κ} {v : γ} (hnd : (akeys m).Nodup)
    (h : (k, v) ∈ m) : alookup m k = some v := by
  induction m with
  | nil => simp at h
  | cons p r ih =>
    rcases List.mem_cons.1 h with h1 | h1
    · subst h1
      simp [alookup]
    · have hk : k ∈ akeys r := List.mem_map_of_mem Prod.fst h1
      have hp : p.1 ≠ k := by
        intro hc
        have := (List.nodup_cons.1 hnd).1
        exact this (hc ▸ hk)
      simp only [alookup, if_neg hp]
      exact ih (List.nodup_cons.1 hnd).2 h1

theorem alookup_isSome_iff {κ γ : Type} [DecidableEq κ]
    (m : List (κ × γ)) (k : κ) :
    (alookup m k).isSome = true ↔ k ∈ akeys m := by
  induction m with
  | nil => simp [alookup, akeys]
  | cons p r ih =>
    by_cases hp : p.1 = k
    · simp [alookup, hp, akeys]
    · simp only [alookup, if_neg hp, akeys, List.map_cons, List.mem_cons]
      rw [ih]
      constructor
      · intro h
        exact Or.inr h
      · rintro (h | h)
        · exact absurd h.symm hp
        · exact h

theorem alookup_append_some {κ γ : Type} [DecidableEq κ]
    {l1 : List (κ × γ)} (l2 : List (κ × γ)) {k : κ} {v : γ}
    (h : alookup l1 k = some v) : alookup (l1 ++ l2) k = some v := by
  induction l1 with
  | nil => simp [alookup] at h
  | cons p r ih =>
    by_cases hp : p.1 = k
    · simp only [alookup, if_pos hp] at h ⊢
      exact h
    · simp only [alookup, if_neg hp] at h ⊢
      exact ih h

theorem alookup_append_none {κ γ : Type} [DecidableEq κ]
    {l1 : List (κ × γ)} (l2 : List (κ × γ)) {k : κ}
    (h : alookup l1 k = none) : alookup (l1 ++ l2) k = alookup l2 k := by
  induction l1 with
  | nil => simp
  | cons p r ih =>
    by_cases hp : p.1 = k
    · simp [alookup, hp] at h
    · simp only [alookup, if_neg hp] at h ⊢
      exact ih h

theorem aerase_length_le {κ γ : Type} [DecidableEq κ] (m : List (κ × γ)) (k : κ) :
    (aerase m k).length ≤ m.length := by
  induction m with
  | nil => simp [aerase]
  | cons p r ih =>
    by_cases hp : p.1 = k
    · simp only [aerase, if_pos hp]
      exact Nat.le_succ_of_le ih
    · simp only [aerase, if_neg hp, List.length_cons]
      exact Nat.succ_le_succ ih

theorem aerase_length_lt {κ γ : Type} [DecidableEq κ] {m : List (κ × γ)} {k : κ}
    (h : (alookup m k).isSome = true) : (aerase m k).length < m.length := by
  induction m with
  | nil => simp [alookup] at h
  | cons p r ih =>
    by_cases hp : p.1 = k
    · simp only [aerase, if_pos hp]
      exact Nat.lt_succ_of_le (aerase_length_le r k)
    · simp only [alookup, if_neg hp] at h
      simp only [aerase, if_neg hp, List.length_cons]
      exact Nat.succ_lt_succ (ih h)

/-! ### Output-extraction lemmas -/

theorem writesOf_append {α β : Type} (l1 l2 : List (Out α β)) :
    writesOf (l1 ++ l2) = writesOf l1 ++ writesOf l2 :=
  List.filterMap_append _ _ _

theorem writeTimes_append {α β : Type} (l1 l2 : List (Out α β)) :
    writeTimes (l1 ++ l2) = writeTimes l1 ++ writeTimes l2 :=
  List.filterMap_append _ _ _

theorem progressOf_append {α β : Type} (l1 l2 : List (Out α β)) :
    progressOf (l1 ++ l2) = progressOf l1 ++ progressOf l2 :=
  List.filterMap_append _ _ _

theorem convertsOf_append {α β : Type} (l1 l2 : List (Out α β)) :
    convertsOf (l1 ++ l2) = convertsOf l1 ++ convertsOf l2 :=
  List.filterMap_append _ _ _

theorem soundOuts_append {α β : Type} (l1 l2 : List (Out α β)) :
    soundOuts (l1 ++ l2) = soundOuts l1 ++ soundOuts l2 := by
  simp [soundOuts, List.filter_append]

theorem writeTimes_eq_map_fst {α β : Type} (l : List (Out α β)) :
    writeTimes l = (writesOf l).map Prod.fst := by
  unfold writeTimes writesOf
  rw [List.map_filterMap]
  apply List.filterMap_congr
  intro o _
  cases o with
  | req r => cases r <;> rfl
  | convertRun v => rfl
  | progress p => rfl
  | exportEnded b => rfl

/-! ### Grid and segment lemmas -/

theorem segList_zero (w tb : ℚ) : segList w 0 tb = [] := by
  simp [segList]

theorem segList_succ (w tb : ℚ) (m : ℕ) :
    segList w (m + 1) tb = w :: segList (w + tb) m tb := by
  unfold segList
  rw [List.range_succ_eq_map]
  simp only [List.map_cons, Nat.cast_zero, zero_mul, add_zero, List.map_map]
  congr 1
  apply List.map_congr_left
  intro j _
  simp only [Function.comp_apply, Nat.cast_succ]
  ring

theorem mem_segList {w tb τ : ℚ} {m : ℕ} :
    τ ∈ segList w m tb ↔ ∃ j : ℕ, j < m ∧ τ = w + (j : ℚ) * tb := by
  unfold segList
  constructor
  · intro h
    rcases List.mem_map.1 h with ⟨j, hj, hjt⟩
    exact ⟨j, List.mem_range.1 hj, hjt.symm⟩
  · rintro ⟨j, hj, rfl⟩
    exact List.mem_map.2 ⟨j, List.mem_range.2 hj, rfl⟩

theorem segList_bounds {tb : ℚ} (htb : 0 < tb) {w τ : ℚ} {m : ℕ}
    (h : τ ∈ segList w m tb) : w ≤ τ ∧ τ < w + (m : ℚ) * tb := by
  rcases mem_segList.1 h with ⟨j, hj, rfl⟩
  constructor
  · have : (0 : ℚ) ≤ (j : ℚ) * tb :=
      mul_nonneg (Nat.cast_nonneg j) (le_of_lt htb)
    linarith
  · have : (j : ℚ) * tb < (m : ℚ) * tb := by
      apply mul_lt_mul_of_pos_right _ htb
      exact_mod_cast hj
    linarith

theorem chain_segList {tb : ℚ} (htb : 0 < tb) (w : ℚ) (m : ℕ) :
    List.Chain' (· < ·) (segList w m tb) := by
  induction m generalizing w with
  | zero => simp [segList_zero]
  | succ m ih =>
    rw [segList_succ]
    rw [List.chain'_cons']
    refine ⟨?_, ih (w + tb)⟩
    intro y hy
    cases m with
    | zero => simp [segList_zero] at hy
    | succ m' =>
      rw [segList_succ] at hy
      simp only [List.head?_cons, Option.mem_def, Option.some.injEq] at hy
      subst hy
      linarith

theorem gridList_eq_segList (n : ℕ) (tb : ℚ) : gridList n tb = segList 0 n tb := by
  simp [gridList, segList]

theorem mem_gridList {tb τ : ℚ} {n : ℕ} :
    τ ∈ gridList n tb ↔ ∃ k : ℕ, k < n ∧ τ = (k : ℚ) * tb := by
  unfold gridList
  constructor
  · intro h
    rcases List.mem_map.1 h with ⟨k, hk, hkt⟩
    exact ⟨k, List.mem_range.1 hk, hkt.symm⟩
  · rintro ⟨k, hk, rfl⟩
    exact List.mem_map.2 ⟨k, List.mem_range.2 hk, rfl⟩

theorem segList_append (w : ℚ) (k m : ℕ) (tb : ℚ) :
    segList w (k + m) tb = segList w k tb ++ segList (w + (k : ℚ) * tb) m tb := by
  induction k generalizing w with
  | zero => simp [segList_zero]
  | succ k ih =>
    have hadd : k + 1 + m = (k + m) + 1 := by omega
    rw [hadd, segList_succ, ih (w + tb), segList_succ, List.cons_append]
    congr 2
    push_cast
    ring

theorem gridList_append (k m : ℕ) (tb : ℚ) :
    gridList (k + m) tb = gridList k tb ++ segList ((k : ℚ) * tb) m tb := by
  rw [gridList_eq_segList, gridList_eq_segList, segList_append, zero_add]

theorem natCast_mul_tb_inj {tb : ℚ} (htb : 0 < tb) {j k : ℕ}
    (h : (j : ℚ) * tb = (k : ℚ) * tb) : j = k := by
  have : (j : ℚ) = (k : ℚ) := mul_right_cancel₀ (ne_of_gt htb) h
  exact_mod_cast this

theorem gridList_nodup {tb : ℚ} (htb : 0 < tb) (n : ℕ) :
    (gridList n tb).Nodup := by
  unfold gridList
  apply List.Nodup.map_on
  · intro j _ k _ h
    exact natCast_mul_tb_inj htb h
  · exact List.nodup_range n

theorem grid_sep {tb : ℚ} (htb : 0 < tb) {j k : ℕ} (hjk : j ≠ k) :
    ¬((j : ℚ) * tb ≤ (k : ℚ) * tb ∧ (k : ℚ) * tb < (j : ℚ) * tb + tb) := by
  rintro ⟨h1, h2⟩
  have hj : j ≤ k := by
    have := le_of_mul_le_mul_right h1 htb
    exact_mod_cast this
  have hjk' : j < k := lt_of_le_of_ne hj hjk
  have : (j : ℚ) + 1 ≤ (k : ℚ) := by exact_mod_cast hjk'
  have : ((j : ℚ) + 1) * tb ≤ (k : ℚ) * tb :=
    mul_le_mul_of_nonneg_right this (le_of_lt htb)
  nlinarith

theorem isGridMul_iff {tb : ℚ} (htb : 0 < tb) (t : ℚ) :
    isGridMul tb t = true ↔ ∃ k : ℕ, t = (k : ℚ) * tb := by
  unfold isGridMul
  rw [Bool.and_eq_true, decide_eq_true_eq, decide_eq_true_eq]
  constructor
  · rintro ⟨h0, hf⟩
    have hfl : 0 ≤ ⌊t / tb⌋ := by
      apply Int.floor_nonneg.2
      exact div_nonneg h0 (le_of_lt htb)
    refine ⟨⌊t / tb⌋.toNat, ?_⟩
    have hcast : ((⌊t / tb⌋.toNat : ℕ) : ℚ) = ((⌊t / tb⌋ : ℤ) : ℚ) := by
      exact_mod_cast congrArg (fun z : ℤ => (z : ℚ)) (Int.toNat_of_nonneg hfl)
    rw [hcast]
    exact hf.symm
  · rintro ⟨k, rfl⟩
    have hne : tb ≠ 0 := ne_of_gt htb
    constructor
    · exact mul_nonneg (Nat.cast_nonneg k) (le_of_lt htb)
    · rw [mul_div_assoc, div_self hne, mul_one, Int.floor_natCast]
      push_cast
      ring_nf

/-! ### The encode loop -/

theorem segList_one (w tb : ℚ) : segList w 1 tb = [w] := by
  rw [segList_succ, segList_zero]

theorem mem_segList_succ_iff {w tb τ : ℚ} {m : ℕ} :
    τ ∈ segList w (m + 1) tb ↔ τ = w ∨ τ ∈ segList (w + tb) m tb := by
  rw [segList_succ]
  exact List.mem_cons

theorem writeTimes_block {α β : Type} (v : α) (w : ℚ) (c : β) (p : ℤ) :
    writeTimes [Out.convertRun v, Out.req (Request.writeFrame w c), Out.progress p]
      = [w] := rfl

theorem writesOf_block {α β : Type} (v : α) (w : ℚ) (c : β) (p : ℤ) :
    writesOf [Out.convertRun v, Out.req (Request.writeFrame w c), Out.progress p]
      = [(w, c)] := rfl

theorem progressOf_block {α β : Type} (v : α) (w : ℚ) (c : β) (p : ℤ) :
    progressOf [Out.convertRun v, Out.req (Request.writeFrame w c), Out.progress p]
      = [p] := rfl

theorem encodeLoopAux_spec {α β : Type} (pipe : α → β) (tb len : ℚ) (htb : 0 < tb) :
    ∀ (fuel : ℕ) (v : α) (w : ℚ) (cached : List (ℚ × α)),
      cached.length ≤ fuel →
      ∃ m : ℕ, 0 < m ∧
        (encodeLoopAux pipe tb len fuel v w cached).2.1 = w + (m : ℚ) * tb ∧
        writeTimes (encodeLoopAux pipe tb len fuel v w cached).1 = segList w m tb ∧
        (∀ p ∈ writesOf (encodeLoopAux pipe tb len fuel v w cached).1,
          (p.1 = w ∧ p.2 = pipe v) ∨
            ∃ v', alookup cached p.1 = some v' ∧ p.2 = pipe v') ∧
        (∀ τ, alookup (encodeLoopAux pipe tb len fuel v w cached).2.2 τ =
          if τ ∈ segList w m tb ∧ τ ≠ w then none else alookup cached τ) ∧
        (∀ τ, τ ∈ segList w m tb → τ ≠ w → (alookup cached τ).isSome = true) ∧
        alookup (encodeLoopAux pipe tb len fuel v w cached).2.2
          (encodeLoopAux pipe tb len fuel v w cached).2.1 = none ∧
        progressOf (encodeLoopAux pipe tb len fuel v w cached).1 =
          (segList w m tb).map (fun τ => progAt tb len τ) := by
  intro fuel
  induction fuel with
  | zero =>
    intro v w cached hle
    have hc : cached = [] := List.length_eq_zero.1 (Nat.le_zero.1 hle)
    subst hc
    have hred : encodeLoopAux (β := β) pipe tb len 0 v w [] =
        ([Out.convertRun v, Out.req (Request.writeFrame w (pipe v)),
          Out.progress (qround (100 * ((w + tb) / len)))], w + tb, []) := rfl
    refine ⟨1, one_pos, ?_, ?_, ?_, ?_, ?_, ?_, ?_⟩
    · rw [hred]
      push_cast
      ring
    · rw [hred, segList_one]
      rfl
    · intro p hp
      rw [hred, writesOf_block] at hp
      rcases List.mem_singleton.1 hp with rfl
      exact Or.inl ⟨rfl, rfl⟩
    · intro τ
      rw [hred, if_neg]
      rintro ⟨h1, h2⟩
      rw [segList_one] at h1
      exact h2 (List.mem_singleton.1 h1)
    · intro τ h1 h2
      rw [segList_one] at h1
      exact absurd (List.mem_singleton.1 h1) h2
    · rw [hred]
      rfl
    · rw [hred, segList_one, progressOf_block]
      rfl
  | succ f ih =>
    intro v w cached hle
    cases hlook : alookup cached (w + tb) with
    | none =>
      have hred : encodeLoopAux (β := β) pipe tb len (f + 1) v w cached =
          ([Out.convertRun v, Out.req (Request.writeFrame w (pipe v)),
            Out.progress (qround (100 * ((w + tb) / len)))], w + tb, cached) := by
        simp only [encodeLoopAux, hlook]
      refine ⟨1, one_pos, ?_, ?_, ?_, ?_, ?_, ?_, ?_⟩
      · rw [hred]
        push_cast
        ring
      · rw [hred, segList_one]
        rfl
      · intro p hp
        rw [hred, writesOf_block] at hp
        rcases List.mem_singleton.1 hp with rfl
        exact Or.inl ⟨rfl, rfl⟩
      · intro τ
        rw [hred, if_neg]
        rintro ⟨h1, h2⟩
        rw [segList_one] at h1
        exact h2 (List.mem_singleton.1 h1)
      · intro τ h1 h2
        rw [segList_one] at h1
        exact absurd (List.mem_singleton.1 h1) h2
      · rw [hred]
        exact hlook
      · rw [hred, segList_one, progressOf_block]
        rfl
    | some v' =>
      have hlt : (aerase cached (w + tb)).length ≤ f := by
        have := aerase_length_lt (m := cached) (k := w + tb) (by rw [hlook]; rfl)
        omega
      obtain ⟨m', hm', ih1, ih2, ih3, ih4, ih5, ih6, ih7⟩ :=
        ih v' (w + tb) (aerase cached (w + tb)) hlt
      have hred : encodeLoopAux (β := β) pipe tb len (f + 1) v w cached =
          ([Out.convertRun v, Out.req (Request.writeFrame w (pipe v)),
            Out.progress (qround (100 * ((w + tb) / len)))] ++
            (encodeLoopAux pipe tb len f v' (w + tb) (aerase cached (w + tb))).1,
           (encodeLoopAux pipe tb len f v' (w + tb) (aerase cached (w + tb))).2) := by
        simp only [encodeLoopAux, hlook]
      refine ⟨m' + 1, Nat.succ_pos m', ?_, ?_, ?_, ?_, ?_, ?_, ?_⟩
      · rw [hred]
        show (encodeLoopAux pipe tb len f v' (w + tb) (aerase cached (w + tb))).2.1
          = w + ((m' + 1 : ℕ) : ℚ) * tb
        rw [ih1]
        push_cast
        ring
      · rw [hred]
        show writeTimes (_ ++ _) = _
        rw [writeTimes_append, writeTimes_block, ih2, segList_succ]
        rfl
      · intro p hp
        rw [hred] at hp
        rw [writesOf_append, writesOf_block] at hp
        rcases List.mem_append.1 hp with hp | hp
        · rcases List.mem_singleton.1 hp with rfl
          exact Or.inl ⟨rfl, rfl⟩
        · rcases ih3 p hp with ⟨h1, h2⟩ | ⟨v'', h1, h2⟩
          · exact Or.inr ⟨v', by rw [h1]; exact hlook, h2⟩
          · refine Or.inr ⟨v'', ?_, h2⟩
            rw [alookup_aerase] at h1
            by_cases hpw : p.1 = w + tb
            · rw [if_pos hpw] at h1
              exact absurd h1 (Option.noConfusion)
            · rwa [if_neg hpw] at h1
      · intro τ
        rw [hred]
        show alookup (encodeLoopAux pipe tb len f v' (w + tb)
          (aerase cached (w + tb))).2.2 τ = _
        rw [ih4 τ, alookup_aerase]
        by_cases hτw : τ = w
        · subst hτw
          have hτn : τ ∉ segList (τ + tb) m' tb := by
            intro hmem
            have := (segList_bounds htb hmem).1
            linarith
          rw [if_neg (fun h => hτn h.1), if_neg (by linarith : ¬ τ = τ + tb),
            if_neg (fun h => h.2 rfl)]
        · by_cases hτ1 : τ = w + tb
          · subst hτ1
            have hτn : (w + tb) ∉ segList (w + tb) m' tb ∧ True ∨ True := Or.inr trivial
            rw [if_neg (fun h => h.2 rfl), if_pos rfl, if_pos]
            refine ⟨?_, hτw⟩
            rw [mem_segList_succ_iff]
            right
            rcases Nat.exists_eq_succ_of_ne_zero (Nat.pos_iff_ne_zero.1 hm') with ⟨m'', rfl⟩
            rw [mem_segList_succ_iff]
            left
            rfl
          · rw [if_neg hτ1]
            by_cases hτs : τ ∈ segList (w + tb) m' tb
            · rw [if_pos ⟨hτs, hτ1⟩, if_pos ⟨mem_segList_succ_iff.2 (Or.inr hτs), hτw⟩]
            · rw [if_neg (fun h => hτs h.1), if_neg]
              rintro ⟨h1, h2⟩
              rcases mem_segList_succ_iff.1 h1 with h1 | h1
              · exact hτw h1
              · exact hτs h1
      · intro τ h1 h2
        rcases mem_segList_succ_iff.1 h1 with h1 | h1
        · exact absurd h1 h2
        · by_cases hτ1 : τ = w + tb
          · rw [hτ1, hlook]
            rfl
          · have := ih5 τ h1 hτ1
            rw [alookup_aerase, if_neg hτ1] at this
            exact this
      · rw [hred]
        exact ih6
      · rw [hred]
        show progressOf (_ ++ _) = _
        rw [progressOf_append, progressOf_block, ih7, segList_succ]
        rfl

theorem alookup_eq_none_iff {κ γ : Type} [DecidableEq κ]
    (m : List (κ × γ)) (k : κ) : alookup m k = none ↔ k ∉ akeys m := by
  rw [← alookup_isSome_iff]
  cases alookup m k <;> simp

theorem alookup_append_singleton_ne {κ γ : Type} [DecidableEq κ]
    (m : List (κ × γ)) {t τ : κ} (v : γ) (h : τ ≠ t) :
    alookup (m ++ [(t, v)]) τ = alookup m τ := by
  cases hm : alookup m τ with
  | some x => exact alookup_append_some _ hm
  | none =>
    rw [alookup_append_none _ hm]
    simp [alookup, Ne.symm h]

theorem alookup_append_singleton_self {κ γ : Type} [DecidableEq κ]
    (m : List (κ × γ)) {t : κ} (v : γ) (h : alookup m t = none) :
    alookup (m ++ [(t, v)]) t = some v := by
  rw [alookup_append_none _ h]
  simp [alookup]

theorem alookup_all_none_nil {κ γ : Type} [DecidableEq κ]
    {m : List (κ × γ)} (h : ∀ τ, alookup m τ = none) : m = [] := by
  cases m with
  | nil => rfl
  | cons p r =>
    have := h p.1
    simp [alookup] at this

theorem mem_gridList_lt {tb : ℚ} (htb : 0 < tb) {τ : ℚ} {k : ℕ}
    (h : τ ∈ gridList k tb) : τ < (k : ℚ) * tb := by
  rcases mem_gridList.1 h with ⟨j, hj, rfl⟩
  apply mul_lt_mul_of_pos_right _ htb
  exact_mod_cast hj

theorem encodeLoop_spec {α β : Type} (pipe : α → β) (tb len : ℚ) (htb : 0 < tb)
    (v : α) (w : ℚ) (cached : List (ℚ × α)) :
    ∃ m : ℕ, 0 < m ∧
      (encodeLoop pipe tb len v w cached).2.1 = w + (m : ℚ) * tb ∧
      writeTimes (encodeLoop pipe tb len v w cached).1 = segList w m tb ∧
      (∀ p ∈ writesOf (encodeLoop pipe tb len v w cached).1,
        (p.1 = w ∧ p.2 = pipe v) ∨
          ∃ v', alookup cached p.1 = some v' ∧ p.2 = pipe v') ∧
      (∀ τ, alookup (encodeLoop pipe tb len v w cached).2.2 τ =
        if τ ∈ segList w m tb ∧ τ ≠ w then none else alookup cached τ) ∧
      (∀ τ, τ ∈ segList w m tb → τ ≠ w → (alookup cached τ).isSome = true) ∧
      alookup (encodeLoop pipe tb len v w cached).2.2
        (encodeLoop pipe tb len v w cached).2.1 = none ∧
      progressOf (encodeLoop pipe tb len v w cached).1 =
        (segList w m tb).map (fun τ => progAt tb len τ) :=
  encodeLoopAux_spec pipe tb len htb cached.length v w cached (le_refl _)

theorem encodeFrame_inv {α β : Type} (pipe : α → β) (tb len : ℚ) (htb : 0 < tb)
    {processed : List (ℚ × α)} {k : ℕ} {w : ℚ} {cached : List (ℚ × α)}
    (t : ℚ) (v : α)
    (hInv : EncInv tb processed k w cached)
    (ht : t ∉ akeys processed) :
    ∃ k' : ℕ, k ≤ k' ∧
      EncInv tb (processed ++ [(t, v)]) k'
        (encodeFrame pipe tb len t v w cached).2.1
        (encodeFrame pipe tb len t v w cached).2.2 ∧
      gridList k tb ++ writeTimes (encodeFrame pipe tb len t v w cached).1 =
        gridList k' tb ∧
      (∀ p ∈ writesOf (encodeFrame pipe tb len t v w cached).1,
        ∃ v'', alookup (processed ++ [(t, v)]) p.1 = some v'' ∧ p.2 = pipe v'') ∧
      progressOf (encodeFrame pipe tb len t v w cached).1 =
        (writeTimes (encodeFrame pipe tb len t v w cached).1).map
          (fun τ => progAt tb len τ) := by
  obtain ⟨hw, hcache, hwn, hproc⟩ := hInv
  have hprocT : alookup processed t = none := (alookup_eq_none_iff _ _).2 ht
  by_cases htw : t = w
  · subst htw
    have hpw : alookup processed t = none := hprocT
    have hfr : encodeFrame pipe tb len t v t cached = encodeLoop pipe tb len v t cached := by
      simp [encodeFrame]
    obtain ⟨m, hm, e1, e2, e3, e4, e5, e6, e7⟩ := encodeLoop_spec pipe tb len htb v t cached
    have hgrid : gridList (k + m) tb = gridList k tb ++ segList t m tb := by
      rw [gridList_append, ← hw]
    have htseg : t ∈ segList t m tb :=
      mem_segList.2 ⟨0, hm, by push_cast; ring⟩
    refine ⟨k + m, Nat.le_add_right k m, ⟨?_, ?_, ?_, ?_⟩, ?_, ?_, ?_⟩
    · rw [hfr, e1, hw]
      push_cast
      ring
    · intro τ
      rw [hfr, e4 τ]
      by_cases hτs : τ ∈ segList t m tb
      · by_cases hτw : τ = t
        · subst hτw
          rw [if_neg (fun h => h.2 rfl), hwn,
            if_pos (by rw [hgrid]; exact List.mem_append.2 (Or.inr hτs))]
        · rw [if_pos ⟨hτs, hτw⟩,
            if_pos (by rw [hgrid]; exact List.mem_append.2 (Or.inr hτs))]
      · rw [if_neg (fun h => hτs h.1)]
        by_cases hτg : τ ∈ gridList k tb
        · rw [hcache τ, if_pos hτg,
            if_pos (by rw [hgrid]; exact List.mem_append.2 (Or.inl hτg))]
        · have hτn : τ ∉ gridList (k + m) tb := by
            rw [hgrid]
            intro hc
            rcases List.mem_append.1 hc with hc | hc
            · exact hτg hc
            · exact hτs hc
          have hτt : τ ≠ t := fun h => hτs (h ▸ htseg)
          rw [hcache τ, if_neg hτg, if_neg hτn,
            alookup_append_singleton_ne _ _ hτt]
    · rw [hfr]
      exact e6
    · intro τ hτ
      rw [hgrid] at hτ
      rcases List.mem_append.1 hτ with hτ | hτ
      · obtain ⟨x, hx⟩ := Option.isSome_iff_exists.1 (hproc τ hτ)
        rw [alookup_append_some _ hx]
        rfl
      · by_cases hτw : τ = t
        · subst hτw
          rw [alookup_append_singleton_self _ v hpw]
          rfl
        · have hcf := e5 τ hτ hτw
          by_cases hτg : τ ∈ gridList k tb
          · rw [hcache τ, if_pos hτg] at hcf
            exact absurd hcf (by simp)
          · rw [hcache τ, if_neg hτg] at hcf
            obtain ⟨x, hx⟩ := Option.isSome_iff_exists.1 hcf
            rw [alookup_append_some _ hx]
            rfl
    · rw [hfr, e2, hgrid]
    · intro p hp
      rw [hfr] at hp
      rcases e3 p hp with ⟨h1, h2⟩ | ⟨v', h1, h2⟩
      · refine ⟨v, ?_, h2⟩
        rw [h1]
        exact alookup_append_singleton_self _ v hpw
      · by_cases hpg : p.1 ∈ gridList k tb
        · rw [hcache p.1, if_pos hpg] at h1
          exact absurd h1 Option.noConfusion
        · rw [hcache p.1, if_neg hpg] at h1
          exact ⟨v', alookup_append_some _ h1, h2⟩
    · rw [hfr, e7, e2]
  · have hfr : encodeFrame pipe tb len t v w cached = ([], w, ainsert cached t v) := by
      simp [encodeFrame, htw]
    have htg : t ∉ gridList k tb := by
      intro hc
      have := hproc t hc
      rw [hprocT] at this
      exact absurd this (by simp)
    refine ⟨k, le_refl k, ⟨by rw [hfr]; exact hw, ?_, ?_, ?_⟩, ?_, ?_, ?_⟩
    · intro τ
      rw [hfr]
      show alookup (ainsert cached t v) τ = _
      rw [alookup_ainsert]
      by_cases hτt : t = τ
      · subst hτt
        rw [if_pos rfl, if_neg htg, alookup_append_singleton_self _ v hprocT]
      · rw [if_neg hτt, hcache τ]
        by_cases hτg : τ ∈ gridList k tb
        · rw [if_pos hτg, if_pos hτg]
        · rw [if_neg hτg, if_neg hτg,
            alookup_append_singleton_ne _ _ (fun h => hτt h.symm)]
    · rw [hfr]
      show alookup (ainsert cached t v) w = none
      rw [alookup_ainsert, if_neg htw, hwn]
    · intro τ hτ
      obtain ⟨x, hx⟩ := Option.isSome_iff_exists.1 (hproc τ hτ)
      rw [alookup_append_some _ hx]
      rfl
    · rw [hfr]
      show gridList k tb ++ writeTimes ([] : List (Out α β)) = gridList k tb
      simp [writeTimes]
    · intro p hp
      rw [hfr] at hp
      simp [writesOf] at hp
    · rw [hfr]
      show progressOf ([] : List (Out α β)) = (writeTimes ([] : List (Out α β))).map _
      simp [progressOf, writeTimes]

theorem encodeMany_cons {α β : Type} (pipe : α → β) (tb len : ℚ) (t : ℚ) (v : α)
    (calls : List (ℚ × α)) (w : ℚ) (cached : List (ℚ × α)) :
    encodeMany pipe tb len ((t, v) :: calls) w cached =
      ((encodeFrame pipe tb len t v w cached).1 ++
        (encodeMany pipe tb len calls
          (encodeFrame pipe tb len t v w cached).2.1
          (encodeFrame pipe tb len t v w cached).2.2).1,
       (encodeMany pipe tb len calls
          (encodeFrame pipe tb len t v w cached).2.1
          (encodeFrame pipe tb len t v w cached).2.2).2) := rfl

theorem encodeMany_inv {α β : Type} (pipe : α → β) (tb len : ℚ) (htb : 0 < tb) :
    ∀ (calls processed : List (ℚ × α)) (k : ℕ) (w : ℚ) (cached : List (ℚ × α)),
      ((processed ++ calls).map Prod.fst).Nodup →
      EncInv tb processed k w cached →
      ∃ k' : ℕ, k ≤ k' ∧
        EncInv tb (processed ++ calls) k'
          (encodeMany pipe tb len calls w cached).2.1
          (encodeMany pipe tb len calls w cached).2.2 ∧
        gridList k tb ++ writeTimes (encodeMany pipe tb len calls w cached).1 =
          gridList k' tb ∧
        (∀ p ∈ writesOf (encodeMany pipe tb len calls w cached).1,
          ∃ v'', alookup (processed ++ calls) p.1 = some v'' ∧ p.2 = pipe v'') ∧
        progressOf (encodeMany pipe tb len calls w cached).1 =
          (writeTimes (encodeMany pipe tb len calls w cached).1).map
            (fun τ => progAt tb len τ) := by
  intro calls
  induction calls with
  | nil =>
    intro processed k w cached hnd hInv
    refine ⟨k, le_refl k, ?_, ?_, ?_, ?_⟩
    · rw [List.append_nil]
      exact hInv
    · show gridList k tb ++ writeTimes ([] : List (Out α β)) = gridList k tb
      simp [writeTimes]
    · intro p hp
      simp [encodeMany, writesOf] at hp
    · show progressOf ([] : List (Out α β)) = _
      simp [progressOf, writeTimes, encodeMany]
  | cons c calls ih =>
    intro processed k w cached hnd hInv
    obtain ⟨t, v⟩ := c
    have ht : t ∉ akeys processed := by
      intro hc
      rw [List.map_append] at hnd
      have hdisj := (List.nodup_append.1 hnd).2.2
      exact hdisj hc (by simp)
    obtain ⟨k1, hk1, hInv1, hw1, hc1, hp1⟩ :=
      encodeFrame_inv pipe tb len htb t v hInv ht
    have hnd1 : (((processed ++ [(t, v)]) ++ calls).map Prod.fst).Nodup := by
      rw [List.append_assoc, List.singleton_append]
      exact hnd
    obtain ⟨k2, hk2, hInv2, hw2, hc2, hp2⟩ :=
      ih (processed ++ [(t, v)]) k1
        (encodeFrame pipe tb len t v w cached).2.1
        (encodeFrame pipe tb len t v w cached).2.2 hnd1 hInv1
    have happ : (processed ++ [(t, v)]) ++ calls = processed ++ (t, v) :: calls := by
      rw [List.append_assoc, List.singleton_append]
    refine ⟨k2, le_trans hk1 hk2, ?_, ?_, ?_, ?_⟩
    · rw [encodeMany_cons, ← happ]
      exact hInv2
    · rw [encodeMany_cons]
      show gridList k tb ++ writeTimes (_ ++ _) = _
      rw [writeTimes_append, ← List.append_assoc, hw1, hw2]
    · intro p hp
      rw [encodeMany_cons] at hp
      show ∃ v'', alookup (processed ++ (t, v) :: calls) p.1 = some v'' ∧ p.2 = pipe v''
      rw [← happ]
      rcases List.mem_append.1 (by
          rw [show writesOf ((encodeFrame pipe tb len t v w cached).1 ++
              (encodeMany pipe tb len calls
                (encodeFrame pipe tb len t v w cached).2.1
                (encodeFrame pipe tb len t v w cached).2.2).1) =
            writesOf (encodeFrame pipe tb len t v w cached).1 ++
              writesOf (encodeMany pipe tb len calls
                (encodeFrame pipe tb len t v w cached).2.1
                (encodeFrame pipe tb len t v w cached).2.2).1
            from writesOf_append _ _] at hp
          exact hp) with hpp | hpp
      · obtain ⟨v'', hv1, hv2⟩ := hc1 p hpp
        refine ⟨v'', alookup_append_some _ hv1, hv2⟩
      · exact hc2 p hpp
    · rw [encodeMany_cons]
      show progressOf (_ ++ _) = (writeTimes (_ ++ _)).map _
      rw [progressOf_append, writeTimes_append, List.map_append, hp1, hp2]

theorem encodeMany_complete {α β : Type} (pipe : α → β) (tb len : ℚ) (htb : 0 < tb)
    (calls : List (ℚ × α)) (n : ℕ)
    (hperm : (calls.map Prod.fst).Perm (gridList n tb)) :
    writeTimes (encodeMany pipe tb len calls 0 []).1 = gridList n tb ∧
    (encodeMany pipe tb len calls 0 []).2.1 = (n : ℚ) * tb ∧
    (encodeMany pipe tb len calls 0 []).2.2 = [] ∧
    (∀ p ∈ writesOf (encodeMany pipe tb len calls 0 []).1,
      ∃ v'', alookup calls p.1 = some v'' ∧ p.2 = pipe v'') ∧
    progressOf (encodeMany pipe tb len calls 0 []).1 =
      (writeTimes (encodeMany pipe tb len calls 0 []).1).map
        (fun τ => progAt tb len τ) := by
  have hnd : (calls.map Prod.fst).Nodup := hperm.nodup_iff.2 (gridList_nodup htb n)
  have hInv0 : EncInv (α := α) tb [] 0 0 [] := by
    refine ⟨by push_cast; ring, ?_, rfl, ?_⟩
    · intro τ
      rw [show gridList 0 tb = [] from rfl]
      simp [alookup]
    · intro τ hτ
      rw [show gridList 0 tb = [] from rfl] at hτ
      simp at hτ
  obtain ⟨k', _, ⟨hw', hcache', hwn', hproc'⟩, hwts, hcont, hprog⟩ :=
    encodeMany_inv pipe tb len htb calls [] 0 0 [] (by simpa using hnd) hInv0
  rw [List.nil_append] at hcache' hproc' hcont
  have hmemcalls : ∀ τ : ℚ, τ ∈ akeys calls ↔ τ ∈ gridList n tb := by
    intro τ
    exact ⟨fun h => hperm.mem_iff.1 h, fun h => hperm.mem_iff.2 h⟩
  have hkn : k' = n := by
    have hle : k' ≤ n := by
      by_contra hlt
      push_neg at hlt
      have hmem : ((n : ℚ) * tb) ∈ gridList k' tb := mem_gridList.2 ⟨n, hlt, rfl⟩
      have := hproc' _ hmem
      rw [alookup_isSome_iff, hmemcalls] at this
      rcases mem_gridList.1 this with ⟨j, hj, hjn⟩
      exact absurd (natCast_mul_tb_inj htb hjn.symm) (Nat.ne_of_lt hj)
    have hge : ¬ k' < n := by
      intro hlt
      have hmemg : ((k' : ℚ) * tb) ∈ gridList n tb := mem_gridList.2 ⟨k', hlt, rfl⟩
      have hsome : (alookup calls ((k' : ℚ) * tb)).isSome = true := by
        rw [alookup_isSome_iff, hmemcalls]
        exact hmemg
      have hnone := hwn'
      rw [hw', hcache' ((k' : ℚ) * tb)] at hnone
      by_cases hg : ((k' : ℚ) * tb) ∈ gridList k' tb
      · have := mem_gridList_lt htb hg
        exact absurd this (lt_irrefl _)
      · rw [if_neg hg] at hnone
        rw [hnone] at hsome
        exact absurd hsome (by simp)
    omega
  subst hkn
  have hwrites : writeTimes (encodeMany pipe tb len calls 0 []).1 = gridList k' tb := by
    have := hwts
    rw [show gridList 0 tb = [] from rfl, List.nil_append] at this
    exact this
  have hcnil : (encodeMany pipe tb len calls 0 []).2.2 = [] := by
    apply alookup_all_none_nil
    intro τ
    rw [hcache' τ]
    by_cases hg : τ ∈ gridList k' tb
    · rw [if_pos hg]
    · rw [if_neg hg]
      rw [alookup_eq_none_iff]
      intro hc
      exact hg ((hmemcalls τ).1 hc)
  exact ⟨hwrites, hw', hcnil, hcont, hprog⟩

/-! ### `EncodeFrame` on the full exporter state -/

theorem encodeFrameS_of_ne {α β H : Type} (cfg : Config α β H) {t : ℚ} (v : α)
    {s : ExpState α H} (h : ¬ t = s.waiting) :
    encodeFrameS cfg t v s = ({ s with cached := ainsert s.cached t v }, []) := by
  simp [encodeFrameS, h]

theorem encodeFrameS_of_eq_notdone {α β H : Type} (cfg : Config α β H) {t : ℚ}
    (v : α) {s : ExpState α H} (h : t = s.waiting)
    (h2 : ¬ cfg.len ≤ (encodeLoop cfg.pipe cfg.tb cfg.len v s.waiting s.cached).2.1) :
    encodeFrameS cfg t v s =
      ({ s with waiting := (encodeLoop cfg.pipe cfg.tb cfg.len v s.waiting s.cached).2.1,
                cached := (encodeLoop cfg.pipe cfg.tb cfg.len v s.waiting s.cached).2.2 },
       (encodeLoop cfg.pipe cfg.tb cfg.len v s.waiting s.cached).1) := by
  simp [encodeFrameS, h, h2]

theorem encodeFrameS_of_eq_done_sound {α β H : Type} (cfg : Config α β H) {t : ℚ}
    (v : α) {s : ExpState α H} (h : t = s.waiting)
    (h2 : cfg.len ≤ (encodeLoop cfg.pipe cfg.tb cfg.len v s.waiting s.cached).2.1)
    (h3 : s.sound_done = true) :
    encodeFrameS cfg t v s =
      ({ s with waiting := (encodeLoop cfg.pipe cfg.tb cfg.len v s.waiting s.cached).2.1,
                cached := (encodeLoop cfg.pipe cfg.tb cfg.len v s.waiting s.cached).2.2,
                video_done := true, export_status := true, closeRequested := true },
       (encodeLoop cfg.pipe cfg.tb cfg.len v s.waiting s.cached).1 ++
         [Out.req Request.closeEnc]) := by
  simp [encodeFrameS, h, h2, exportSucceeded, h3]

theorem encodeFrameS_of_eq_done_nosound {α β H : Type} (cfg : Config α β H) {t : ℚ}
    (v : α) {s : ExpState α H} (h : t = s.waiting)
    (h2 : cfg.len ≤ (encodeLoop cfg.pipe cfg.tb cfg.len v s.waiting s.cached).2.1)
    (h3 : s.sound_done = false) :
    encodeFrameS cfg t v s =
      ({ s with waiting := (encodeLoop cfg.pipe cfg.tb cfg.len v s.waiting s.cached).2.1,
                cached := (encodeLoop cfg.pipe cfg.tb cfg.len v s.waiting s.cached).2.2,
                video_done := true },
       (encodeLoop cfg.pipe cfg.tb cfg.len v s.waiting s.cached).1 ++ []) := by
  simp [encodeFrameS, h, h2, exportSucceeded, h3]

theorem encodeLoopAux_sound_free {α β : Type} (pipe : α → β) (tb len : ℚ) :
    ∀ (fuel : ℕ) (v : α) (w : ℚ) (cached : List (ℚ × α)),
      soundOuts (encodeLoopAux pipe tb len fuel v w cached).1 = [] := by
  intro fuel
  induction fuel with
  | zero =>
    intro v w cached
    rfl
  | succ f ih =>
    intro v w cached
    cases hlook : alookup cached (w + tb) with
    | none =>
      have hred : encodeLoopAux (β := β) pipe tb len (f + 1) v w cached =
          ([Out.convertRun v, Out.req (Request.writeFrame w (pipe v)),
            Out.progress (qround (100 * ((w + tb) / len)))], w + tb, cached) := by
        simp only [encodeLoopAux, hlook]
      rw [hred]
      rfl
    | some v' =>
      have hred : encodeLoopAux (β := β) pipe tb len (f + 1) v w cached =
          ([Out.convertRun v, Out.req (Request.writeFrame w (pipe v)),
            Out.progress (qround (100 * ((w + tb) / len)))] ++
            (encodeLoopAux pipe tb len f v' (w + tb) (aerase cached (w + tb))).1,
           (encodeLoopAux pipe tb len f v' (w + tb) (aerase cached (w + tb))).2) := by
        simp only [encodeLoopAux, hlook]
      rw [hred]
      show soundOuts (_ ++ _) = []
      rw [soundOuts_append, ih]
      rfl

theorem encodeLoop_sound_free {α β : Type} (pipe : α → β) (tb len : ℚ)
    (v : α) (w : ℚ) (cached : List (ℚ × α)) :
    soundOuts (encodeLoop pipe tb len v w cached).1 = [] :=
  encodeLoopAux_sound_free pipe tb len cached.length v w cached

theorem encodeFrameS_state {α β H : Type} (cfg : Config α β H) (t : ℚ) (v : α)
    (s : ExpState α H) :
    (encodeFrameS cfg t v s).1.waiting =
      (encodeFrame (β := β) cfg.pipe cfg.tb cfg.len t v s.waiting s.cached).2.1 ∧
    (encodeFrameS cfg t v s).1.cached =
      (encodeFrame (β := β) cfg.pipe cfg.tb cfg.len t v s.waiting s.cached).2.2 := by
  by_cases h : t = s.waiting
  · rw [show encodeFrame (β := β) cfg.pipe cfg.tb cfg.len t v s.waiting s.cached =
        encodeLoop cfg.pipe cfg.tb cfg.len v s.waiting s.cached from by
          simp [encodeFrame, h]]
    by_cases h2 : cfg.len ≤ (encodeLoop cfg.pipe cfg.tb cfg.len v s.waiting s.cached).2.1
    · cases h3 : s.sound_done
      · rw [encodeFrameS_of_eq_done_nosound cfg v h h2 h3]
        exact ⟨rfl, rfl⟩
      · rw [encodeFrameS_of_eq_done_sound cfg v h h2 h3]
        exact ⟨rfl, rfl⟩
    · rw [encodeFrameS_of_eq_notdone cfg v h h2]
      exact ⟨rfl, rfl⟩
  · rw [encodeFrameS_of_ne cfg v h,
      show encodeFrame (β := β) cfg.pipe cfg.tb cfg.len t v s.waiting s.cached =
        ([], s.waiting, ainsert s.cached t v) from by simp [encodeFrame, h]]
    exact ⟨rfl, rfl⟩

theorem encodeFrameS_outs {α β H : Type} (cfg : Config α β H) (t : ℚ) (v : α)
    (s : ExpState α H) :
    writesOf (encodeFrameS cfg t v s).2 =
      writesOf (encodeFrame (β := β) cfg.pipe cfg.tb cfg.len t v s.waiting s.cached).1 ∧
    progressOf (encodeFrameS cfg t v s).2 =
      progressOf (encodeFrame (β := β) cfg.pipe cfg.tb cfg.len t v s.waiting s.cached).1 ∧
    writeTimes (encodeFrameS cfg t v s).2 =
      writeTimes (encodeFrame (β := β) cfg.pipe cfg.tb cfg.len t v s.waiting s.cached).1 ∧
    soundOuts (encodeFrameS cfg t v s).2 = [] := by
  by_cases h : t = s.waiting
  · rw [show encodeFrame (β := β) cfg.pipe cfg.tb cfg.len t v s.waiting s.cached =
        encodeLoop cfg.pipe cfg.tb cfg.len v s.waiting s.cached from by
          simp [encodeFrame, h]]
    by_cases h2 : cfg.len ≤ (encodeLoop cfg.pipe cfg.tb cfg.len v s.waiting s.cached).2.1
    · cases h3 : s.sound_done
      · rw [encodeFrameS_of_eq_done_nosound cfg v h h2 h3]
        rw [show (encodeLoop cfg.pipe cfg.tb cfg.len v s.waiting s.cached).1 ++
              ([] : List (Out α β)) =
            (encodeLoop cfg.pipe cfg.tb cfg.len v s.waiting s.cached).1
          from List.append_nil _]
        exact ⟨rfl, rfl, rfl,
          encodeLoop_sound_free cfg.pipe cfg.tb cfg.len v s.waiting s.cached⟩
      · rw [encodeFrameS_of_eq_done_sound cfg v h h2 h3]
        refine ⟨?_, ?_, ?_, ?_⟩
        · show writesOf (_ ++ _) = _
          rw [writesOf_append]
          rw [show writesOf [Out.req (α := α) (Request.closeEnc (β := β))] = []
            from rfl]
          exact List.append_nil _
        · show progressOf (_ ++ _) = _
          rw [progressOf_append]
          rw [show progressOf [Out.req (α := α) (Request.closeEnc (β := β))] = []
            from rfl]
          exact List.append_nil _
        · show writeTimes (_ ++ _) = _
          rw [writeTimes_append]
          rw [show writeTimes [Out.req (α := α) (Request.closeEnc (β := β))] = []
            from rfl]
          exact List.append_nil _
        · show soundOuts (_ ++ _) = _
          rw [soundOuts_append,
            encodeLoop_sound_free cfg.pipe cfg.tb cfg.len v s.waiting s.cached]
          rfl
    · rw [encodeFrameS_of_eq_notdone cfg v h h2]
      exact ⟨rfl, rfl, rfl, encodeLoop_sound_free cfg.pipe cfg.tb cfg.len v s.waiting s.cached⟩
  · rw [encodeFrameS_of_ne cfg v h,
      show encodeFrame (β := β) cfg.pipe cfg.tb cfg.len t v s.waiting s.cached =
        ([], s.waiting, ainsert s.cached t v) from by simp [encodeFrame, h]]
    exact ⟨rfl, rfl, rfl, rfl⟩

theorem encodeFrameS_fields {α β H : Type} (cfg : Config α β H) (t : ℚ) (v : α)
    (s : ExpState α H) :
    (encodeFrameS cfg t v s).1.delivered = s.delivered ∧
    (encodeFrameS cfg t v s).1.matched = s.matched ∧
    (encodeFrameS cfg t v s).1.hashDone = s.hashDone ∧
    (encodeFrameS cfg t v s).1.renderPhase = s.renderPhase ∧
    (encodeFrameS cfg t v s).1.renderRanges = s.renderRanges ∧
    (encodeFrameS cfg t v s).1.sound_done = s.sound_done ∧
    (encodeFrameS cfg t v s).1.ended = s.ended ∧
    (encodeFrameS cfg t v s).1.closedDone = s.closedDone ∧
    (encodeFrameS cfg t v s).1.openAnswered = s.openAnswered ∧
    (encodeFrameS cfg t v s).1.hashRequested = s.hashRequested ∧
    (encodeFrameS cfg t v s).1.soundInvalidated = s.soundInvalidated ∧
    (encodeFrameS cfg t v s).1.soundQueueDone = s.soundQueueDone ∧
    (encodeFrameS cfg t v s).1.soundWritten = s.soundWritten ∧
    (encodeFrameS cfg t v s).1.soundCompleted = s.soundCompleted ∧
    (encodeFrameS cfg t v s).1.export_msg = s.export_msg := by
  by_cases h : t = s.waiting
  · by_cases h2 : cfg.len ≤ (encodeLoop cfg.pipe cfg.tb cfg.len v s.waiting s.cached).2.1
    · cases h3 : s.sound_done
      · rw [encodeFrameS_of_eq_done_nosound cfg v h h2 h3]
        exact ⟨rfl, rfl, rfl, rfl, rfl, h3, rfl, rfl, rfl, rfl, rfl, rfl, rfl, rfl, rfl⟩
      · rw [encodeFrameS_of_eq_done_sound cfg v h h2 h3]
        exact ⟨rfl, rfl, rfl, rfl, rfl, h3, rfl, rfl, rfl, rfl, rfl, rfl, rfl, rfl, rfl⟩
    · rw [encodeFrameS_of_eq_notdone cfg v h h2]
      exact ⟨rfl, rfl, rfl, rfl, rfl, rfl, rfl, rfl, rfl, rfl, rfl, rfl, rfl, rfl, rfl⟩
  · rw [encodeFrameS_of_ne cfg v h]
    exact ⟨rfl, rfl, rfl, rfl, rfl, rfl, rfl, rfl, rfl, rfl, rfl, rfl, rfl, rfl, rfl⟩

theorem encodeFrameS_flags {α β H : Type} (cfg : Config α β H) (t : ℚ) (v : α)
    (s : ExpState α H) :
    (s.video_done = true → (encodeFrameS cfg t v s).1.video_done = true) ∧
    (s.export_status = true → (encodeFrameS cfg t v s).1.export_status = true) ∧
    (s.closeRequested = true → (encodeFrameS cfg t v s).1.closeRequested = true) ∧
    (CloseFlagsOk s → CloseFlagsOk (encodeFrameS cfg t v s).1) := by
  by_cases h : t = s.waiting
  · by_cases h2 : cfg.len ≤ (encodeLoop cfg.pipe cfg.tb cfg.len v s.waiting s.cached).2.1
    · cases h3 : s.sound_done
      · rw [encodeFrameS_of_eq_done_nosound cfg v h h2 h3]
        refine ⟨fun _ => rfl, fun hh => hh, fun hh => hh, ?_⟩
        intro hc hc2
        obtain ⟨hv, hs, he⟩ := hc hc2
        rw [h3] at hs
        exact absurd hs (by simp)
      · rw [encodeFrameS_of_eq_done_sound cfg v h h2 h3]
        exact ⟨fun _ => rfl, fun _ => rfl, fun _ => rfl,
          fun _ _ => ⟨rfl, h3, rfl⟩⟩
    · rw [encodeFrameS_of_eq_notdone cfg v h h2]
      exact ⟨fun hh => hh, fun hh => hh, fun hh => hh, fun hc => hc⟩
  · rw [encodeFrameS_of_ne cfg v h]
    exact ⟨fun hh => hh, fun hh => hh, fun hh => hh, fun hc => hc⟩

theorem ctlEq_refl {α H : Type} (s : ExpState α H) : ctlEq s s :=
  ⟨rfl, rfl, rfl, rfl, rfl, rfl, rfl, rfl, rfl, rfl, rfl, rfl, rfl, rfl, rfl⟩

theorem ctlEq_trans {α H : Type} {s1 s2 s3 : ExpState α H}
    (h1 : ctlEq s1 s2) (h2 : ctlEq s2 s3) : ctlEq s1 s3 := by
  obtain ⟨a1, a2, a3, a4, a5, a6, a7, a8, a9, a10, a11, a12, a13, a14, a15⟩ := h1
  obtain ⟨b1, b2, b3, b4, b5, b6, b7, b8, b9, b10, b11, b12, b13, b14, b15⟩ := h2
  exact ⟨a1.trans b1, a2.trans b2, a3.trans b3, a4.trans b4, a5.trans b5,
    a6.trans b6, a7.trans b7, a8.trans b8, a9.trans b9, a10.trans b10,
    a11.trans b11, a12.trans b12, a13.trans b13, a14.trans b14, a15.trans b15⟩

theorem flagsMono_refl {α H : Type} (s : ExpState α H) : flagsMono s s :=
  ⟨fun h => h, fun h => h, fun h => h⟩

theorem flagsMono_trans {α H : Type} {s1 s2 s3 : ExpState α H}
    (h1 : flagsMono s1 s2) (h2 : flagsMono s2 s3) : flagsMono s1 s3 :=
  ⟨fun h => h1.1 (h2.1 h), fun h => h1.2.1 (h2.2.1 h), fun h => h1.2.2 (h2.2.2 h)⟩

theorem encodeFrameS_ctl {α β H : Type} (cfg : Config α β H) (t : ℚ) (v : α)
    (s : ExpState α H) : ctlEq (encodeFrameS cfg t v s).1 s :=
  encodeFrameS_fields cfg t v s

theorem encodeFrameS_mono {α β H : Type} (cfg : Config α β H) (t : ℚ) (v : α)
    (s : ExpState α H) : flagsMono (encodeFrameS cfg t v s).1 s :=
  ⟨(encodeFrameS_flags cfg t v s).1, (encodeFrameS_flags cfg t v s).2.1,
    (encodeFrameS_flags cfg t v s).2.2.1⟩

theorem foldEncode_spec {α β H : Type} [DecidableEq H] (cfg : Config α β H)
    (v : α) :
    ∀ (ds : List ℚ) (s : ExpState α H) (outs0 : List (Out α β)),
      (ds.foldl (fun acc td =>
          let r := encodeFrameS cfg td v acc.1
          (r.1, acc.2 ++ r.2)) (s, outs0)).1.waiting =
        (encodeMany cfg.pipe cfg.tb cfg.len (ds.map (fun d => (d, v)))
          s.waiting s.cached).2.1 ∧
      (ds.foldl (fun acc td =>
          let r := encodeFrameS cfg td v acc.1
          (r.1, acc.2 ++ r.2)) (s, outs0)).1.cached =
        (encodeMany cfg.pipe cfg.tb cfg.len (ds.map (fun d => (d, v)))
          s.waiting s.cached).2.2 ∧
      writesOf (ds.foldl (fun acc td =>
          let r := encodeFrameS cfg td v acc.1
          (r.1, acc.2 ++ r.2)) (s, outs0)).2 =
        writesOf outs0 ++ writesOf (encodeMany cfg.pipe cfg.tb cfg.len
          (ds.map (fun d => (d, v))) s.waiting s.cached).1 ∧
      progressOf (ds.foldl (fun acc td =>
          let r := encodeFrameS cfg td v acc.1
          (r.1, acc.2 ++ r.2)) (s, outs0)).2 =
        progressOf outs0 ++ progressOf (encodeMany cfg.pipe cfg.tb cfg.len
          (ds.map (fun d => (d, v))) s.waiting s.cached).1 ∧
      writeTimes (ds.foldl (fun acc td =>
          let r := encodeFrameS cfg td v acc.1
          (r.1, acc.2 ++ r.2)) (s, outs0)).2 =
        writeTimes outs0 ++ writeTimes (encodeMany cfg.pipe cfg.tb cfg.len
          (ds.map (fun d => (d, v))) s.waiting s.cached).1 ∧
      soundOuts (ds.foldl (fun acc td =>
          let r := encodeFrameS cfg td v acc.1
          (r.1, acc.2 ++ r.2)) (s, outs0)).2 = soundOuts outs0 ∧
      ctlEq (ds.foldl (fun acc td =>
          let r := encodeFrameS cfg td v acc.1
          (r.1, acc.2 ++ r.2)) (s, outs0)).1 s ∧
      flagsMono (ds.foldl (fun acc td =>
          let r := encodeFrameS cfg td v acc.1
          (r.1, acc.2 ++ r.2)) (s, outs0)).1 s ∧
      (CloseFlagsOk s → CloseFlagsOk (ds.foldl (fun acc td =>
          let r := encodeFrameS cfg td v acc.1
          (r.1, acc.2 ++ r.2)) (s, outs0)).1) := by
  intro ds
  induction ds with
  | nil =>
    intro s outs0
    refine ⟨rfl, rfl, ?_, ?_, ?_, rfl, ctlEq_refl s, flagsMono_refl s, fun h => h⟩
    · show writesOf outs0 = writesOf outs0 ++ writesOf ([] : List (Out α β))
      rw [show writesOf ([] : List (Out α β)) = [] from rfl, List.append_nil]
    · show progressOf outs0 = progressOf outs0 ++ progressOf ([] : List (Out α β))
      rw [show progressOf ([] : List (Out α β)) = [] from rfl, List.append_nil]
    · show writeTimes outs0 = writeTimes outs0 ++ writeTimes ([] : List (Out α β))
      rw [show writeTimes ([] : List (Out α β)) = [] from rfl, List.append_nil]
  | cons d ds ih =>
    intro s outs0
    have hfold : ((d :: ds).foldl (fun acc td =>
        let r := encodeFrameS cfg td v acc.1
        (r.1, acc.2 ++ r.2)) (s, outs0)) =
      (ds.foldl (fun acc td =>
        let r := encodeFrameS cfg td v acc.1
        (r.1, acc.2 ++ r.2))
        ((encodeFrameS cfg d v s).1, outs0 ++ (encodeFrameS cfg d v s).2)) := rfl
    obtain ⟨i1, i2, i3, i4, i5, i6, i7, i8, i9⟩ :=
      ih (encodeFrameS cfg d v s).1 (outs0 ++ (encodeFrameS cfg d v s).2)
    obtain ⟨st1, st2⟩ := encodeFrameS_state cfg d v s
    obtain ⟨o1, o2, o3, o4⟩ := encodeFrameS_outs cfg d v s
    have hem : encodeMany cfg.pipe cfg.tb cfg.len
        (((d :: ds)).map (fun q => (q, v))) s.waiting s.cached =
      ((encodeFrame cfg.pipe cfg.tb cfg.len d v s.waiting s.cached).1 ++
        (encodeMany cfg.pipe cfg.tb cfg.len (ds.map (fun q => (q, v)))
          (encodeFrame cfg.pipe cfg.tb cfg.len d v s.waiting s.cached).2.1
          (encodeFrame cfg.pipe cfg.tb cfg.len d v s.waiting s.cached).2.2).1,
       (encodeMany cfg.pipe cfg.tb cfg.len (ds.map (fun q => (q, v)))
          (encodeFrame cfg.pipe cfg.tb cfg.len d v s.waiting s.cached).2.1
          (encodeFrame cfg.pipe cfg.tb cfg.len d v s.waiting s.cached).2.2).2) := by
      rw [show ((d :: ds)).map (fun q => (q, v)) =
          (d, v) :: ds.map (fun q => (q, v)) from rfl]
      exact encodeMany_cons cfg.pipe cfg.tb cfg.len d v _ s.waiting s.cached
    rw [hfold, hem]
    rw [st1, st2] at i1 i2 i3 i4 i5
    refine ⟨i1, i2, ?_, ?_, ?_, ?_, ctlEq_trans i7 (encodeFrameS_ctl cfg d v s),
      flagsMono_trans i8 (encodeFrameS_mono cfg d v s),
      fun h => i9 ((encodeFrameS_flags cfg d v s).2.2.2 h)⟩
    · rw [i3, writesOf_append, writesOf_append, o1, List.append_assoc]
    · rw [i4, progressOf_append, progressOf_append, o2, List.append_assoc]
    · rw [i5, writeTimes_append, writeTimes_append, o3, List.append_assoc]
    · rw [i6, soundOuts_append, o4, List.append_nil]

theorem frameRendered_spec {α β H : Type} [DecidableEq H] (cfg : Config α β H)
    (t : ℚ) (v : α) (s : ExpState α H) :
    (frameRendered cfg t v s).1.waiting =
      (encodeMany cfg.pipe cfg.tb cfg.len
        ((t, v) :: (dupTimes cfg.thm s.matched t).map (fun d => (d, v)))
        s.waiting s.cached).2.1 ∧
    (frameRendered cfg t v s).1.cached =
      (encodeMany cfg.pipe cfg.tb cfg.len
        ((t, v) :: (dupTimes cfg.thm s.matched t).map (fun d => (d, v)))
        s.waiting s.cached).2.2 ∧
    writesOf (frameRendered cfg t v s).2 =
      writesOf (encodeMany cfg.pipe cfg.tb cfg.len
        ((t, v) :: (dupTimes cfg.thm s.matched t).map (fun d => (d, v)))
        s.waiting s.cached).1 ∧
    progressOf (frameRendered cfg t v s).2 =
      progressOf (encodeMany cfg.pipe cfg.tb cfg.len
        ((t, v) :: (dupTimes cfg.thm s.matched t).map (fun d => (d, v)))
        s.waiting s.cached).1 ∧
    writeTimes (frameRendered cfg t v s).2 =
      writeTimes (encodeMany cfg.pipe cfg.tb cfg.len
        ((t, v) :: (dupTimes cfg.thm s.matched t).map (fun d => (d, v)))
        s.waiting s.cached).1 ∧
    soundOuts (frameRendered cfg t v s).2 = [] ∧
    (frameRendered cfg t v s).1.delivered = s.delivered ++ [(t, v)] ∧
    (frameRendered cfg t v s).1.matched = s.matched ∧
    (frameRendered cfg t v s).1.hashDone = s.hashDone ∧
    (frameRendered cfg t v s).1.renderPhase = s.renderPhase ∧
    (frameRendered cfg t v s).1.renderRanges = s.renderRanges ∧
    (frameRendered cfg t v s).1.sound_done = s.sound_done ∧
    (frameRendered cfg t v s).1.ended = s.ended ∧
    (frameRendered cfg t v s).1.closedDone = s.closedDone ∧
    (frameRendered cfg t v s).1.openAnswered = s.openAnswered ∧
    (frameRendered cfg t v s).1.hashRequested = s.hashRequested ∧
    (frameRendered cfg t v s).1.soundInvalidated = s.soundInvalidated ∧
    (frameRendered cfg t v s).1.soundQueueDone = s.soundQueueDone ∧
    (frameRendered cfg t v s).1.soundWritten = s.soundWritten ∧
    (frameRendered cfg t v s).1.soundCompleted = s.soundCompleted ∧
    (frameRendered cfg t v s).1.export_msg = s.export_msg ∧
    flagsMono (frameRendered cfg t v s).1 s ∧
    (CloseFlagsOk s → CloseFlagsOk (frameRendered cfg t v s).1) := by
  have hfr : frameRendered cfg t v s =
      (dupTimes cfg.thm s.matched t).foldl
        (fun acc td =>
          let r := encodeFrameS cfg td v acc.1
          (r.1, acc.2 ++ r.2))
        ((encodeFrameS cfg t v { s with delivered := s.delivered ++ [(t, v)] }).1,
         (encodeFrameS cfg t v { s with delivered := s.delivered ++ [(t, v)] }).2) := rfl
  obtain ⟨f1, f2, f3, f4, f5, f6, f7, f8, f9⟩ :=
    foldEncode_spec cfg v (dupTimes cfg.thm s.matched t)
      (encodeFrameS cfg t v { s with delivered := s.delivered ++ [(t, v)] }).1
      (encodeFrameS cfg t v { s with delivered := s.delivered ++ [(t, v)] }).2
  obtain ⟨st1, st2⟩ :=
    encodeFrameS_state cfg t v { s with delivered := s.delivered ++ [(t, v)] }
  obtain ⟨o1, o2, o3, o4⟩ :=
    encodeFrameS_outs cfg t v { s with delivered := s.delivered ++ [(t, v)] }
  obtain ⟨c1, c2, c3, c4, c5, c6, c7, c8, c9, c10, c11, c12, c13, c14, c15⟩ :=
    encodeFrameS_fields cfg t v { s with delivered := s.delivered ++ [(t, v)] }
  have hs0w : ({ s with delivered := s.delivered ++ [(t, v)] } :
      ExpState α H).waiting = s.waiting := rfl
  have hs0c : ({ s with delivered := s.delivered ++ [(t, v)] } :
      ExpState α H).cached = s.cached := rfl
  rw [hs0w, hs0c] at st1 st2 o1 o2 o3
  have hem := encodeMany_cons cfg.pipe cfg.tb cfg.len t v
    ((dupTimes cfg.thm s.matched t).map (fun d => (d, v))) s.waiting s.cached
  rw [st1, st2] at f1 f2 f3 f4 f5
  have hctl := ctlEq_trans f7
    (encodeFrameS_ctl cfg t v { s with delivered := s.delivered ++ [(t, v)] })
  obtain ⟨d1, d2, d3, d4, d5, d6, d7, d8, d9, d10, d11, d12, d13, d14, d15⟩ := hctl
  refine ⟨?_, ?_, ?_, ?_, ?_, ?_, d1, d2, d3, d4, d5, d6, d7, d8, d9, d10,
    d11, d12, d13, d14, d15, ?_, ?_⟩
  · rw [hfr, f1, hem]
  · rw [hfr, f2, hem]
  · rw [hfr, f3, o1, hem, writesOf_append]
  · rw [hfr, f4, o2, hem, progressOf_append]
  · rw [hfr, f5, o3, hem, writeTimes_append]
  · rw [hfr, f6, o4]
  · exact flagsMono_trans f8
      (encodeFrameS_mono cfg t v { s with delivered := s.delivered ++ [(t, v)] })
  · intro hc
    exact f9 ((encodeFrameS_flags cfg t v
      { s with delivered := s.delivered ++ [(t, v)] }).2.2.2 hc)

/-! ### Step equations for the remaining events -/

theorem step_openSucceeded_eq {α β H : Type} [DecidableEq H] (cfg : Config α β H)
    (s : ExpState α H) :
    step (β := β) cfg s Event.openSucceeded =
      ({ s with openAnswered := true,
                hashRequested := if s.video_done then s.hashRequested else true,
                soundInvalidated := if s.sound_done then s.soundInvalidated else true },
       (if s.video_done then [] else
         [Out.req (Request.setMode true), Out.req (Request.invalidateVideo 0 cfg.len)]) ++
       (if s.sound_done then [] else [Out.req (Request.invalidateSound 0 cfg.len)])) := by
  by_cases hv : s.video_done <;> by_cases hs : s.sound_done <;>
    simp [step, hv, hs]

theorem step_openFailed_eq {α β H : Type} [DecidableEq H] (cfg : Config α β H)
    (s : ExpState α H) :
    step (β := β) cfg s Event.openFailed =
      ({ s with openAnswered := true, export_msg := "Failed to open encoder",
                ended := true },
       [Out.exportEnded s.export_status]) := rfl

theorem step_videoQueueComplete_eq {α β H : Type} [DecidableEq H]
    (cfg : Config α β H) (s : ExpState α H) :
    step (β := β) cfg s Event.videoQueueComplete = videoHashesComplete cfg s := rfl

theorem step_cachedFrameReady_eq {α β H : Type} [DecidableEq H]
    (cfg : Config α β H) (s : ExpState α H) (t : ℚ) (v : α) :
    step (β := β) cfg s (Event.cachedFrameReady t v) = frameRendered cfg t v s := rfl

theorem step_soundQueueComplete_eq {α β H : Type} [DecidableEq H]
    (cfg : Config α β H) (s : ExpState α H) :
    step (β := β) cfg s Event.soundQueueComplete =
      ({ s with soundQueueDone := true, soundWritten := true },
       [Out.req Request.writeSound]) := rfl

theorem step_soundComplete_done {α β H : Type} [DecidableEq H]
    (cfg : Config α β H) {s : ExpState α H} (hv : s.video_done = true) :
    step (β := β) cfg s Event.soundComplete =
      ({ s with soundCompleted := true, sound_done := true,
                export_status := true, closeRequested := true },
       [Out.req Request.closeEnc]) := by
  simp [step, exportSucceeded, hv]

theorem step_soundComplete_notdone {α β H : Type} [DecidableEq H]
    (cfg : Config α β H) {s : ExpState α H} (hv : s.video_done = false) :
    step (β := β) cfg s Event.soundComplete =
      ({ s with soundCompleted := true, sound_done := true }, []) := by
  simp [step, exportSucceeded, hv]

theorem step_closed_eq {α β H : Type} [DecidableEq H] (cfg : Config α β H)
    (s : ExpState α H) :
    step (β := β) cfg s Event.closed =
      ({ s with closedDone := true, ended := true },
       [Out.progress 100, Out.exportEnded s.export_status]) := rfl

theorem writeTimes_invalidates {α β : Type} (rs : List TimeRange) :
    writeTimes (α := α) (β := β)
      (rs.map (fun r => Out.req (Request.invalidateVideo r.tin r.tout))) = [] := by
  induction rs with
  | nil => rfl
  | cons r rs ih =>
    simp only [List.map_cons]
    show writeTimes (Out.req (Request.invalidateVideo r.tin r.tout) :: _) = []
    rw [show writeTimes (α := α) (β := β)
        (Out.req (Request.invalidateVideo r.tin r.tout) :: (rs.map (fun r =>
          Out.req (Request.invalidateVideo r.tin r.tout)))) =
      writeTimes (rs.map (fun r => Out.req (Request.invalidateVideo r.tin r.tout)))
      from rfl]
    exact ih

theorem writesOf_invalidates {α β : Type} (rs : List TimeRange) :
    writesOf (α := α) (β := β)
      (rs.map (fun r => Out.req (Request.invalidateVideo r.tin r.tout))) = [] := by
  induction rs with
  | nil => rfl
  | cons r rs ih =>
    simp only [List.map_cons]
    rw [show writesOf (α := α) (β := β)
        (Out.req (Request.invalidateVideo r.tin r.tout) :: (rs.map (fun r =>
          Out.req (Request.invalidateVideo r.tin r.tout)))) =
      writesOf (rs.map (fun r => Out.req (Request.invalidateVideo r.tin r.tout)))
      from rfl]
    exact ih

theorem progressOf_invalidates {α β : Type} (rs : List TimeRange) :
    progressOf (α := α) (β := β)
      (rs.map (fun r => Out.req (Request.invalidateVideo r.tin r.tout))) = [] := by
  induction rs with
  | nil => rfl
  | cons r rs ih =>
    simp only [List.map_cons]
    rw [show progressOf (α := α) (β := β)
        (Out.req (Request.invalidateVideo r.tin r.tout) :: (rs.map (fun r =>
          Out.req (Request.invalidateVideo r.tin r.tout)))) =
      progressOf (rs.map (fun r => Out.req (Request.invalidateVideo r.tin r.tout)))
      from rfl]
    exact ih

theorem soundOuts_invalidates {α β : Type} (rs : List TimeRange) :
    soundOuts (α := α) (β := β)
      (rs.map (fun r => Out.req (Request.invalidateVideo r.tin r.tout))) = [] := by
  induction rs with
  | nil => rfl
  | cons r rs ih =>
    simp only [List.map_cons]
    rw [show soundOuts (α := α) (β := β)
        (Out.req (Request.invalidateVideo r.tin r.tout) :: (rs.map (fun r =>
          Out.req (Request.invalidateVideo r.tin r.tout)))) =
      soundOuts (rs.map (fun r => Out.req (Request.invalidateVideo r.tin r.tout)))
      from rfl]
    exact ih

/-! ### Strictly increasing write order -/

theorem encodeFrame_chain {α β : Type} (pipe : α → β) (tb len : ℚ) (htb : 0 < tb)
    (t : ℚ) (v : α) (w : ℚ) (cached : List (ℚ × α)) :
    w ≤ (encodeFrame pipe tb len t v w cached).2.1 ∧
    List.Chain' (· < ·) (writeTimes (encodeFrame pipe tb len t v w cached).1) ∧
    (∀ x ∈ writeTimes (encodeFrame pipe tb len t v w cached).1,
      w ≤ x ∧ x < (encodeFrame pipe tb len t v w cached).2.1) := by
  by_cases h : t = w
  · rw [show encodeFrame pipe tb len t v w cached =
        encodeLoop pipe tb len v w cached from by simp [encodeFrame, h]]
    obtain ⟨m, hm, e1, e2, _, _, _, _, _⟩ := encodeLoop_spec pipe tb len htb v w cached
    have hmtb : (0 : ℚ) < (m : ℚ) * tb := by
      apply mul_pos _ htb
      exact_mod_cast hm
    refine ⟨by rw [e1]; linarith, by rw [e2]; exact chain_segList htb w m, ?_⟩
    intro x hx
    rw [e2] at hx
    obtain ⟨hx1, hx2⟩ := segList_bounds htb hx
    rw [e1]
    exact ⟨hx1, hx2⟩
  · rw [show encodeFrame pipe tb len t v w cached =
        ([], w, ainsert cached t v) from by simp [encodeFrame, h]]
    exact ⟨le_refl w, List.chain'_nil, fun x hx => by simp [writeTimes] at hx⟩

theorem chain_append_bounded {w1 : ℚ} {l1 l2 : List ℚ}
    (h1 : List.Chain' (· < ·) l1) (h2 : List.Chain' (· < ·) l2)
    (hb1 : ∀ x ∈ l1, x < w1) (hb2 : ∀ x ∈ l2, w1 ≤ x) :
    List.Chain' (· < ·) (l1 ++ l2) := by
  apply List.Chain'.append h1 h2
  intro x hx y hy
  have hx1 : x ∈ l1 := List.mem_of_mem_getLast? hx
  have hy1 : y ∈ l2 := List.mem_of_mem_head? hy
  calc x < w1 := hb1 x hx1
    _ ≤ y := hb2 y hy1

theorem encodeMany_chain {α β : Type} (pipe : α → β) (tb len : ℚ) (htb : 0 < tb) :
    ∀ (calls : List (ℚ × α)) (w : ℚ) (cached : List (ℚ × α)),
      w ≤ (encodeMany pipe tb len calls w cached).2.1 ∧
      List.Chain' (· < ·) (writeTimes (encodeMany pipe tb len calls w cached).1) ∧
      (∀ x ∈ writeTimes (encodeMany pipe tb len calls w cached).1,
        w ≤ x ∧ x < (encodeMany pipe tb len calls w cached).2.1) := by
  intro calls
  induction calls with
  | nil =>
    intro w cached
    refine ⟨le_refl w, List.chain'_nil, ?_⟩
    intro x hx
    rw [show encodeMany (β := β) pipe tb len [] w cached = ([], w, cached)
      from rfl] at hx
    simp [writeTimes] at hx
  | cons c calls ih =>
    intro w cached
    obtain ⟨t, v⟩ := c
    obtain ⟨e1, e2, e3⟩ := encodeFrame_chain pipe tb len htb t v w cached
    obtain ⟨i1, i2, i3⟩ := ih (encodeFrame pipe tb len t v w cached).2.1
      (encodeFrame pipe tb len t v w cached).2.2
    rw [encodeMany_cons]
    show w ≤ (encodeMany pipe tb len calls _ _).2.1 ∧
      List.Chain' (· < ·) (writeTimes (_ ++ _)) ∧ _
    rw [writeTimes_append]
    refine ⟨le_trans e1 i1, ?_, ?_⟩
    · apply chain_append_bounded e2 i2
      · intro x hx
        exact (e3 x hx).2
      · intro x hx
        exact (i3 x hx).1
    · intro x hx
      rcases List.mem_append.1 hx with hx | hx
      · obtain ⟨hx1, hx2⟩ := e3 x hx
        exact ⟨hx1, lt_of_lt_of_le hx2 i1⟩
      · obtain ⟨hx1, hx2⟩ := i3 x hx
        exact ⟨le_trans e1 hx1, hx2⟩

theorem step_chain {α β H : Type} [DecidableEq H] (cfg : Config α β H)
    (htb : 0 < cfg.tb) (s : ExpState α H) (e : Event α) :
    s.waiting ≤ (step (β := β) cfg s e).1.waiting ∧
    List.Chain' (· < ·) (writeTimes (step (β := β) cfg s e).2) ∧
    (∀ x ∈ writeTimes (step (β := β) cfg s e).2,
      s.waiting ≤ x ∧ x < (step (β := β) cfg s e).1.waiting) := by
  cases e with
  | openSucceeded =>
    rw [step_openSucceeded_eq]
    refine ⟨le_refl _, ?_, ?_⟩ <;>
      by_cases hv : s.video_done <;> by_cases hs : s.sound_done <;>
        simp [hv, hs, writeTimes]
  | openFailed =>
    rw [step_openFailed_eq]
    exact ⟨le_refl _, List.chain'_nil, fun x hx => by simp [writeTimes] at hx⟩
  | videoQueueComplete =>
    rw [step_videoQueueComplete_eq]
    show s.waiting ≤ s.waiting ∧ _
    refine ⟨le_refl _, ?_, ?_⟩
    · show List.Chain' (· < ·) (writeTimes (Out.req (Request.setMode false) :: _))
      rw [show writeTimes (α := α) (β := β) (Out.req (Request.setMode false) ::
          ((collapse cfg.tb cfg.thm [⟨0, cfg.len⟩] s.matched).2.1.map
            (fun r => Out.req (Request.invalidateVideo r.tin r.tout)))) =
        writeTimes ((collapse cfg.tb cfg.thm [⟨0, cfg.len⟩] s.matched).2.1.map
            (fun r => Out.req (Request.invalidateVideo r.tin r.tout))) from rfl,
        writeTimes_invalidates]
      exact List.chain'_nil
    · intro x hx
      rw [show writeTimes (videoHashesComplete (β := β) cfg s).2 =
        writeTimes ((collapse cfg.tb cfg.thm [⟨0, cfg.len⟩] s.matched).2.1.map
            (fun r => Out.req (Request.invalidateVideo r.tin r.tout))) from rfl,
        writeTimes_invalidates] at hx
      simp at hx
  | cachedFrameReady t v =>
    rw [step_cachedFrameReady_eq]
    obtain ⟨f1, _, _, _, f5, _⟩ := frameRendered_spec cfg t v s
    obtain ⟨c1, c2, c3⟩ := encodeMany_chain cfg.pipe cfg.tb cfg.len htb
      ((t, v) :: (dupTimes cfg.thm s.matched t).map (fun d => (d, v)))
      s.waiting s.cached
    rw [f1, f5]
    exact ⟨c1, c2, c3⟩
  | soundQueueComplete =>
    rw [step_soundQueueComplete_eq]
    exact ⟨le_refl _, List.chain'_nil, fun x hx => by simp [writeTimes] at hx⟩
  | soundComplete =>
    cases hv : s.video_done
    · rw [step_soundComplete_notdone cfg hv]
      exact ⟨le_refl _, List.chain'_nil, fun x hx => by simp [writeTimes] at hx⟩
    · rw [step_soundComplete_done cfg hv]
      exact ⟨le_refl _, List.chain'_nil, fun x hx => by simp [writeTimes] at hx⟩
  | closed =>
    rw [step_closed_eq]
    exact ⟨le_refl _, List.chain'_nil, fun x hx => by simp [writeTimes] at hx⟩

theorem run_chain {α β H : Type} [DecidableEq H] (cfg : Config α β H)
    (htb : 0 < cfg.tb) :
    ∀ (events : List (Event α)) (s : ExpState α H),
      s.waiting ≤ (run (β := β) cfg s events).1.waiting ∧
      List.Chain' (· < ·) (writeTimes (run (β := β) cfg s events).2) ∧
      (∀ x ∈ writeTimes (run (β := β) cfg s events).2,
        s.waiting ≤ x ∧ x < (run (β := β) cfg s events).1.waiting) := by
  intro events
  induction events with
  | nil =>
    intro s
    refine ⟨le_refl _, List.chain'_nil, ?_⟩
    intro x hx
    rw [show run (β := β) cfg s [] = (s, []) from rfl] at hx
    simp [writeTimes] at hx
  | cons e events ih =>
    intro s
    obtain ⟨e1, e2, e3⟩ := step_chain cfg htb s e
    obtain ⟨i1, i2, i3⟩ := ih (step (β := β) cfg s e).1
    rw [show run (β := β) cfg s (e :: events) =
      ((run cfg (step cfg s e).1 events).1,
       (step cfg s e).2 ++ (run cfg (step cfg s e).1 events).2) from rfl]
    rw [show writeTimes ((step (β := β) cfg s e).2 ++
        (run cfg (step cfg s e).1 events).2) =
      writeTimes (step (β := β) cfg s e).2 ++
        writeTimes (run cfg (step cfg s e).1 events).2 from writeTimes_append _ _]
    refine ⟨le_trans e1 i1, ?_, ?_⟩
    · apply chain_append_bounded e2 i2
      · intro x hx
        exact (e3 x hx).2
      · intro x hx
        exact (i3 x hx).1
    · intro x hx
      rcases List.mem_append.1 hx with hx | hx
      · obtain ⟨hx1, hx2⟩ := e3 x hx
        exact ⟨hx1, lt_of_lt_of_le hx2 i1⟩
      · obtain ⟨hx1, hx2⟩ := i3 x hx
        exact ⟨le_trans e1 hx1, hx2⟩

/-! ### Persistence of stale cache entries -/

theorem encodeFrame_stale {α β : Type} (pipe : α → β) (tb len : ℚ) (htb : 0 < tb)
    {τ w : ℚ} {cached : List (ℚ × α)} (t : ℚ) (v : α)
    (hτ : τ < w) (hc : (alookup cached τ).isSome = true) :
    (alookup (encodeFrame pipe tb len t v w cached).2.2 τ).isSome = true ∧
    τ < (encodeFrame pipe tb len t v w cached).2.1 := by
  by_cases h : t = w
  · rw [show encodeFrame pipe tb len t v w cached =
        encodeLoop pipe tb len v w cached from by simp [encodeFrame, h]]
    obtain ⟨m, hm, e1, _, _, e4, _, _, _⟩ := encodeLoop_spec pipe tb len htb v w cached
    constructor
    · rw [e4 τ, if_neg]
      · exact hc
      · rintro ⟨h1, _⟩
        have := (segList_bounds htb h1).1
        linarith
    · rw [e1]
      have : (0 : ℚ) < (m : ℚ) * tb := by
        apply mul_pos _ htb
        exact_mod_cast hm
      linarith
  · rw [show encodeFrame pipe tb len t v w cached =
        ([], w, ainsert cached t v) from by simp [encodeFrame, h]]
    refine ⟨?_, hτ⟩
    show (alookup (ainsert cached t v) τ).isSome = true
    rw [alookup_ainsert]
    by_cases ht : t = τ
    · rw [if_pos ht]
      rfl
    · rw [if_neg ht]
      exact hc

theorem encodeMany_stale {α β : Type} (pipe : α → β) (tb len : ℚ) (htb : 0 < tb) :
    ∀ (calls : List (ℚ × α)) {τ w : ℚ} {cached : List (ℚ × α)},
      τ < w → (alookup cached τ).isSome = true →
      (alookup (encodeMany pipe tb len calls w cached).2.2 τ).isSome = true ∧
      τ < (encodeMany pipe tb len calls w cached).2.1 := by
  intro calls
  induction calls with
  | nil =>
    intro τ w cached hτ hc
    exact ⟨hc, hτ⟩
  | cons c calls ih =>
    intro τ w cached hτ hc
    obtain ⟨t, v⟩ := c
    obtain ⟨s1, s2⟩ := encodeFrame_stale pipe tb len htb t v hτ hc
    rw [encodeMany_cons]
    exact ih s2 s1

theorem step_stale {α β H : Type} [DecidableEq H] (cfg : Config α β H)
    (htb : 0 < cfg.tb) (s : ExpState α H) (e : Event α) {τ : ℚ}
    (hτ : τ < s.waiting) (hc : (alookup s.cached τ).isSome = true) :
    (alookup (step (β := β) cfg s e).1.cached τ).isSome = true ∧
    τ < (step (β := β) cfg s e).1.waiting := by
  cases e with
  | openSucceeded =>
    rw [step_openSucceeded_eq]
    exact ⟨hc, hτ⟩
  | openFailed =>
    rw [step_openFailed_eq]
    exact ⟨hc, hτ⟩
  | videoQueueComplete =>
    rw [step_videoQueueComplete_eq]
    exact ⟨hc, hτ⟩
  | cachedFrameReady t v =>
    rw [step_cachedFrameReady_eq]
    obtain ⟨f1, f2, _⟩ := frameRendered_spec cfg t v s
    rw [f1, f2]
    exact (encodeMany_stale cfg.pipe cfg.tb cfg.len htb _ hτ hc).symm.symm
  | soundQueueComplete =>
    rw [step_soundQueueComplete_eq]
    exact ⟨hc, hτ⟩
  | soundComplete =>
    cases hv : s.video_done
    · rw [step_soundComplete_notdone cfg hv]
      exact ⟨hc, hτ⟩
    · rw [step_soundComplete_done cfg hv]
      exact ⟨hc, hτ⟩
  | closed =>
    rw [step_closed_eq]
    exact ⟨hc, hτ⟩

theorem run_stale {α β H : Type} [DecidableEq H] (cfg : Config α β H)
    (htb : 0 < cfg.tb) :
    ∀ (events : List (Event α)) (s : ExpState α H) {τ : ℚ},
      τ < s.waiting → (alookup s.cached τ).isSome = true →
      (alookup (run (β := β) cfg s events).1.cached τ).isSome = true ∧
      τ < (run (β := β) cfg s events).1.waiting := by
  intro events
  induction events with
  | nil =>
    intro s τ hτ hc
    exact ⟨hc, hτ⟩
  | cons e events ih =>
    intro s τ hτ hc
    obtain ⟨s1, s2⟩ := step_stale cfg htb s e hτ hc
    exact ih (step (β := β) cfg s e).1 s2 s1

/-! ### The dedup scan -/

theorem alookupD_ainsert_self {H : Type} [DecidableEq H] (m : List (H × List ℚ))
    (h : H) (x : List ℚ) : alookupD (ainsert m h x) h = x := by
  unfold alookupD
  rw [alookup_ainsert, if_pos rfl]
  rfl

theorem alookupD_ainsert_ne {H : Type} [DecidableEq H] (m : List (H × List ℚ))
    {h h' : H} (x : List ℚ) (hne : h ≠ h') :
    alookupD (ainsert m h x) h' = alookupD m h' := by
  unfold alookupD
  rw [alookup_ainsert, if_neg hne]

theorem scanInner_kept {H : Type} [DecidableEq H] (tb : ℚ) (h : H) :
    ∀ (l : List (ℚ × H)) (rs : List TimeRange) (m : List (H × List ℚ)),
      (scanInner tb h l rs m).1 = l.filter (fun p => p.2 ≠ h) := by
  intro l
  induction l with
  | nil =>
    intro rs m
    rfl
  | cons p l ih =>
    intro rs m
    obtain ⟨t', h'⟩ := p
    by_cases hp : h' = h
    · rw [show scanInner tb h ((t', h') :: l) rs m =
          scanInner tb h l (removeTimeRange rs ⟨t', t' + tb⟩)
            (ainsert m h (alookupD m h ++ [t'])) from by simp [scanInner, hp]]
      rw [ih]
      rw [show ((t', h') :: l).filter (fun p => p.2 ≠ h) =
        l.filter (fun p => p.2 ≠ h) from by simp [List.filter_cons, hp]]
    · rw [show scanInner tb h ((t', h') :: l) rs m =
          ((t', h') :: (scanInner tb h l rs m).1, (scanInner tb h l rs m).2)
          from by simp [scanInner, hp]]
      rw [show ((t', h') :: l).filter (fun p => p.2 ≠ h) =
        (t', h') :: l.filter (fun p => p.2 ≠ h) from by simp [List.filter_cons, hp]]
      rw [show ((t', h') :: (scanInner tb h l rs m).1,
          (scanInner tb h l rs m).2).1 =
        (t', h') :: (scanInner tb h l rs m).1 from rfl, ih]

theorem scanInner_ranges {H : Type} [DecidableEq H] (tb : ℚ) (h : H) :
    ∀ (l : List (ℚ × H)) (rs : List TimeRange) (m : List (H × List ℚ)),
      (scanInner tb h l rs m).2.1 =
        ((l.filter (fun p => p.2 = h)).map Prod.fst).foldl
          (fun acc d => removeTimeRange acc ⟨d, d + tb⟩) rs := by
  intro l
  induction l with
  | nil =>
    intro rs m
    rfl
  | cons p l ih =>
    intro rs m
    obtain ⟨t', h'⟩ := p
    by_cases hp : h' = h
    · rw [show scanInner tb h ((t', h') :: l) rs m =
          scanInner tb h l (removeTimeRange rs ⟨t', t' + tb⟩)
            (ainsert m h (alookupD m h ++ [t'])) from by simp [scanInner, hp]]
      rw [ih]
      rw [show ((t', h') :: l).filter (fun p => p.2 = h) =
        (t', h') :: l.filter (fun p => p.2 = h) from by simp [List.filter_cons, hp]]
      rfl
    · rw [show scanInner tb h ((t', h') :: l) rs m =
          ((t', h') :: (scanInner tb h l rs m).1, (scanInner tb h l rs m).2)
          from by simp [scanInner, hp]]
      rw [show ((t', h') :: l).filter (fun p => p.2 = h) =
        l.filter (fun p => p.2 = h) from by simp [List.filter_cons, hp]]
      exact ih rs m

theorem scanInner_matched_self {H : Type} [DecidableEq H] (tb : ℚ) (h : H) :
    ∀ (l : List (ℚ × H)) (rs : List TimeRange) (m : List (H × List ℚ)),
      alookupD (scanInner tb h l rs m).2.2 h =
        alookupD m h ++ (l.filter (fun p => p.2 = h)).map Prod.fst := by
  intro l
  induction l with
  | nil =>
    intro rs m
    show alookupD m h = alookupD m h ++ []
    rw [List.append_nil]
  | cons p l ih =>
    intro rs m
    obtain ⟨t', h'⟩ := p
    by_cases hp : h' = h
    · rw [show scanInner tb h ((t', h') :: l) rs m =
          scanInner tb h l (removeTimeRange rs ⟨t', t' + tb⟩)
            (ainsert m h (alookupD m h ++ [t'])) from by simp [scanInner, hp]]
      rw [ih, alookupD_ainsert_self]
      rw [show ((t', h') :: l).filter (fun p => p.2 = h) =
        (t', h') :: l.filter (fun p => p.2 = h) from by simp [List.filter_cons, hp]]
      simp
    · rw [show scanInner tb h ((t', h') :: l) rs m =
          ((t', h') :: (scanInner tb h l rs m).1, (scanInner tb h l rs m).2)
          from by simp [scanInner, hp]]
      rw [show ((t', h') :: l).filter (fun p => p.2 = h) =
        l.filter (fun p => p.2 = h) from by simp [List.filter_cons, hp]]
      exact ih rs m

theorem scanInner_matched_ne {H : Type} [DecidableEq H] (tb : ℚ) (h : H) :
    ∀ (l : List (ℚ × H)) (rs : List TimeRange) (m : List (H × List ℚ))
      (h' : H), h ≠ h' →
      alookupD (scanInner tb h l rs m).2.2 h' = alookupD m h' := by
  intro l
  induction l with
  | nil =>
    intro rs m h' _
    rfl
  | cons p l ih =>
    intro rs m h' hne
    obtain ⟨t', hh⟩ := p
    by_cases hp : hh = h
    · rw [show scanInner tb h ((t', hh) :: l) rs m =
          scanInner tb h l (removeTimeRange rs ⟨t', t' + tb⟩)
            (ainsert m h (alookupD m h ++ [t'])) from by simp [scanInner, hp]]
      rw [ih _ _ h' hne, alookupD_ainsert_ne _ _ hne]
    · rw [show scanInner tb h ((t', hh) :: l) rs m =
          ((t', hh) :: (scanInner tb h l rs m).1, (scanInner tb h l rs m).2)
          from by simp [scanInner, hp]]
      exact ih rs m h' hne

theorem collapseAux_fuel_eq {H : Type} [DecidableEq H] (tb : ℚ) :
    ∀ (n : ℕ) (l : List (ℚ × H)), l.length ≤ n →
      ∀ (f1 f2 : ℕ), l.length ≤ f1 → l.length ≤ f2 →
        ∀ (rs : List TimeRange) (m : List (H × List ℚ)),
          collapseAux tb f1 l rs m = collapseAux tb f2 l rs m := by
  intro n
  induction n with
  | zero =>
    intro l hl f1 f2 _ _ rs m
    rw [List.length_eq_zero.1 (Nat.le_zero.1 hl)]
    cases f1 <;> cases f2 <;> rfl
  | succ n ih =>
    intro l hl f1 f2 hf1 hf2 rs m
    cases l with
    | nil => cases f1 <;> cases f2 <;> rfl
    | cons p rest =>
      obtain ⟨t, h⟩ := p
      simp only [List.length_cons] at hl hf1 hf2
      cases f1 with
      | zero => omega
      | succ g1 =>
        cases f2 with
        | zero => omega
        | succ g2 =>
          show ((t, h) :: (collapseAux tb g1 (rest.filter (fun p => p.2 ≠ h))
              (scanInner tb h rest rs m).2.1 (scanInner tb h rest rs m).2.2).1,
            (collapseAux tb g1 (rest.filter (fun p => p.2 ≠ h))
              (scanInner tb h rest rs m).2.1 (scanInner tb h rest rs m).2.2).2) =
            ((t, h) :: (collapseAux tb g2 (rest.filter (fun p => p.2 ≠ h))
              (scanInner tb h rest rs m).2.1 (scanInner tb h rest rs m).2.2).1,
            (collapseAux tb g2 (rest.filter (fun p => p.2 ≠ h))
              (scanInner tb h rest rs m).2.1 (scanInner tb h rest rs m).2.2).2)
          have hfl := List.length_filter_le (fun p => decide (p.2 ≠ h)) rest
          rw [ih (rest.filter (fun p => p.2 ≠ h)) (by omega) g1 g2
            (by omega) (by omega)]

theorem survivorsAux_fuel_eq {H : Type} [DecidableEq H] :
    ∀ (n : ℕ) (l : List (ℚ × H)), l.length ≤ n →
      ∀ (f1 f2 : ℕ), l.length ≤ f1 → l.length ≤ f2 →
        survivorsAux f1 l = survivorsAux f2 l := by
  intro n
  induction n with
  | zero =>
    intro l hl f1 f2 _ _
    rw [List.length_eq_zero.1 (Nat.le_zero.1 hl)]
    cases f1 <;> cases f2 <;> rfl
  | succ n ih =>
    intro l hl f1 f2 hf1 hf2
    cases l with
    | nil => cases f1 <;> cases f2 <;> rfl
    | cons p rest =>
      obtain ⟨t, h⟩ := p
      simp only [List.length_cons] at hl hf1 hf2
      cases f1 with
      | zero => omega
      | succ g1 =>
        cases f2 with
        | zero => omega
        | succ g2 =>
          show (t, h) :: survivorsAux g1 (rest.filter (fun p => p.2 ≠ h)) =
            (t, h) :: survivorsAux g2 (rest.filter (fun p => p.2 ≠ h))
          have hfl := List.length_filter_le (fun p => decide (p.2 ≠ h)) rest
          rw [ih (rest.filter (fun p => p.2 ≠ h)) (by omega) g1 g2
            (by omega) (by omega)]

theorem removedOfAux_fuel_eq {H : Type} [DecidableEq H] :
    ∀ (n : ℕ) (l : List (ℚ × H)), l.length ≤ n →
      ∀ (f1 f2 : ℕ), l.length ≤ f1 → l.length ≤ f2 →
        removedOfAux f1 l = removedOfAux f2 l := by
  intro n
  induction n with
  | zero =>
    intro l hl f1 f2 _ _
    rw [List.length_eq_zero.1 (Nat.le_zero.1 hl)]
    cases f1 <;> cases f2 <;> rfl
  | succ n ih =>
    intro l hl f1 f2 hf1 hf2
    cases l with
    | nil => cases f1 <;> cases f2 <;> rfl
    | cons p rest =>
      obtain ⟨t, h⟩ := p
      simp only [List.length_cons] at hl hf1 hf2
      cases f1 with
      | zero => omega
      | succ g1 =>
        cases f2 with
        | zero => omega
        | succ g2 =>
          show (rest.filter (fun p => p.2 = h)).map Prod.fst ++
              removedOfAux g1 (rest.filter (fun p => p.2 ≠ h)) =
            (rest.filter (fun p => p.2 = h)).map Prod.fst ++
              removedOfAux g2 (rest.filter (fun p => p.2 ≠ h))
          have hfl := List.length_filter_le (fun p => decide (p.2 ≠ h)) rest
          rw [ih (rest.filter (fun p => p.2 ≠ h)) (by omega)
            g1 g2 (by omega) (by omega)]

theorem collapse_nil {H : Type} [DecidableEq H] (tb : ℚ) (rs : List TimeRange)
    (m : List (H × List ℚ)) : collapse tb [] rs m = ([], rs, m) := rfl

theorem collapse_cons {H : Type} [DecidableEq H] (tb : ℚ) (t : ℚ) (h : H)
    (rest : List (ℚ × H)) (rs : List TimeRange) (m : List (H × List ℚ)) :
    collapse tb ((t, h) :: rest) rs m =
      ((t, h) :: (collapse tb (rest.filter (fun p => p.2 ≠ h))
          (scanInner tb h rest rs m).2.1 (scanInner tb h rest rs m).2.2).1,
       (collapse tb (rest.filter (fun p => p.2 ≠ h))
          (scanInner tb h rest rs m).2.1 (scanInner tb h rest rs m).2.2).2) := by
  show ((t, h) :: (collapseAux tb rest.length (rest.filter (fun p => p.2 ≠ h))
      (scanInner tb h rest rs m).2.1 (scanInner tb h rest rs m).2.2).1,
    (collapseAux tb rest.length (rest.filter (fun p => p.2 ≠ h))
      (scanInner tb h rest rs m).2.1 (scanInner tb h rest rs m).2.2).2) = _
  have hfl := List.length_filter_le (fun p => decide (p.2 ≠ h)) rest
  rw [collapseAux_fuel_eq tb rest.length (rest.filter (fun p => p.2 ≠ h))
    (by omega) rest.length (rest.filter (fun p => p.2 ≠ h)).length
    (by omega) (by omega)]
  rfl

theorem survivors_nil {H : Type} [DecidableEq H] :
    survivors (H := H) [] = [] := rfl

theorem survivors_cons {H : Type} [DecidableEq H] (t : ℚ) (h : H)
    (rest : List (ℚ × H)) :
    survivors ((t, h) :: rest) =
      (t, h) :: survivors (rest.filter (fun p => p.2 ≠ h)) := by
  show (t, h) :: survivorsAux rest.length (rest.filter (fun p => p.2 ≠ h)) = _
  have hfl := List.length_filter_le (fun p => decide (p.2 ≠ h)) rest
  rw [survivorsAux_fuel_eq rest.length (rest.filter (fun p => p.2 ≠ h))
    (by omega) rest.length (rest.filter (fun p => p.2 ≠ h)).length
    (by omega) (by omega)]
  rfl

theorem removedOf_nil {H : Type} [DecidableEq H] :
    removedOf (H := H) [] = [] := rfl

theorem removedOf_cons {H : Type} [DecidableEq H] (t : ℚ) (h : H)
    (rest : List (ℚ × H)) :
    removedOf ((t, h) :: rest) =
      (rest.filter (fun p => p.2 = h)).map Prod.fst ++
        removedOf (rest.filter (fun p => p.2 ≠ h)) := by
  show (rest.filter (fun p => p.2 = h)).map Prod.fst ++
      removedOfAux rest.length (rest.filter (fun p => p.2 ≠ h)) = _
  have hfl := List.length_filter_le (fun p => decide (p.2 ≠ h)) rest
  rw [removedOfAux_fuel_eq rest.length (rest.filter (fun p => p.2 ≠ h))
    (by omega) rest.length (rest.filter (fun p => p.2 ≠ h)).length
    (by omega) (by omega)]
  rfl

theorem collapse_surv {H : Type} [DecidableEq H] (tb : ℚ) :
    ∀ (l : List (ℚ × H)) (rs : List TimeRange) (m : List (H × List ℚ)),
      (collapse tb l rs m).1 = survivors l := by
  have key : ∀ (n : ℕ) (l : List (ℚ × H)), l.length ≤ n →
      ∀ (rs : List TimeRange) (m : List (H × List ℚ)),
        (collapse tb l rs m).1 = survivors l := by
    intro n
    induction n with
    | zero =>
      intro l hl rs m
      rw [List.length_eq_zero.1 (Nat.le_zero.1 hl), collapse_nil, survivors_nil]
    | succ n ih =>
      intro l hl rs m
      cases l with
      | nil => rw [collapse_nil, survivors_nil]
      | cons p rest =>
        obtain ⟨t, h⟩ := p
        rw [collapse_cons, survivors_cons]
        have hlen : (rest.filter (fun p => p.2 ≠ h)).length ≤ n := by
          have h1 := List.length_filter_le (fun p => decide (p.2 ≠ h)) rest
          simp only [List.length_cons] at hl
          omega
        rw [show ((t, h) :: (collapse tb (rest.filter (fun p => p.2 ≠ h))
            (scanInner tb h rest rs m).2.1 (scanInner tb h rest rs m).2.2).1,
           (collapse tb (rest.filter (fun p => p.2 ≠ h))
            (scanInner tb h rest rs m).2.1 (scanInner tb h rest rs m).2.2).2).1 =
          (t, h) :: (collapse tb (rest.filter (fun p => p.2 ≠ h))
            (scanInner tb h rest rs m).2.1 (scanInner tb h rest rs m).2.2).1
          from rfl]
        rw [ih _ hlen]
  exact fun l rs m => key l.length l (le_refl _) rs m

theorem collapse_ranges {H : Type} [DecidableEq H] (tb : ℚ) :
    ∀ (l : List (ℚ × H)) (rs : List TimeRange) (m : List (H × List ℚ)),
      (collapse tb l rs m).2.1 =
        (removedOf l).foldl (fun acc d => removeTimeRange acc ⟨d, d + tb⟩) rs := by
  have key : ∀ (n : ℕ) (l : List (ℚ × H)), l.length ≤ n →
      ∀ (rs : List TimeRange) (m : List (H × List ℚ)),
        (collapse tb l rs m).2.1 =
          (removedOf l).foldl (fun acc d => removeTimeRange acc ⟨d, d + tb⟩) rs := by
    intro n
    induction n with
    | zero =>
      intro l hl rs m
      rw [List.length_eq_zero.1 (Nat.le_zero.1 hl), collapse_nil, removedOf_nil]
      rfl
    | succ n ih =>
      intro l hl rs m
      cases l with
      | nil =>
        rw [collapse_nil, removedOf_nil]
        rfl
      | cons p rest =>
        obtain ⟨t, h⟩ := p
        rw [collapse_cons, removedOf_cons]
        have hlen : (rest.filter (fun p => p.2 ≠ h)).length ≤ n := by
          have h1 := List.length_filter_le (fun p => decide (p.2 ≠ h)) rest
          simp only [List.length_cons] at hl
          omega
        rw [show ((t, h) :: (collapse tb (rest.filter (fun p => p.2 ≠ h))
            (scanInner tb h rest rs m).2.1 (scanInner tb h rest rs m).2.2).1,
           (collapse tb (rest.filter (fun p => p.2 ≠ h))
            (scanInner tb h rest rs m).2.1 (scanInner tb h rest rs m).2.2).2).2.1 =
          (collapse tb (rest.filter (fun p => p.2 ≠ h))
            (scanInner tb h rest rs m).2.1 (scanInner tb h rest rs m).2.2).2.1
          from rfl]
        rw [ih _ hlen, scanInner_ranges, List.foldl_append]
  exact fun l rs m => key l.length l (le_refl _) rs m

theorem collapse_matched_untouched {H : Type} [DecidableEq H] (tb : ℚ) :
    ∀ (l : List (ℚ × H)) (rs : List TimeRange) (m : List (H × List ℚ)) (h0 : H),
      h0 ∉ l.map Prod.snd →
      alookupD (collapse tb l rs m).2.2 h0 = alookupD m h0 := by
  have key : ∀ (n : ℕ) (l : List (ℚ × H)), l.length ≤ n →
      ∀ (rs : List TimeRange) (m : List (H × List ℚ)) (h0 : H),
        h0 ∉ l.map Prod.snd →
        alookupD (collapse tb l rs m).2.2 h0 = alookupD m h0 := by
    intro n
    induction n with
    | zero =>
      intro l hl rs m h0 _
      rw [List.length_eq_zero.1 (Nat.le_zero.1 hl), collapse_nil]
    | succ n ih =>
      intro l hl rs m h0 hh0
      cases l with
      | nil => rw [collapse_nil]
      | cons p rest =>
        obtain ⟨t, h⟩ := p
        rw [collapse_cons]
        have hlen : (rest.filter (fun p => p.2 ≠ h)).length ≤ n := by
          have h1 := List.length_filter_le (fun p => decide (p.2 ≠ h)) rest
          simp only [List.length_cons] at hl
          omega
        have hne : h ≠ h0 := by
          intro hc
          apply hh0
          rw [← hc]
          simp
        have hh0' : h0 ∉ (rest.filter (fun p => p.2 ≠ h)).map Prod.snd := by
          intro hc
          apply hh0
          rcases List.mem_map.1 hc with ⟨q, hq, rfl⟩
          exact List.mem_map.2 ⟨q, List.mem_cons_of_mem _ (List.mem_of_mem_filter hq), rfl⟩
        rw [show ((t, h) :: (collapse tb (rest.filter (fun p => p.2 ≠ h))
            (scanInner tb h rest rs m).2.1 (scanInner tb h rest rs m).2.2).1,
           (collapse tb (rest.filter (fun p => p.2 ≠ h))
            (scanInner tb h rest rs m).2.1 (scanInner tb h rest rs m).2.2).2).2.2 =
          (collapse tb (rest.filter (fun p => p.2 ≠ h))
            (scanInner tb h rest rs m).2.1 (scanInner tb h rest rs m).2.2).2.2
          from rfl]
        rw [ih _ hlen _ _ _ hh0', scanInner_matched_ne tb h rest rs m h0 hne]
  exact fun l rs m h0 hh0 => key l.length l (le_refl _) rs m h0 hh0

theorem not_mem_snd_filter_ne {H : Type} [DecidableEq H] (h : H)
    (l : List (ℚ × H)) : h ∉ (l.filter (fun p => p.2 ≠ h)).map Prod.snd := by
  intro hc
  rcases List.mem_map.1 hc with ⟨q, hq, hq2⟩
  have := (List.mem_filter.1 hq).2
  rw [decide_eq_true_eq] at this
  exact this hq2

theorem collapse_matched_head {H : Type} [DecidableEq H] (tb : ℚ) (t : ℚ) (h : H)
    (rest : List (ℚ × H)) (rs : List TimeRange) (m : List (H × List ℚ)) :
    alookupD (collapse tb ((t, h) :: rest) rs m).2.2 h =
      alookupD m h ++ (rest.filter (fun p => p.2 = h)).map Prod.fst := by
  rw [collapse_cons]
  rw [show ((t, h) :: (collapse tb (rest.filter (fun p => p.2 ≠ h))
      (scanInner tb h rest rs m).2.1 (scanInner tb h rest rs m).2.2).1,
     (collapse tb (rest.filter (fun p => p.2 ≠ h))
      (scanInner tb h rest rs m).2.1 (scanInner tb h rest rs m).2.2).2).2.2 =
    (collapse tb (rest.filter (fun p => p.2 ≠ h))
      (scanInner tb h rest rs m).2.1 (scanInner tb h rest rs m).2.2).2.2
    from rfl]
  rw [collapse_matched_untouched tb _ _ _ h (not_mem_snd_filter_ne h rest),
    scanInner_matched_self]

theorem filter_partition_perm {γ : Type} (p : γ → Prop) [DecidablePred p]
    (l : List γ) :
    (l.filter (fun x => p x) ++ l.filter (fun x => ¬ p x)).Perm l := by
  induction l with
  | nil => exact List.Perm.refl []
  | cons x l ih =>
    by_cases hx : p x
    · rw [show (x :: l).filter (fun x => p x) = x :: l.filter (fun x => p x)
        from by simp [List.filter_cons, hx],
        show (x :: l).filter (fun x => ¬ p x) = l.filter (fun x => ¬ p x)
        from by simp [List.filter_cons, hx]]
      exact List.Perm.cons x ih
    · rw [show (x :: l).filter (fun x => p x) = l.filter (fun x => p x)
        from by simp [List.filter_cons, hx],
        show (x :: l).filter (fun x => ¬ p x) = x :: l.filter (fun x => ¬ p x)
        from by simp [List.filter_cons, hx]]
      exact List.Perm.trans List.perm_middle (List.Perm.cons x ih)

theorem keys_partition {H : Type} [DecidableEq H] (h : H) (l : List (ℚ × H)) :
    ((l.filter (fun p => p.2 = h)).map Prod.fst ++
      (l.filter (fun p => p.2 ≠ h)).map Prod.fst).Perm (l.map Prod.fst) := by
  have hp := (filter_partition_perm (fun p : ℚ × H => p.2 = h) l).map Prod.fst
  rw [List.map_append] at hp
  exact hp

theorem collapse_flatten_perm {H : Type} [DecidableEq H] (tb : ℚ) :
    ∀ (l : List (ℚ × H)) (rs : List TimeRange) (m : List (H × List ℚ)),
      (∀ h' ∈ l.map Prod.snd, alookupD m h' = []) →
      ((collapse tb l rs m).1.flatMap
        (fun p => p.1 :: alookupD (collapse tb l rs m).2.2 p.2)).Perm
        (l.map Prod.fst) := by
  have key : ∀ (n : ℕ) (l : List (ℚ × H)), l.length ≤ n →
      ∀ (rs : List TimeRange) (m : List (H × List ℚ)),
        (∀ h' ∈ l.map Prod.snd, alookupD m h' = []) →
        ((collapse tb l rs m).1.flatMap
          (fun p => p.1 :: alookupD (collapse tb l rs m).2.2 p.2)).Perm
          (l.map Prod.fst) := by
    intro n
    induction n with
    | zero =>
      intro l hl rs m _
      rw [List.length_eq_zero.1 (Nat.le_zero.1 hl), collapse_nil]
      exact List.Perm.refl _
    | succ n ih =>
      intro l hl rs m hm
      cases l with
      | nil =>
        rw [collapse_nil]
        exact List.Perm.refl _
      | cons p rest =>
        obtain ⟨t, h⟩ := p
        have hlen : (rest.filter (fun p => p.2 ≠ h)).length ≤ n := by
          have h1 := List.length_filter_le (fun p => decide (p.2 ≠ h)) rest
          simp only [List.length_cons] at hl
          omega
        have hmh : alookupD m h = [] := hm h (by simp)
        have hm' : ∀ h' ∈ (rest.filter (fun p => p.2 ≠ h)).map Prod.snd,
            alookupD (scanInner tb h rest rs m).2.2 h' = [] := by
          intro h' hh'
          have hne : h ≠ h' := by
            intro hc
            exact not_mem_snd_filter_ne h rest (hc ▸ hh')
          rw [scanInner_matched_ne tb h rest rs m h' hne]
          apply hm
          rcases List.mem_map.1 hh' with ⟨q, hq, rfl⟩
          exact List.mem_map.2
            ⟨q, List.mem_cons_of_mem _ (List.mem_of_mem_filter hq), rfl⟩
        have ihk := ih _ hlen (scanInner tb h rest rs m).2.1
          (scanInner tb h rest rs m).2.2 hm'
        rw [collapse_cons]
        rw [show (((t, h) :: (collapse tb (rest.filter (fun p => p.2 ≠ h))
            (scanInner tb h rest rs m).2.1 (scanInner tb h rest rs m).2.2).1,
           (collapse tb (rest.filter (fun p => p.2 ≠ h))
            (scanInner tb h rest rs m).2.1
            (scanInner tb h rest rs m).2.2).2)).1 =
          (t, h) :: (collapse tb (rest.filter (fun p => p.2 ≠ h))
            (scanInner tb h rest rs m).2.1 (scanInner tb h rest rs m).2.2).1
          from rfl,
          show (((t, h) :: (collapse tb (rest.filter (fun p => p.2 ≠ h))
            (scanInner tb h rest rs m).2.1 (scanInner tb h rest rs m).2.2).1,
           (collapse tb (rest.filter (fun p => p.2 ≠ h))
            (scanInner tb h rest rs m).2.1
            (scanInner tb h rest rs m).2.2).2)).2.2 =
          (collapse tb (rest.filter (fun p => p.2 ≠ h))
            (scanInner tb h rest rs m).2.1 (scanInner tb h rest rs m).2.2).2.2
          from rfl]
        rw [List.flatMap_cons]
        have hMh : alookupD (collapse tb (rest.filter (fun p => p.2 ≠ h))
            (scanInner tb h rest rs m).2.1 (scanInner tb h rest rs m).2.2).2.2 h =
          (rest.filter (fun p => p.2 = h)).map Prod.fst := by
          rw [collapse_matched_untouched tb _ _ _ h
              (not_mem_snd_filter_ne h rest),
            scanInner_matched_self, hmh, List.nil_append]
        rw [hMh]
        rw [show ((t :: (rest.filter (fun p => p.2 = h)).map Prod.fst) ++
            (collapse tb (rest.filter (fun p => p.2 ≠ h))
              (scanInner tb h rest rs m).2.1
              (scanInner tb h rest rs m).2.2).1.flatMap
              (fun p => p.1 :: alookupD (collapse tb
                (rest.filter (fun p => p.2 ≠ h))
                (scanInner tb h rest rs m).2.1
                (scanInner tb h rest rs m).2.2).2.2 p.2)) =
          t :: ((rest.filter (fun p => p.2 = h)).map Prod.fst ++
            (collapse tb (rest.filter (fun p => p.2 ≠ h))
              (scanInner tb h rest rs m).2.1
              (scanInner tb h rest rs m).2.2).1.flatMap
              (fun p => p.1 :: alookupD (collapse tb
                (rest.filter (fun p => p.2 ≠ h))
                (scanInner tb h rest rs m).2.1
                (scanInner tb h rest rs m).2.2).2.2 p.2)) from rfl]
        rw [show ((t, h) :: rest).map Prod.fst = t :: rest.map Prod.fst from rfl]
        apply List.Perm.cons t
        exact List.Perm.trans (List.Perm.append_left _ ihk) (keys_partition h rest)
  exact fun l rs m hm => key l.length l (le_refl _) rs m hm

theorem survivors_sublist {H : Type} [DecidableEq H] :
    ∀ (l : List (ℚ × H)), (survivors l).Sublist l := by
  have key : ∀ (n : ℕ) (l : List (ℚ × H)), l.length ≤ n →
      (survivors l).Sublist l := by
    intro n
    induction n with
    | zero =>
      intro l hl
      rw [List.length_eq_zero.1 (Nat.le_zero.1 hl), survivors_nil]
    | succ n ih =>
      intro l hl
      cases l with
      | nil =>
        rw [survivors_nil]
      | cons p rest =>
        obtain ⟨t, h⟩ := p
        rw [survivors_cons]
        apply List.Sublist.cons₂
        have hlen : (rest.filter (fun p => p.2 ≠ h)).length ≤ n := by
          have h1 := List.length_filter_le (fun p => decide (p.2 ≠ h)) rest
          simp only [List.length_cons] at hl
          omega
        exact List.Sublist.trans (ih _ hlen) (List.filter_sublist rest)
  exact fun l => key l.length l (le_refl _)

theorem mem_survivors_iff_earliest {H : Type} [DecidableEq H] :
    ∀ (l : List (ℚ × H)), l.Pairwise (fun p q => p.1 < q.1) →
      ∀ (t : ℚ) (h : H), (t, h) ∈ l →
        ((t, h) ∈ survivors l ↔ ∀ q ∈ l, q.2 = h → t ≤ q.1) := by
  have key : ∀ (n : ℕ) (l : List (ℚ × H)), l.length ≤ n →
      l.Pairwise (fun p q => p.1 < q.1) →
      ∀ (t : ℚ) (h : H), (t, h) ∈ l →
        ((t, h) ∈ survivors l ↔ ∀ q ∈ l, q.2 = h → t ≤ q.1) := by
    intro n
    induction n with
    | zero =>
      intro l hl _ t h hmem
      rw [List.length_eq_zero.1 (Nat.le_zero.1 hl)] at hmem
      simp at hmem
    | succ n ih =>
      intro l hl hsort t h hmem
      cases l with
      | nil => simp at hmem
      | cons p rest =>
        obtain ⟨t0, h0⟩ := p
        have hlen : (rest.filter (fun p => p.2 ≠ h0)).length ≤ n := by
          have h1 := List.length_filter_le (fun p => decide (p.2 ≠ h0)) rest
          simp only [List.length_cons] at hl
          omega
        have hhead : ∀ q ∈ rest, t0 < q.1 :=
          fun q hq => (List.pairwise_cons.1 hsort).1 q hq
        rw [survivors_cons]
        rcases List.mem_cons.1 hmem with hmem1 | hmem1
        · obtain ⟨rfl, rfl⟩ : t0 = t ∧ h0 = h := by
            constructor
            · exact congrArg Prod.fst hmem1.symm
            · exact congrArg Prod.snd hmem1.symm
          constructor
          · intro _ q hq hq2
            rcases List.mem_cons.1 hq with hq1 | hq1
            · rw [hq1]
            · exact le_of_lt (hhead q hq1)
          · intro _
            exact List.mem_cons_self _ _
        · by_cases hh : h = h0
          · subst hh
            have ht0t : t0 < t := hhead _ hmem1
            constructor
            · intro hc
              exfalso
              rcases List.mem_cons.1 hc with hc1 | hc1
              · have ht : t = t0 := congrArg Prod.fst hc1
                rw [ht] at ht0t
                exact lt_irrefl _ ht0t
              · have hmem2 := (survivors_sublist _).subset hc1
                have := (List.mem_filter.1 hmem2).2
                simp at this
            · intro hall
              have := hall (t0, h) (List.mem_cons_self _ _) rfl
              exact absurd this (not_le.2 ht0t)
          · have hkept : (t, h) ∈ rest.filter (fun p => p.2 ≠ h0) :=
              List.mem_filter.2 ⟨hmem1, by simp [hh]⟩
            have hsort' : (rest.filter (fun p => p.2 ≠ h0)).Pairwise
                (fun p q => p.1 < q.1) :=
              List.Pairwise.sublist (List.filter_sublist rest)
                (List.pairwise_cons.1 hsort).2
            rw [List.mem_cons]
            constructor
            · intro hc
              rcases hc with hc1 | hc1
              · exact absurd (congrArg Prod.snd hc1) hh
              · have := (ih _ hlen hsort' t h hkept).1 hc1
                intro q hq hq2
                rcases List.mem_cons.1 hq with hq1 | hq1
                · rw [hq1] at hq2
                  exact absurd hq2.symm hh
                · by_cases hq0 : q.2 = h0
                  · exact absurd (hq2.symm.trans hq0) hh
                  · exact this q (List.mem_filter.2 ⟨hq1, by simp [hq0]⟩) hq2
            · intro hall
              right
              apply (ih _ hlen hsort' t h hkept).2
              intro q hq hq2
              exact hall q (List.mem_cons_of_mem _ (List.mem_of_mem_filter hq)) hq2
  exact fun l hsort t h hmem => key l.length l (le_refl _) hsort t h hmem

theorem non_survivor_matched {H : Type} [DecidableEq H] (tb : ℚ) :
    ∀ (l : List (ℚ × H)) (rs : List TimeRange) (m : List (H × List ℚ)),
      (∀ h' ∈ l.map Prod.snd, alookupD m h' = []) →
      ∀ p ∈ l, p ∉ survivors l →
        p.1 ∈ alookupD (collapse tb l rs m).2.2 p.2 ∧ p.1 ∈ removedOf l := by
  have key : ∀ (n : ℕ) (l : List (ℚ × H)), l.length ≤ n →
      ∀ (rs : List TimeRange) (m : List (H × List ℚ)),
        (∀ h' ∈ l.map Prod.snd, alookupD m h' = []) →
        ∀ p ∈ l, p ∉ survivors l →
          p.1 ∈ alookupD (collapse tb l rs m).2.2 p.2 ∧ p.1 ∈ removedOf l := by
    intro n
    induction n with
    | zero =>
      intro l hl rs m _ p hp _
      rw [List.length_eq_zero.1 (Nat.le_zero.1 hl)] at hp
      simp at hp
    | succ n ih =>
      intro l hl rs m hm p hp hps
      cases l with
      | nil => simp at hp
      | cons q rest =>
        obtain ⟨t0, h0⟩ := q
        have hlen : (rest.filter (fun p => p.2 ≠ h0)).length ≤ n := by
          have h1 := List.length_filter_le (fun p => decide (p.2 ≠ h0)) rest
          simp only [List.length_cons] at hl
          omega
        have hmh : alookupD m h0 = [] := hm h0 (by simp)
        rcases List.mem_cons.1 hp with hp1 | hp1
        · exfalso
          apply hps
          rw [hp1, survivors_cons]
          exact List.mem_cons_self _ _
        · by_cases hph : p.2 = h0
          · constructor
            · obtain ⟨pt, ph⟩ := p
              simp only at hph
              subst hph
              rw [collapse_matched_head, hmh, List.nil_append]
              exact List.mem_map.2 ⟨(pt, ph), List.mem_filter.2 ⟨hp1, by simp⟩, rfl⟩
            · rw [removedOf_cons]
              apply List.mem_append.2
              left
              exact List.mem_map.2 ⟨p, List.mem_filter.2 ⟨hp1, by simp [hph]⟩, rfl⟩
          · have hkept : p ∈ rest.filter (fun p => p.2 ≠ h0) :=
              List.mem_filter.2 ⟨hp1, by simp [hph]⟩
            have hps' : p ∉ survivors (rest.filter (fun p => p.2 ≠ h0)) := by
              intro hc
              apply hps
              rw [survivors_cons]
              exact List.mem_cons_of_mem _ hc
            have hm' : ∀ h' ∈ (rest.filter (fun p => p.2 ≠ h0)).map Prod.snd,
                alookupD (scanInner tb h0 rest rs m).2.2 h' = [] := by
              intro h' hh'
              have hne : h0 ≠ h' := by
                intro hc
                exact not_mem_snd_filter_ne h0 rest (hc ▸ hh')
              rw [scanInner_matched_ne tb h0 rest rs m h' hne]
              apply hm
              rcases List.mem_map.1 hh' with ⟨q', hq', rfl⟩
              exact List.mem_map.2
                ⟨q', List.mem_cons_of_mem _ (List.mem_of_mem_filter hq'), rfl⟩
            obtain ⟨ih1, ih2⟩ := ih _ hlen (scanInner tb h0 rest rs m).2.1
              (scanInner tb h0 rest rs m).2.2 hm' p hkept hps'
            constructor
            · rw [collapse_cons]
              rw [show ((t0, h0) :: (collapse tb (rest.filter (fun p => p.2 ≠ h0))
                  (scanInner tb h0 rest rs m).2.1
                  (scanInner tb h0 rest rs m).2.2).1,
                 (collapse tb (rest.filter (fun p => p.2 ≠ h0))
                  (scanInner tb h0 rest rs m).2.1
                  (scanInner tb h0 rest rs m).2.2).2).2.2 =
                (collapse tb (rest.filter (fun p => p.2 ≠ h0))
                  (scanInner tb h0 rest rs m).2.1
                  (scanInner tb h0 rest rs m).2.2).2.2 from rfl]
              exact ih1
            · rw [removedOf_cons]
              exact List.mem_append.2 (Or.inr ih2)
  exact fun l rs m hm p hp hps => key l.length l (le_refl _) rs m hm p hp hps

theorem surv_removed_partition {H : Type} [DecidableEq H] :
    ∀ (l : List (ℚ × H)),
      ((survivors l).map Prod.fst ++ removedOf l).Perm (l.map Prod.fst) := by
  have key : ∀ (n : ℕ) (l : List (ℚ × H)), l.length ≤ n →
      ((survivors l).map Prod.fst ++ removedOf l).Perm (l.map Prod.fst) := by
    intro n
    induction n with
    | zero =>
      intro l hl
      rw [List.length_eq_zero.1 (Nat.le_zero.1 hl), survivors_nil, removedOf_nil]
      exact List.Perm.refl _
    | succ n ih =>
      intro l hl
      cases l with
      | nil =>
        rw [survivors_nil, removedOf_nil]
        exact List.Perm.refl _
      | cons q rest =>
        obtain ⟨t0, h0⟩ := q
        have hlen : (rest.filter (fun p => p.2 ≠ h0)).length ≤ n := by
          have h1 := List.length_filter_le (fun p => decide (p.2 ≠ h0)) rest
          simp only [List.length_cons] at hl
          omega
        rw [survivors_cons, removedOf_cons, List.map_cons, List.cons_append]
        rw [show ((t0, h0) :: rest).map Prod.fst = t0 :: rest.map Prod.fst from rfl]
        apply List.Perm.cons t0
        have step1 : ((survivors (rest.filter (fun p => p.2 ≠ h0))).map Prod.fst ++
            ((rest.filter (fun p => p.2 = h0)).map Prod.fst ++
              removedOf (rest.filter (fun p => p.2 ≠ h0)))).Perm
            ((rest.filter (fun p => p.2 = h0)).map Prod.fst ++
              ((survivors (rest.filter (fun p => p.2 ≠ h0))).map Prod.fst ++
                removedOf (rest.filter (fun p => p.2 ≠ h0)))) := by
          rw [← List.append_assoc, ← List.append_assoc]
          exact List.Perm.append_right _ (List.perm_append_comm)
        apply List.Perm.trans step1
        apply List.Perm.trans (List.Perm.append_left _ (ih _ hlen))
        exact keys_partition h0 rest
  exact fun l => key l.length l (le_refl _)

/-! ### Coverage of range lists -/

theorem covers_iff {l : List TimeRange} {τ : ℚ} :
    covers l τ = true ↔ ∃ r ∈ l, r.tin ≤ τ ∧ τ < r.tout := by
  unfold covers
  rw [List.any_eq_true]
  constructor
  · rintro ⟨r, hr, hb⟩
    rw [Bool.and_eq_true, decide_eq_true_eq, decide_eq_true_eq] at hb
    exact ⟨r, hr, hb⟩
  · rintro ⟨r, hr, hb1, hb2⟩
    refine ⟨r, hr, ?_⟩
    rw [Bool.and_eq_true, decide_eq_true_eq, decide_eq_true_eq]
    exact ⟨hb1, hb2⟩

theorem covers_subtract {r sub : TimeRange} {τ : ℚ} :
    covers (r.subtract sub) τ = true ↔
      (r.tin ≤ τ ∧ τ < r.tout) ∧ ¬(sub.tin ≤ τ ∧ τ < sub.tout) := by
  rw [covers_iff]
  unfold TimeRange.subtract
  constructor
  · rintro ⟨r', hr', hb1, hb2⟩
    rcases List.mem_append.1 hr' with hm | hm
    · by_cases h1 : r.tin < sub.tin
      · rw [if_pos h1] at hm
        rcases List.mem_singleton.1 hm with rfl
        simp only at hb1 hb2
        have hlt : τ < sub.tin := lt_of_lt_of_le hb2 (min_le_right _ _)
        have hltout : τ < r.tout := lt_of_lt_of_le hb2 (min_le_left _ _)
        exact ⟨⟨hb1, hltout⟩, fun hc => absurd hc.1 (not_le.2 hlt)⟩
      · rw [if_neg h1] at hm
        simp at hm
    · by_cases h2 : sub.tout < r.tout
      · rw [if_pos h2] at hm
        rcases List.mem_singleton.1 hm with rfl
        simp only at hb1 hb2
        have hge : sub.tout ≤ τ := le_trans (le_max_right _ _) hb1
        have hint : r.tin ≤ τ := le_trans (le_max_left _ _) hb1
        exact ⟨⟨hint, hb2⟩, fun hc => absurd hge (not_le.2 hc.2)⟩
      · rw [if_neg h2] at hm
        simp at hm
  · rintro ⟨⟨hin, hout⟩, hnot⟩
    by_cases hτ : τ < sub.tin
    · have h1 : r.tin < sub.tin := lt_of_le_of_lt hin hτ
      refine ⟨⟨r.tin, min r.tout sub.tin⟩, ?_, ?_, ?_⟩
      · rw [if_pos h1]
        exact List.mem_append.2 (Or.inl (List.mem_singleton.2 rfl))
      · exact hin
      · exact lt_min hout hτ
    · push_neg at hτ
      have hτ2 : sub.tout ≤ τ := by
        by_contra hc
        push_neg at hc
        exact hnot ⟨hτ, hc⟩
      have h2 : sub.tout < r.tout := lt_of_le_of_lt hτ2 hout
      refine ⟨⟨max r.tin sub.tout, r.tout⟩, ?_, ?_, ?_⟩
      · rw [if_pos h2]
        exact List.mem_append.2 (Or.inr (List.mem_singleton.2 rfl))
      · exact max_le hin hτ2
      · exact hout

theorem covers_removeTimeRange {l : List TimeRange} {sub : TimeRange} {τ : ℚ} :
    covers (removeTimeRange l sub) τ = true ↔
      covers l τ = true ∧ ¬(sub.tin ≤ τ ∧ τ < sub.tout) := by
  unfold removeTimeRange
  rw [covers_iff, covers_iff]
  constructor
  · rintro ⟨r', hr', hb⟩
    rcases List.mem_flatMap.1 hr' with ⟨r, hr, hrr⟩
    have := (@covers_subtract r sub τ).1
      (covers_iff.2 ⟨r', hrr, hb⟩)
    exact ⟨⟨r, hr, this.1⟩, this.2⟩
  · rintro ⟨⟨r, hr, hb⟩, hnot⟩
    have := (@covers_subtract r sub τ).2 ⟨hb, hnot⟩
    rcases covers_iff.1 this with ⟨r', hr', hb'⟩
    exact ⟨r', List.mem_flatMap.2 ⟨r, hr, hr'⟩, hb'⟩

theorem covers_fold_remove {tb : ℚ} :
    ∀ (ds : List ℚ) (rs : List TimeRange) (τ : ℚ),
      covers (ds.foldl (fun acc d => removeTimeRange acc ⟨d, d + tb⟩) rs) τ = true ↔
        covers rs τ = true ∧ ∀ d ∈ ds, ¬(d ≤ τ ∧ τ < d + tb) := by
  intro ds
  induction ds with
  | nil =>
    intro rs τ
    constructor
    · intro h
      exact ⟨h, fun d hd => by simp at hd⟩
    · intro h
      exact h.1
  | cons d ds ih =>
    intro rs τ
    rw [show (d :: ds).foldl (fun acc d => removeTimeRange acc ⟨d, d + tb⟩) rs =
      ds.foldl (fun acc d => removeTimeRange acc ⟨d, d + tb⟩)
        (removeTimeRange rs ⟨d, d + tb⟩) from rfl]
    rw [ih]
    rw [covers_removeTimeRange]
    constructor
    · rintro ⟨⟨h1, h2⟩, h3⟩
      refine ⟨h1, ?_⟩
      intro d' hd'
      rcases List.mem_cons.1 hd' with rfl | hd'
      · exact h2
      · exact h3 d' hd'
    · rintro ⟨h1, h2⟩
      exact ⟨⟨h1, h2 d (List.mem_cons_self _ _)⟩,
        fun d' hd' => h2 d' (List.mem_cons_of_mem _ hd')⟩

theorem sublist_flatMap {γ δ : Type} (f : γ → List δ) {l1 l2 : List γ}
    (h : l1.Sublist l2) : (l1.flatMap f).Sublist (l2.flatMap f) := by
  induction h with
  | slnil => exact List.Sublist.refl _
  | cons a h ih =>
    rw [List.flatMap_cons]
    exact ih.trans (List.sublist_append_right _ _)
  | cons₂ a h ih =>
    rw [List.flatMap_cons, List.flatMap_cons]
    exact List.Sublist.append_left ih _

theorem subperm_flatMap {γ δ : Type} (f : γ → List δ) {l1 l2 : List γ}
    (h : l1.Subperm l2) : (l1.flatMap f).Subperm (l2.flatMap f) := by
  obtain ⟨w, hw1, hw2⟩ := h
  exact ⟨w.flatMap f, hw1.flatMap_right f, sublist_flatMap f hw2⟩

theorem flatMap_congr_mem {γ δ : Type} {f g : γ → List δ} {l : List γ}
    (h : ∀ a ∈ l, f a = g a) : l.flatMap f = l.flatMap g := by
  induction l with
  | nil => rfl
  | cons a l ih =>
    rw [List.flatMap_cons, List.flatMap_cons, h a (List.mem_cons_self _ _),
      ih (fun a' ha' => h a' (List.mem_cons_of_mem _ ha'))]

theorem thm_keys_nodup {α β H : Type} [DecidableEq H] {cfg : Config α β H} {n : ℕ}
    (htb : 0 < cfg.tb) (hkeys : cfg.thm.map Prod.fst = gridList n cfg.tb) :
    (cfg.thm.map Prod.fst).Nodup := by
  rw [hkeys]
  exact gridList_nodup htb n

theorem thm_sorted {α β H : Type} [DecidableEq H] {cfg : Config α β H} {n : ℕ}
    (htb : 0 < cfg.tb) (hkeys : cfg.thm.map Prod.fst = gridList n cfg.tb) :
    cfg.thm.Pairwise (fun p q => p.1 < q.1) := by
  have hgrid : (gridList n cfg.tb).Pairwise (· < ·) := by
    unfold gridList
    apply List.Pairwise.map
    · intro a b hab
      exact mul_lt_mul_of_pos_right (by exact_mod_cast hab) htb
    · exact List.pairwise_lt_range n
  rw [← hkeys] at hgrid
  exact (List.pairwise_map.1 hgrid)

theorem covers_init_iff {len τ : ℚ} :
    covers [⟨0, len⟩] τ = true ↔ 0 ≤ τ ∧ τ < len := by
  rw [covers_iff]
  constructor
  · rintro ⟨r, hr, h1, h2⟩
    rcases List.mem_singleton.1 hr with rfl
    exact ⟨h1, h2⟩
  · rintro ⟨h1, h2⟩
    exact ⟨⟨0, len⟩, List.mem_singleton.2 rfl, h1, h2⟩

theorem dedup_covered_iff_survivor {α β H : Type} [DecidableEq H]
    (cfg : Config α β H) {n : ℕ} (htb : 0 < cfg.tb)
    (hkeys : cfg.thm.map Prod.fst = gridList n cfg.tb)
    (hlen : cfg.len = (n : ℚ) * cfg.tb) (τ : ℚ) :
    (isGridMul cfg.tb τ = true ∧ covers (colRanges cfg) τ = true) ↔
      τ ∈ (survivors cfg.thm).map Prod.fst := by
  have hranges : colRanges cfg = (removedOf cfg.thm).foldl
      (fun acc d => removeTimeRange acc ⟨d, d + cfg.tb⟩) [⟨0, cfg.len⟩] :=
    collapse_ranges cfg.tb cfg.thm [⟨0, cfg.len⟩] []
  have hpart := surv_removed_partition cfg.thm
  have hnd : (cfg.thm.map Prod.fst).Nodup := thm_keys_nodup htb hkeys
  have hndapp : ((survivors cfg.thm).map Prod.fst ++ removedOf cfg.thm).Nodup :=
    (hpart.nodup_iff).2 hnd
  have hdisj := (List.nodup_append.1 hndapp).2.2
  have hmemkeys : ∀ d, d ∈ removedOf cfg.thm → d ∈ gridList n cfg.tb := by
    intro d hd
    rw [← hkeys]
    exact hpart.subset (List.mem_append.2 (Or.inr hd))
  constructor
  · rintro ⟨hg, hc⟩
    rw [hranges] at hc
    obtain ⟨hc0, hcall⟩ := (covers_fold_remove _ _ _).1 hc
    obtain ⟨h0, hlt⟩ := covers_init_iff.1 hc0
    obtain ⟨k, rfl⟩ := (isGridMul_iff htb τ).1 hg
    have hk : k < n := by
      rw [hlen] at hlt
      have := lt_of_mul_lt_mul_right hlt (le_of_lt htb)
      exact_mod_cast this
    have hmem : ((k : ℚ) * cfg.tb) ∈ cfg.thm.map Prod.fst := by
      rw [hkeys]
      exact mem_gridList.2 ⟨k, hk, rfl⟩
    rcases List.mem_append.1 (hpart.mem_iff.2 hmem) with hs | hs
    · exact hs
    · exfalso
      apply hcall _ hs
      constructor
      · exact le_refl _
      · linarith
  · intro hs
    have hmem : τ ∈ cfg.thm.map Prod.fst :=
      ((survivors_sublist cfg.thm).map Prod.fst).subset hs
    rw [hkeys] at hmem
    obtain ⟨k, hk, rfl⟩ := mem_gridList.1 hmem
    refine ⟨(isGridMul_iff htb _).2 ⟨k, rfl⟩, ?_⟩
    rw [hranges]
    apply (covers_fold_remove _ _ _).2
    constructor
    · apply covers_init_iff.2
      refine ⟨mul_nonneg (Nat.cast_nonneg k) (le_of_lt htb), ?_⟩
      rw [hlen]
      apply mul_lt_mul_of_pos_right _ htb
      exact_mod_cast hk
    · intro d hd
      obtain ⟨j, _, rfl⟩ := mem_gridList.1 (hmemkeys d hd)
      have hne : j ≠ k := by
        intro hc
        subst hc
        exact hdisj hs hd
      exact grid_sep htb hne

theorem dedup_flatten_perm {α β H : Type} [DecidableEq H]
    (cfg : Config α β H) {n : ℕ} (htb : 0 < cfg.tb)
    (hkeys : cfg.thm.map Prod.fst = gridList n cfg.tb) :
    (flattenTimes cfg ((survivors cfg.thm).map Prod.fst)).Perm
      (cfg.thm.map Prod.fst) := by
  have hnd : (cfg.thm.map Prod.fst).Nodup := thm_keys_nodup htb hkeys
  have hcf := collapse_flatten_perm cfg.tb cfg.thm [⟨0, cfg.len⟩] []
    (fun h' _ => rfl)
  rw [collapse_surv] at hcf
  have heq : flattenTimes cfg ((survivors cfg.thm).map Prod.fst) =
      (survivors cfg.thm).flatMap
        (fun p => p.1 :: alookupD (collapse cfg.tb cfg.thm
          [⟨0, cfg.len⟩] []).2.2 p.2) := by
    unfold flattenTimes
    rw [List.flatMap_map]
    apply flatMap_congr_mem
    intro p hp
    have hpmem : p ∈ cfg.thm := (survivors_sublist cfg.thm).subset hp
    have hlook : alookup cfg.thm p.1 = some p.2 := by
      apply alookup_eq_some_of_mem_nodup _ _
      · exact hnd
      · exact hpmem
    show p.1 :: dupsOf cfg p.1 = _
    unfold dupsOf dupTimes
    rw [hlook]
    rfl
  rw [heq]
  exact hcf

/-! ### The run invariant of a video-enabled job -/

theorem encodeMany_append {α β : Type} (pipe : α → β) (tb len : ℚ) :
    ∀ (c1 c2 : List (ℚ × α)) (w : ℚ) (cached : List (ℚ × α)),
      encodeMany pipe tb len (c1 ++ c2) w cached =
        ((encodeMany pipe tb len c1 w cached).1 ++
          (encodeMany pipe tb len c2
            (encodeMany pipe tb len c1 w cached).2.1
            (encodeMany pipe tb len c1 w cached).2.2).1,
         (encodeMany pipe tb len c2
            (encodeMany pipe tb len c1 w cached).2.1
            (encodeMany pipe tb len c1 w cached).2.2).2) := by
  intro c1
  induction c1 with
  | nil =>
    intro c2 w cached
    rfl
  | cons c c1 ih =>
    intro c2 w cached
    obtain ⟨t, v⟩ := c
    rw [List.cons_append, encodeMany_cons, encodeMany_cons, ih, List.append_assoc]

theorem flattenCalls_append {α β H : Type} [DecidableEq H] (cfg : Config α β H)
    (d1 d2 : List (ℚ × α)) :
    flattenCalls cfg (d1 ++ d2) = flattenCalls cfg d1 ++ flattenCalls cfg d2 := by
  unfold flattenCalls
  exact List.flatMap_append _ _ _

theorem expInv_transport {α β H : Type} [DecidableEq H] {cfg : Config α β H}
    {s s' : ExpState α H} {outs new : List (Out α β)}
    (hInv : ExpInv cfg s outs)
    (hw : writesOf new = []) (hp : progressOf new = [])
    (hDeliv : s'.delivered = s.delivered) (hWait : s'.waiting = s.waiting)
    (hCache : s'.cached = s.cached) (hMatched : s'.matched = s.matched)
    (hHash : s'.hashDone = s.hashDone) (hRender : s'.renderPhase = s.renderPhase)
    (hRanges : s'.renderRanges = s.renderRanges)
    (hClosedDone : s'.closedDone = s.closedDone)
    (hEnded : s'.ended = false → s.ended = false)
    (hEnd : s'.closedDone = true → s'.ended = true) :
    ExpInv cfg s' (outs ++ new) := by
  obtain ⟨A1, A2, A3, A4, _⟩ := hInv
  refine ⟨?_, ?_, ?_, ?_, hEnd⟩
  · intro h hend
    rw [hHash] at h
    obtain ⟨B1, B2, B3, B4, B5, B6, B7, B8⟩ := A1 h (hEnded hend)
    refine ⟨by rw [hRender]; exact B1, by rw [hDeliv]; exact B2,
      by rw [hWait]; exact B3, by rw [hCache]; exact B4,
      by rw [hMatched]; exact B5, ?_, ?_, by rw [hClosedDone]; exact B8⟩
    · rw [writesOf_append, B6, hw]
      rfl
    · rw [progressOf_append, B7, hp]
      rfl
  · intro h
    rw [hHash] at h
    obtain ⟨B1, B2, B3⟩ := A2 h
    exact ⟨by rw [hMatched]; exact B1, by rw [hRanges]; exact B2,
      by rw [hRender]; exact B3⟩
  · rw [hDeliv]
    exact A3
  · obtain ⟨B1, B2, B3, B4⟩ := A4
    rw [hDeliv, hWait, hCache, hClosedDone]
    refine ⟨?_, ?_, B3, B4⟩
    · rw [writesOf_append, hw, List.append_nil]
      exact B1
    · rw [progressOf_append, hp, List.append_nil]
      exact B2

theorem expInv_step {α β H : Type} [DecidableEq H] (cfg : Config α β H) {n : ℕ}
    (htb : 0 < cfg.tb) (hkeys : cfg.thm.map Prod.fst = gridList n cfg.tb)
    (hlen : cfg.len = (n : ℚ) * cfg.tb)
    (s : ExpState α H) (outs : List (Out α β)) (e : Event α)
    (hInv : ExpInv cfg s outs) (hen : enabledB (β := β) cfg s e = true) :
    ExpInv cfg (step (β := β) cfg s e).1 (outs ++ (step (β := β) cfg s e).2) := by
  have A6 : s.closedDone = true → s.ended = true := hInv.2.2.2.2
  cases e with
  | openSucceeded =>
    rw [step_openSucceeded_eq]
    apply expInv_transport hInv ?_ ?_ rfl rfl rfl rfl rfl rfl rfl rfl
      (fun h => h) (fun h => A6 h)
    · by_cases hv : s.video_done <;> by_cases hs : s.sound_done <;>
        simp only [hv, hs, if_true, if_false] <;> rfl
    · by_cases hv : s.video_done <;> by_cases hs : s.sound_done <;>
        simp only [hv, hs, if_true, if_false] <;> rfl
  | openFailed =>
    rw [step_openFailed_eq]
    exact expInv_transport hInv rfl rfl rfl rfl rfl rfl rfl rfl rfl rfl
      (fun h => absurd h (by simp)) (fun _ => rfl)
  | videoQueueComplete =>
    have hen' := hen
    rw [show enabledB (β := β) cfg s Event.videoQueueComplete =
      (!s.ended && s.hashRequested && !s.hashDone) from rfl,
      Bool.and_eq_true, Bool.and_eq_true] at hen'
    obtain ⟨⟨hne, _⟩, hh⟩ := hen'
    have hended : s.ended = false := by
      cases hse : s.ended
      · rfl
      · rw [hse] at hne
        exact absurd hne (by simp)
    have hhd : s.hashDone = false := by
      cases hh2 : s.hashDone
      · rfl
      · rw [hh2] at hh
        exact absurd hh (by simp)
    obtain ⟨A1, _, _, _, _⟩ := hInv
    obtain ⟨B1, B2, B3, B4, B5, B6, B7, B8⟩ := A1 hhd hended
    rw [step_videoQueueComplete_eq]
    have hvhOuts : writesOf (videoHashesComplete (β := β) cfg s).2 = [] := by
      rw [show writesOf (videoHashesComplete (β := β) cfg s).2 =
        writesOf ((collapse cfg.tb cfg.thm [⟨0, cfg.len⟩] s.matched).2.1.map
          (fun r => Out.req (Request.invalidateVideo r.tin r.tout))) from rfl,
        writesOf_invalidates]
    have hvhProg : progressOf (videoHashesComplete (β := β) cfg s).2 = [] := by
      rw [show progressOf (videoHashesComplete (β := β) cfg s).2 =
        progressOf ((collapse cfg.tb cfg.thm [⟨0, cfg.len⟩] s.matched).2.1.map
          (fun r => Out.req (Request.invalidateVideo r.tin r.tout))) from rfl,
        progressOf_invalidates]
    refine ⟨?_, ?_, ?_, ?_, ?_⟩
    · intro h
      exact absurd h (by simp [videoHashesComplete])
    · intro _
      refine ⟨?_, ?_, rfl⟩
      · show (collapse cfg.tb cfg.thm [⟨0, cfg.len⟩] s.matched).2.2 = colMatched cfg
        rw [B5]
        rfl
      · show (collapse cfg.tb cfg.thm [⟨0, cfg.len⟩] s.matched).2.1 = colRanges cfg
        rw [B5]
        rfl
    · show ((s.delivered.map Prod.fst).Nodup ∧
        ∀ p ∈ s.delivered, p.1 ∈ (survivors cfg.thm).map Prod.fst)
      rw [B2]
      exact ⟨List.nodup_nil, fun p hp => absurd hp (List.not_mem_nil p)⟩
    · refine ⟨?_, ?_, ?_, ?_⟩
      · show writesOf (outs ++ (videoHashesComplete (β := β) cfg s).2) =
          writesOf (encodeMany cfg.pipe cfg.tb cfg.len
            (flattenCalls cfg s.delivered) 0 []).1
        rw [writesOf_append, B6, hvhOuts, B2]
        rfl
      · show progressOf (outs ++ (videoHashesComplete (β := β) cfg s).2) =
          progressOf (encodeMany cfg.pipe cfg.tb cfg.len
            (flattenCalls cfg s.delivered) 0 []).1 ++
            (if s.closedDone then [100] else [])
        rw [progressOf_append, B7, hvhProg, B2, B8]
        rfl
      · show s.waiting = (encodeMany cfg.pipe cfg.tb cfg.len
          (flattenCalls cfg s.delivered) 0 []).2.1
        rw [B3, B2]
        rfl
      · show s.cached = (encodeMany cfg.pipe cfg.tb cfg.len
          (flattenCalls cfg s.delivered) 0 []).2.2
        rw [B4, B2]
        rfl
    · intro h
      rw [show (videoHashesComplete (β := β) cfg s).1.closedDone = s.closedDone
        from rfl, B8] at h
      exact absurd h (by simp)
  | cachedFrameReady t v =>
    rw [step_cachedFrameReady_eq]
    obtain ⟨A1, A2, A3, A4, _⟩ := hInv
    have hen' := hen
    rw [show enabledB (β := β) cfg s (Event.cachedFrameReady t v) =
      (s.renderPhase && !s.ended && isGridMul cfg.tb t &&
        covers s.renderRanges t && decide (t ∉ s.delivered.map Prod.fst))
      from rfl, Bool.and_eq_true, Bool.and_eq_true, Bool.and_eq_true,
      Bool.and_eq_true] at hen'
    obtain ⟨⟨⟨⟨hrp, hne⟩, hgrid⟩, hcov⟩, hnotdel⟩ := hen'
    have hndel : t ∉ s.delivered.map Prod.fst := of_decide_eq_true hnotdel
    have hended : s.ended = false := by
      cases hse : s.ended
      · rfl
      · rw [hse] at hne
        exact absurd hne (by simp)
    have hhd : s.hashDone = true := by
      cases hh : s.hashDone
      · obtain ⟨B1, _⟩ := A1 hh hended
        rw [B1] at hrp
        exact absurd hrp (by simp)
      · rfl
    obtain ⟨hm, hrg, hrp3⟩ := A2 hhd
    have hcd : s.closedDone = false := by
      cases hc : s.closedDone
      · rfl
      · have := A6 hc
        rw [hended] at this
        exact absurd this (by simp)
    have hsurv : t ∈ (survivors cfg.thm).map Prod.fst := by
      apply (dedup_covered_iff_survivor cfg htb hkeys hlen t).1
      refine ⟨hgrid, ?_⟩
      rw [← hrg]
      exact hcov
    obtain ⟨F1, F2, F3, F4, F5, F6, F7, F8, F9, F10, F11, F12, F13, F14, F15,
      F16, F17, F18, F19, F20, F21, _, _⟩ := frameRendered_spec cfg t v s
    obtain ⟨B1, B2, B3, B4⟩ := A4
    have hdup : dupTimes cfg.thm (colMatched cfg) t = dupsOf cfg t := rfl
    rw [hm, hdup] at F1 F2 F3 F4 F5
    rw [B3, B4] at F1 F2 F3 F4 F5
    have hflat : flattenCalls cfg (s.delivered ++ [(t, v)]) =
        flattenCalls cfg s.delivered ++
          ((t, v) :: (dupsOf cfg t).map (fun q => (q, v))) := by
      rw [flattenCalls_append]
      rw [show flattenCalls cfg [(t, v)] =
        ((t, v) :: (dupsOf cfg t).map (fun q => (q, v))) ++ [] from rfl,
        List.append_nil]
    have hem := encodeMany_append cfg.pipe cfg.tb cfg.len
      (flattenCalls cfg s.delivered)
      ((t, v) :: (dupsOf cfg t).map (fun q => (q, v))) 0 []
    refine ⟨?_, ?_, ?_, ?_, ?_⟩
    · intro h
      rw [F9, hhd] at h
      exact absurd h (by simp)
    · intro _
      exact ⟨F8.trans hm, F11.trans hrg, F10.trans hrp3⟩
    · constructor
      · rw [F7, List.map_append]
        apply List.Nodup.append A3.1 (List.nodup_singleton t)
        intro a ha hb
        rcases List.mem_singleton.1 hb with rfl
        exact hndel ha
      · intro p hp
        rw [F7] at hp
        rcases List.mem_append.1 hp with hp | hp
        · exact A3.2 p hp
        · rcases List.mem_singleton.1 hp with rfl
          exact hsurv
    · refine ⟨?_, ?_, ?_, ?_⟩
      · rw [writesOf_append, B1, F3, F7, hflat, hem]
        exact (writesOf_append _ _).symm
      · rw [progressOf_append, B2, F4, F7, hflat, hem, F14, hcd]
        simp [progressOf_append]
      · rw [F1, F7, hflat, hem]
      · rw [F2, F7, hflat, hem]
    · intro h
      rw [F14, hcd] at h
      exact absurd h (by simp)
  | soundQueueComplete =>
    rw [step_soundQueueComplete_eq]
    exact expInv_transport hInv rfl rfl rfl rfl rfl rfl rfl rfl rfl rfl
      (fun h => h) (fun h => A6 h)
  | soundComplete =>
    cases hv : s.video_done
    · rw [step_soundComplete_notdone cfg hv]
      exact expInv_transport hInv rfl rfl rfl rfl rfl rfl rfl rfl rfl rfl
        (fun h => h) (fun h => A6 h)
    · rw [step_soundComplete_done cfg hv]
      exact expInv_transport hInv rfl rfl rfl rfl rfl rfl rfl rfl rfl rfl
        (fun h => h) (fun h => A6 h)
  | closed =>
    have hen' := hen
    rw [show enabledB (β := β) cfg s Event.closed =
      (!s.ended && s.closeRequested && !s.closedDone) from rfl,
      Bool.and_eq_true, Bool.and_eq_true] at hen'
    obtain ⟨⟨_, _⟩, hncd⟩ := hen'
    have hcd : s.closedDone = false := by
      cases hc : s.closedDone
      · rfl
      · rw [hc] at hncd
        exact absurd hncd (by simp)
    obtain ⟨_, A2, A3, A4, _⟩ := hInv
    rw [step_closed_eq]
    refine ⟨?_, ?_, A3, ?_, fun _ => rfl⟩
    · intro _ h
      exact absurd h (by simp)
    · intro h
      exact A2 h
    · obtain ⟨B1, B2, B3, B4⟩ := A4
      refine ⟨?_, ?_, B3, B4⟩
      · rw [writesOf_append, B1]
        simp [writesOf]
      · rw [progressOf_append, B2, hcd]
        simp [progressOf]

theorem expInv_init {α β H : Type} [DecidableEq H] (cfg : Config α β H)
    (ve se : Bool) (outs0 : List (Out α β))
    (hw : writesOf outs0 = []) (hp : progressOf outs0 = []) :
    ExpInv cfg (initState α H ve se) outs0 := by
  refine ⟨?_, ?_, ?_, ?_, ?_⟩
  · intro _ _
    exact ⟨rfl, rfl, rfl, rfl, rfl, hw, hp, rfl⟩
  · intro h
    exact absurd h (by simp [initState])
  · exact ⟨List.nodup_nil, fun p hp => absurd hp (List.not_mem_nil p)⟩
  · refine ⟨?_, ?_, rfl, rfl⟩
    · rw [hw]
      rfl
    · rw [hp]
      rfl
  · intro h
    exact absurd h (by simp [initState])

theorem expInv_run {α β H : Type} [DecidableEq H] (cfg : Config α β H) {n : ℕ}
    (htb : 0 < cfg.tb) (hkeys : cfg.thm.map Prod.fst = gridList n cfg.tb)
    (hlen : cfg.len = (n : ℚ) * cfg.tb) :
    ∀ (es : List (Event α)) (s : ExpState α H) (outs : List (Out α β)),
      ExpInv cfg s outs → validRun (β := β) cfg s es = true →
      ExpInv cfg (run (β := β) cfg s es).1 (outs ++ (run (β := β) cfg s es).2)
  | [], s, outs, hInv, _ => by
    rw [show run (β := β) cfg s [] = (s, []) from rfl, List.append_nil]
    exact hInv
  | e :: es, s, outs, hInv, hval => by
    rw [show validRun (β := β) cfg s (e :: es) =
      (enabledB (β := β) cfg s e &&
        validRun (β := β) cfg (step (β := β) cfg s e).1 es) from rfl,
      Bool.and_eq_true] at hval
    obtain ⟨hen, hval'⟩ := hval
    have h1 := expInv_step cfg htb hkeys hlen s outs e hInv hen
    have h2 := expInv_run cfg htb hkeys hlen es (step (β := β) cfg s e).1
      (outs ++ (step (β := β) cfg s e).2) h1 hval'
    rw [List.append_assoc] at h2
    exact h2

theorem perm_flatMap {γ δ : Type} (f : γ → List δ) {l1 l2 : List γ}
    (h : l1.Perm l2) : (l1.flatMap f).Perm (l2.flatMap f) := by
  induction h with
  | nil => exact List.Perm.refl _
  | cons x h ih =>
    rw [List.flatMap_cons, List.flatMap_cons]
    exact List.Perm.append_left _ ih
  | swap x y l =>
    rw [List.flatMap_cons, List.flatMap_cons, List.flatMap_cons, List.flatMap_cons]
    rw [← List.append_assoc, ← List.append_assoc]
    exact List.Perm.append_right _ List.perm_append_comm
  | trans h1 h2 ih1 ih2 => exact ih1.trans ih2

theorem flattenCalls_map_fst {α β H : Type} [DecidableEq H] (cfg : Config α β H) :
    ∀ d : List (ℚ × α),
      (flattenCalls cfg d).map Prod.fst = flattenTimes cfg (d.map Prod.fst)
  | [] => rfl
  | p :: d => by
    show ((p :: (dupsOf cfg p.1).map (fun q => (q, p.2))) ++
        flattenCalls cfg d).map Prod.fst =
      (p.1 :: dupsOf cfg p.1) ++ flattenTimes cfg (d.map Prod.fst)
    rw [List.map_append, flattenCalls_map_fst cfg d, List.map_cons, List.map_map]
    have hc : (Prod.fst ∘ fun q : ℚ => (q, p.2)) = fun q : ℚ => q := rfl
    rw [hc, List.map_id']

theorem enabledB_of_ended {α β H : Type} [DecidableEq H] (cfg : Config α β H)
    {s : ExpState α H} (h : s.ended = true) (e : Event α) :
    enabledB (β := β) cfg s e = false := by
  cases e <;> simp [enabledB, h]

theorem survivors_keys_nodup {H : Type} [DecidableEq H] {l : List (ℚ × H)}
    (h : (l.map Prod.fst).Nodup) : ((survivors l).map Prod.fst).Nodup :=
  ((survivors_sublist l).map Prod.fst).nodup h

theorem delivered_flatten_subperm {α β H : Type} [DecidableEq H]
    (cfg : Config α β H) {n : ℕ} (htb : 0 < cfg.tb)
    (hkeys : cfg.thm.map Prod.fst = gridList n cfg.tb) {d : List (ℚ × α)}
    (hnd : (d.map Prod.fst).Nodup)
    (hsub : ∀ p ∈ d, p.1 ∈ (survivors cfg.thm).map Prod.fst) :
    ((flattenCalls cfg d).map Prod.fst).Subperm (cfg.thm.map Prod.fst) := by
  have h1 : (d.map Prod.fst) ⊆ (survivors cfg.thm).map Prod.fst := by
    intro t ht
    obtain ⟨p, hp, rfl⟩ := List.mem_map.1 ht
    exact hsub p hp
  have h2 : (d.map Prod.fst).Subperm ((survivors cfg.thm).map Prod.fst) :=
    hnd.subperm h1
  have h3 := subperm_flatMap (fun t => t :: dupsOf cfg t) h2
  rw [flattenCalls_map_fst]
  exact List.Subperm.trans h3 (dedup_flatten_perm cfg htb hkeys).subperm

theorem delivered_flatten_nodup {α β H : Type} [DecidableEq H]
    (cfg : Config α β H) {n : ℕ} (htb : 0 < cfg.tb)
    (hkeys : cfg.thm.map Prod.fst = gridList n cfg.tb) {d : List (ℚ × α)}
    (hnd : (d.map Prod.fst).Nodup)
    (hsub : ∀ p ∈ d, p.1 ∈ (survivors cfg.thm).map Prod.fst) :
    ((flattenCalls cfg d).map Prod.fst).Nodup ∧
    ∀ τ ∈ (flattenCalls cfg d).map Prod.fst, τ ∈ gridList n cfg.tb := by
  have hsp := delivered_flatten_subperm cfg htb hkeys hnd hsub
  obtain ⟨l', hperm, hsl⟩ := hsp
  have hthmnd : (cfg.thm.map Prod.fst).Nodup := thm_keys_nodup htb hkeys
  constructor
  · exact hperm.nodup_iff.1 (hsl.nodup hthmnd)
  · intro τ hτ
    rw [← hkeys]
    exact hsl.subset (hperm.mem_iff.2 hτ)

theorem qround_mono {a b : ℚ} (h : a ≤ b) : qround a ≤ qround b :=
  Int.floor_le_floor (by linarith)

theorem qround_100 : qround 100 = 100 := by
  rw [qround, Int.floor_eq_iff]
  refine ⟨by norm_num, by norm_num⟩

theorem progAt_mono {tb len τ1 τ2 : ℚ} (hlen : 0 < len) (h : τ1 ≤ τ2) :
    progAt tb len τ1 ≤ progAt tb len τ2 := by
  apply qround_mono
  apply mul_le_mul_of_nonneg_left _ (by norm_num : (0:ℚ) ≤ 100)
  exact (div_le_div_iff_of_pos_right hlen).2 (by linarith)

theorem progAt_le_100 {tb len τ : ℚ} (hlen : 0 < len) (h : τ + tb ≤ len) :
    progAt tb len τ ≤ 100 := by
  have hle : (τ + tb) / len ≤ 1 := (div_le_one hlen).2 h
  have h100 : (100 : ℚ) * ((τ + tb) / len) ≤ 100 := by
    have := mul_le_mul_of_nonneg_left hle (by norm_num : (0:ℚ) ≤ 100)
    linarith
  calc progAt tb len τ = qround (100 * ((τ + tb) / len)) := rfl
    _ ≤ qround 100 := qround_mono h100
    _ = 100 := qround_100

theorem run_complete_spec {α β H : Type} [DecidableEq H] (cfg : Config α β H)
    {n : ℕ} (htb : 0 < cfg.tb) (hkeys : cfg.thm.map Prod.fst = gridList n cfg.tb)
    (hlen : cfg.len = (n : ℚ) * cfg.tb) (se : Bool) (es : List (Event α))
    (hval : validRun (β := β) cfg (initState α H true se) es = true)
    (hall : ∀ t ∈ (survivors cfg.thm).map Prod.fst,
      t ∈ (run (β := β) cfg (initState α H true se) es).1.delivered.map Prod.fst) :
    writeTimes (run (β := β) cfg (initState α H true se) es).2 = gridList n cfg.tb ∧
    (∀ p ∈ writesOf (run (β := β) cfg (initState α H true se) es).2,
      ∃ v, alookup (flattenCalls cfg
        (run (β := β) cfg (initState α H true se) es).1.delivered) p.1 = some v ∧
        p.2 = cfg.pipe v) ∧
    ((flattenCalls cfg
      (run (β := β) cfg (initState α H true se) es).1.delivered).map
        Prod.fst).Perm (gridList n cfg.tb) := by
  have hInv0 : ExpInv cfg (initState α H true se) ([] : List (Out α β)) :=
    expInv_init cfg true se [] rfl rfl
  have hInv := expInv_run cfg htb hkeys hlen es (initState α H true se) [] hInv0 hval
  rw [List.nil_append] at hInv
  obtain ⟨_, _, A3, A4, _⟩ := hInv
  obtain ⟨B1, _, _, _⟩ := A4
  have hsurvnd : ((survivors cfg.thm).map Prod.fst).Nodup :=
    survivors_keys_nodup (thm_keys_nodup htb hkeys)
  have hdels : (run (β := β) cfg (initState α H true se) es).1.delivered.map
      Prod.fst ⊆ (survivors cfg.thm).map Prod.fst := by
    intro t ht
    obtain ⟨p, hp, rfl⟩ := List.mem_map.1 ht
    exact A3.2 p hp
  have hperm1 : ((run (β := β) cfg (initState α H true se) es).1.delivered.map
      Prod.fst).Perm ((survivors cfg.thm).map Prod.fst) :=
    (A3.1.subperm hdels).antisymm (hsurvnd.subperm hall)
  have hperm2 : ((flattenCalls cfg
      (run (β := β) cfg (initState α H true se) es).1.delivered).map
        Prod.fst).Perm (gridList n cfg.tb) := by
    rw [flattenCalls_map_fst]
    have h3 := perm_flatMap (fun t => t :: dupsOf cfg t) hperm1
    rw [← hkeys]
    exact List.Perm.trans h3 (dedup_flatten_perm cfg htb hkeys)
  obtain ⟨hw, _, _, hcont, _⟩ := encodeMany_complete cfg.pipe cfg.tb cfg.len htb
    (flattenCalls cfg (run (β := β) cfg (initState α H true se) es).1.delivered)
    n hperm2
  refine ⟨?_, ?_, hperm2⟩
  · rw [writeTimes_eq_map_fst, B1, ← writeTimes_eq_map_fst, hw]
  · intro p hp
    rw [B1] at hp
    exact hcont p hp

theorem run_video_shape {α β H : Type} [DecidableEq H] (cfg : Config α β H)
    {n : ℕ} (htb : 0 < cfg.tb) (hkeys : cfg.thm.map Prod.fst = gridList n cfg.tb)
    (hlen : cfg.len = (n : ℚ) * cfg.tb) (se : Bool) (es : List (Event α))
    (hval : validRun (β := β) cfg (initState α H true se) es = true) :
    ∃ k : ℕ, k ≤ n ∧
      writeTimes (run (β := β) cfg (initState α H true se) es).2 =
        gridList k cfg.tb ∧
      progressOf (run (β := β) cfg (initState α H true se) es).2 =
        (gridList k cfg.tb).map (fun τ => progAt cfg.tb cfg.len τ) ++
          (if (run (β := β) cfg (initState α H true se) es).1.closedDone
            then [100] else []) := by
  have hInv0 : ExpInv cfg (initState α H true se) ([] : List (Out α β)) :=
    expInv_init cfg true se [] rfl rfl
  have hInv := expInv_run cfg htb hkeys hlen es (initState α H true se) [] hInv0 hval
  rw [List.nil_append] at hInv
  obtain ⟨_, _, A3, A4, _⟩ := hInv
  obtain ⟨B1, B2, _, _⟩ := A4
  obtain ⟨hndf, hgridf⟩ := delivered_flatten_nodup cfg htb hkeys A3.1 A3.2
  have hEnc0 : EncInv (α := α) cfg.tb [] 0 0 [] := by
    refine ⟨by push_cast; ring, ?_, rfl, ?_⟩
    · intro τ
      rw [show gridList 0 cfg.tb = [] from rfl]
      simp [alookup]
    · intro τ hτ
      rw [show gridList 0 cfg.tb = [] from rfl] at hτ
      simp at hτ
  obtain ⟨k', _, hEnc', hwts, _, hprog⟩ :=
    encodeMany_inv cfg.pipe cfg.tb cfg.len htb
      (flattenCalls cfg (run (β := β) cfg (initState α H true se) es).1.delivered)
      [] 0 0 [] (by simpa using hndf) hEnc0
  rw [show gridList 0 cfg.tb = [] from rfl, List.nil_append] at hwts
  have hkn : k' ≤ n := by
    by_contra hlt
    push_neg at hlt
    obtain ⟨_, _, _, hproc⟩ := hEnc'
    have hmem : ((n : ℚ) * cfg.tb) ∈ gridList k' cfg.tb :=
      mem_gridList.2 ⟨n, hlt, rfl⟩
    have hsome := hproc _ hmem
    rw [List.nil_append, alookup_isSome_iff] at hsome
    have hg := hgridf _ hsome
    rcases mem_gridList.1 hg with ⟨j, hj, hjeq⟩
    exact absurd (natCast_mul_tb_inj htb hjeq) (by omega)
  refine ⟨k', hkn, ?_, ?_⟩
  · rw [writeTimes_eq_map_fst, B1, ← writeTimes_eq_map_fst, hwts]
  · rw [B2, hprog, hwts]

theorem validRun_ended_nil {α β H : Type} [DecidableEq H] (cfg : Config α β H)
    {s : ExpState α H} (h : s.ended = true) {es : List (Event α)}
    (hval : validRun (β := β) cfg s es = true) : es = [] := by
  cases es with
  | nil => rfl
  | cons e es =>
    rw [show validRun (β := β) cfg s (e :: es) =
      (enabledB (β := β) cfg s e &&
        validRun (β := β) cfg (step (β := β) cfg s e).1 es) from rfl,
      Bool.and_eq_true] at hval
    rw [enabledB_of_ended cfg h e] at hval
    exact absurd hval.1 (by simp)

theorem run_noop {α β H : Type} [DecidableEq H] (cfg : Config α β H) :
    ∀ (es : List (Event α)) (s : ExpState α H),
      s.video_done = true → s.sound_done = true → s.renderPhase = false →
      s.hashRequested = false → s.soundInvalidated = false →
      s.soundWritten = false → s.closeRequested = false →
      s.export_status = false →
      validRun (β := β) cfg s es = true →
      writesOf (run (β := β) cfg s es).2 = [] ∧
      progressOf (run (β := β) cfg s es).2 = [] ∧
      convertsOf (run (β := β) cfg s es).2 = [] ∧
      soundOuts (run (β := β) cfg s es).2 = [] ∧
      Out.exportEnded (α := α) (β := β) true ∉ (run (β := β) cfg s es).2 ∧
      (run (β := β) cfg s es).1.export_status = false := by
  intro es
  induction es with
  | nil =>
    intro s hv hsd _ _ _ _ _ hst _
    exact ⟨rfl, rfl, rfl, rfl, by simp [run], hst⟩
  | cons e es ih =>
    intro s hv hsd hrp hhr hsi hsw hcr hst hval
    rw [show validRun (β := β) cfg s (e :: es) =
      (enabledB (β := β) cfg s e &&
        validRun (β := β) cfg (step (β := β) cfg s e).1 es) from rfl,
      Bool.and_eq_true] at hval
    obtain ⟨hen, hval'⟩ := hval
    rw [show run (β := β) cfg s (e :: es) =
      ((run (β := β) cfg (step (β := β) cfg s e).1 es).1,
       (step (β := β) cfg s e).2 ++
         (run (β := β) cfg (step (β := β) cfg s e).1 es).2) from rfl]
    cases e with
    | openSucceeded =>
      have hsteq := step_openSucceeded_eq (β := β) cfg s
      have houts : (step (β := β) cfg s Event.openSucceeded).2 = [] := by
        simp [step, hv, hsd]
      have hfields : (step (β := β) cfg s Event.openSucceeded).1.video_done = true ∧
          (step (β := β) cfg s Event.openSucceeded).1.sound_done = true ∧
          (step (β := β) cfg s Event.openSucceeded).1.renderPhase = false ∧
          (step (β := β) cfg s Event.openSucceeded).1.hashRequested = false ∧
          (step (β := β) cfg s Event.openSucceeded).1.soundInvalidated = false ∧
          (step (β := β) cfg s Event.openSucceeded).1.soundWritten = false ∧
          (step (β := β) cfg s Event.openSucceeded).1.closeRequested = false ∧
          (step (β := β) cfg s Event.openSucceeded).1.export_status = false := by
        rw [hsteq]
        refine ⟨hv, hsd, hrp, ?_, ?_, hsw, hcr, hst⟩
        · show (if s.video_done then s.hashRequested else true) = false
          rw [hv, if_pos rfl]
          exact hhr
        · show (if s.sound_done then s.soundInvalidated else true) = false
          rw [hsd, if_pos rfl]
          exact hsi
      obtain ⟨f1, f2, f3, f4, f5, f6, f7, f8⟩ := hfields
      obtain ⟨i1, i2, i3, i4, i5, i6⟩ := ih _ f1 f2 f3 f4 f5 f6 f7 f8 hval'
      rw [houts]
      refine ⟨?_, ?_, ?_, ?_, ?_, i6⟩
      · rw [List.nil_append]; exact i1
      · rw [List.nil_append]; exact i2
      · rw [List.nil_append]; exact i3
      · rw [List.nil_append]; exact i4
      · rw [List.nil_append]; exact i5
    | openFailed =>
      have hfields : (step (β := β) cfg s Event.openFailed).1.video_done = true ∧
          (step (β := β) cfg s Event.openFailed).1.sound_done = true ∧
          (step (β := β) cfg s Event.openFailed).1.renderPhase = false ∧
          (step (β := β) cfg s Event.openFailed).1.hashRequested = false ∧
          (step (β := β) cfg s Event.openFailed).1.soundInvalidated = false ∧
          (step (β := β) cfg s Event.openFailed).1.soundWritten = false ∧
          (step (β := β) cfg s Event.openFailed).1.closeRequested = false ∧
          (step (β := β) cfg s Event.openFailed).1.export_status = false :=
        ⟨hv, hsd, hrp, hhr, hsi, hsw, hcr, hst⟩
      obtain ⟨f1, f2, f3, f4, f5, f6, f7, f8⟩ := hfields
      obtain ⟨i1, i2, i3, i4, i5, i6⟩ := ih _ f1 f2 f3 f4 f5 f6 f7 f8 hval'
      have houts : (step (β := β) cfg s Event.openFailed).2 =
          [Out.exportEnded false] := by
        rw [step_openFailed_eq, hst]
      rw [houts]
      refine ⟨i1, i2, i3, ?_, ?_, i6⟩
      · rw [soundOuts_append, i4]
        rfl
      · intro hmem
        rcases List.mem_append.1 hmem with hmem | hmem
        · rw [List.mem_singleton] at hmem
          exact absurd hmem (by simp)
        · exact i5 hmem
    | videoQueueComplete =>
      rw [show enabledB (β := β) cfg s Event.videoQueueComplete =
        (!s.ended && s.hashRequested && !s.hashDone) from rfl, hhr] at hen
      simp at hen
    | cachedFrameReady t v =>
      rw [show enabledB (β := β) cfg s (Event.cachedFrameReady t v) =
        (s.renderPhase && !s.ended && isGridMul cfg.tb t &&
          covers s.renderRanges t &&
          decide (t ∉ s.delivered.map Prod.fst)) from rfl, hrp] at hen
      simp at hen
    | soundQueueComplete =>
      rw [show enabledB (β := β) cfg s Event.soundQueueComplete =
        (!s.ended && s.soundInvalidated && !s.soundQueueDone) from rfl, hsi] at hen
      simp at hen
    | soundComplete =>
      rw [show enabledB (β := β) cfg s Event.soundComplete =
        (!s.ended && s.soundWritten && !s.soundCompleted) from rfl, hsw] at hen
      simp at hen
    | closed =>
      rw [show enabledB (β := β) cfg s Event.closed =
        (!s.ended && s.closeRequested && !s.closedDone) from rfl, hcr] at hen
      simp at hen

theorem run_video_only {α β H : Type} [DecidableEq H] (cfg : Config α β H) :
    ∀ (es : List (Event α)) (s : ExpState α H),
      s.sound_done = true → s.soundInvalidated = false → s.soundWritten = false →
      CloseFlagsOk s →
      validRun (β := β) cfg s es = true →
      CloseFlagsOk (run (β := β) cfg s es).1 ∧
      (run (β := β) cfg s es).1.sound_done = true ∧
      soundOuts (run (β := β) cfg s es).2 = [] := by
  intro es
  induction es with
  | nil =>
    intro s hsd _ _ hc _
    exact ⟨hc, hsd, rfl⟩
  | cons e es ih =>
    intro s hsd hsi hsw hc hval
    rw [show validRun (β := β) cfg s (e :: es) =
      (enabledB (β := β) cfg s e &&
        validRun (β := β) cfg (step (β := β) cfg s e).1 es) from rfl,
      Bool.and_eq_true] at hval
    obtain ⟨hen, hval'⟩ := hval
    rw [show run (β := β) cfg s (e :: es) =
      ((run (β := β) cfg (step (β := β) cfg s e).1 es).1,
       (step (β := β) cfg s e).2 ++
         (run (β := β) cfg (step (β := β) cfg s e).1 es).2) from rfl]
    cases e with
    | openSucceeded =>
      have hsteq := step_openSucceeded_eq (β := β) cfg s
      have f1 : (step (β := β) cfg s Event.openSucceeded).1.sound_done = true := by
        rw [hsteq]
        exact hsd
      have f2 : (step (β := β) cfg s Event.openSucceeded).1.soundInvalidated
          = false := by
        rw [hsteq]
        show (if s.sound_done then s.soundInvalidated else true) = false
        rw [hsd, if_pos rfl]
        exact hsi
      have f3 : (step (β := β) cfg s Event.openSucceeded).1.soundWritten
          = false := by
        rw [hsteq]
        exact hsw
      have f4 : CloseFlagsOk (step (β := β) cfg s Event.openSucceeded).1 := by
        rw [hsteq]
        intro h
        exact hc h
      obtain ⟨i1, i2, i3⟩ := ih _ f1 f2 f3 f4 hval'
      have houts : soundOuts (step (β := β) cfg s Event.openSucceeded).2 = [] := by
        by_cases hv : s.video_done <;>
          simp [step, hv, hsd, soundOuts, isSoundReq]
      exact ⟨i1, i2, by rw [soundOuts_append, houts, i3]; rfl⟩
    | openFailed =>
      obtain ⟨i1, i2, i3⟩ := ih (step (β := β) cfg s Event.openFailed).1
        hsd hsi hsw (fun h => hc h) hval'
      exact ⟨i1, i2, by rw [soundOuts_append, i3]; rfl⟩
    | videoQueueComplete =>
      obtain ⟨i1, i2, i3⟩ := ih (step (β := β) cfg s Event.videoQueueComplete).1
        hsd hsi hsw (fun h => hc h) hval'
      have houts : soundOuts (step (β := β) cfg s Event.videoQueueComplete).2
          = [] := by
        rw [show (step (β := β) cfg s Event.videoQueueComplete).2 =
          Out.req (Request.setMode false) ::
            (collapse cfg.tb cfg.thm [⟨0, cfg.len⟩] s.matched).2.1.map
              (fun r => Out.req (Request.invalidateVideo r.tin r.tout)) from rfl]
        rw [show soundOuts (Out.req (α := α) (β := β) (Request.setMode false) ::
            (collapse cfg.tb cfg.thm [⟨0, cfg.len⟩] s.matched).2.1.map
              (fun r => Out.req (Request.invalidateVideo r.tin r.tout))) =
          soundOuts ((collapse cfg.tb cfg.thm [⟨0, cfg.len⟩] s.matched).2.1.map
              (fun r => Out.req (Request.invalidateVideo r.tin r.tout)))
          from rfl]
        exact soundOuts_invalidates _
      exact ⟨i1, i2, by rw [soundOuts_append, houts, i3]; rfl⟩
    | cachedFrameReady t v =>
      obtain ⟨_, _, _, _, _, F6, _, _, _, _, _, F12, _, _, _, _, F17, _, F19, _,
        _, _, F23⟩ := frameRendered_spec cfg t v s
      rw [step_cachedFrameReady_eq]
      obtain ⟨i1, i2, i3⟩ := ih (frameRendered cfg t v s).1
        (F12.trans hsd) (F17.trans hsi) (F19.trans hsw) (F23 hc)
        (by rw [← step_cachedFrameReady_eq cfg s t v]; exact hval')
      exact ⟨i1, i2, by rw [soundOuts_append, F6, i3]; rfl⟩
    | soundQueueComplete =>
      rw [show enabledB (β := β) cfg s Event.soundQueueComplete =
        (!s.ended && s.soundInvalidated && !s.soundQueueDone) from rfl, hsi] at hen
      simp at hen
    | soundComplete =>
      rw [show enabledB (β := β) cfg s Event.soundComplete =
        (!s.ended && s.soundWritten && !s.soundCompleted) from rfl, hsw] at hen
      simp at hen
    | closed =>
      obtain ⟨i1, i2, i3⟩ := ih (step (β := β) cfg s Event.closed).1
        hsd hsi hsw (fun h => hc h) hval'
      exact ⟨i1, i2, by rw [soundOuts_append, i3]; rfl⟩

theorem run_close_guard {α β H : Type} [DecidableEq H] (cfg : Config α β H) :
    ∀ (es : List (Event α)) (s : ExpState α H),
      CloseFlagsOk s → validRun (β := β) cfg s es = true →
      CloseFlagsOk (run (β := β) cfg s es).1 := by
  intro es
  induction es with
  | nil =>
    intro s hc _
    exact hc
  | cons e es ih =>
    intro s hc hval
    rw [show validRun (β := β) cfg s (e :: es) =
      (enabledB (β := β) cfg s e &&
        validRun (β := β) cfg (step (β := β) cfg s e).1 es) from rfl,
      Bool.and_eq_true] at hval
    obtain ⟨_, hval'⟩ := hval
    have hstep : CloseFlagsOk (step (β := β) cfg s e).1 := by
      cases e with
      | openSucceeded =>
        rw [step_openSucceeded_eq]
        intro h
        exact hc h
      | openFailed =>
        intro h
        exact hc h
      | videoQueueComplete =>
        intro h
        exact hc h
      | cachedFrameReady t v =>
        rw [step_cachedFrameReady_eq]
        obtain ⟨_, _, _, _, _, _, _, _, _, _, _, _, _, _, _, _, _, _, _, _, _,
          _, F23⟩ := frameRendered_spec cfg t v s
        exact F23 hc
      | soundQueueComplete =>
        intro h
        exact hc h
      | soundComplete =>
        cases hv : s.video_done
        · rw [step_soundComplete_notdone cfg hv]
          intro h
          obtain ⟨h1, _, h3⟩ := hc h
          exact ⟨h1, rfl, h3⟩
        · rw [step_soundComplete_done cfg hv]
          intro _
          exact ⟨hv, rfl, rfl⟩
      | closed =>
        intro h
        exact hc h
    rw [show run (β := β) cfg s (e :: es) =
      ((run (β := β) cfg (step (β := β) cfg s e).1 es).1,
       (step (β := β) cfg s e).2 ++
         (run (β := β) cfg (step (β := β) cfg s e).1 es).2) from rfl]
    exact ih _ hstep hval'

theorem getLast?_mem_of_eq {γ : Type} :
    ∀ (l : List γ) (a : γ), l.getLast? = some a → a ∈ l
  | [], a, h => by simp at h
  | [x], a, h => by
    rw [List.getLast?_singleton] at h
    rw [List.mem_singleton]
    exact (Option.some_inj.1 h).symm
  | x :: y :: t, a, h => by
    rw [List.getLast?_cons_cons] at h
    exact List.mem_cons_of_mem x (getLast?_mem_of_eq (y :: t) a h)

/-- Claim C1: over any sequence of delivered-frame events, in any arrival
order, the `WriteFrame` requests issued to the encoder carry strictly
increasing timestamps (out-of-order frames are buffered in `cached_frames_`
and drained in expected order). -/
theorem writeFrame_strict_order {α β H : Type} [DecidableEq H] (cfg : Config α β H)
    (htb : 0 < cfg.tb) (ve se : Bool) (es : List (Event α)) :
    List.Chain' (· < ·)
      (writeTimes (run (β := β) cfg (initState α H ve se) es).2) :=
  (run_chain cfg htb es (initState α H ve se)).2.1

theorem writeFrame_strict_order_witness :
    0 < cfg10.tb ∧
    List.Chain' (· < ·)
      (writeTimes (run (β := Unit) cfg10 (initState Unit ℕ true false) trace10).2) :=
  ⟨by decide, writeFrame_strict_order cfg10 (by decide) true false trace10⟩

/-- Claim C6: if the encoder open fails, the job ends immediately: the trace
cannot continue, the only output is a single terminal event with status
false, no hash or render request is ever issued, and the export message is
the open-failure diagnostic. -/
theorem open_failure_short_circuit {α β H : Type} [DecidableEq H]
    (cfg : Config α β H) (ve se : Bool) (es : List (Event α))
    (hval : validRun (β := β) cfg (initState α H ve se)
      (Event.openFailed :: es) = true) :
    es = [] ∧
    (run (β := β) cfg (initState α H ve se) (Event.openFailed :: es)).2 =
      [Out.exportEnded false] ∧
    (run (β := β) cfg (initState α H ve se)
      (Event.openFailed :: es)).1.export_status = false ∧
    (run (β := β) cfg (initState α H ve se)
      (Event.openFailed :: es)).1.export_msg = "Failed to open encoder" ∧
    (run (β := β) cfg (initState α H ve se)
      (Event.openFailed :: es)).1.ended = true ∧
    (run (β := β) cfg (initState α H ve se)
      (Event.openFailed :: es)).1.hashRequested = false ∧
    (run (β := β) cfg (initState α H ve se)
      (Event.openFailed :: es)).1.renderPhase = false := by
  rw [show validRun (β := β) cfg (initState α H ve se) (Event.openFailed :: es) =
    (enabledB (β := β) cfg (initState α H ve se) Event.openFailed &&
      validRun (β := β) cfg
        (step (β := β) cfg (initState α H ve se) Event.openFailed).1 es)
    from rfl, Bool.and_eq_true] at hval
  have hes := validRun_ended_nil cfg
    (show (step (β := β) cfg (initState α H ve se) Event.openFailed).1.ended = true
      from rfl) hval.2
  subst hes
  exact ⟨rfl, rfl, rfl, rfl, rfl, rfl, rfl⟩

theorem open_failure_short_circuit_witness :
    validRun (β := Unit) cfg10 (initState Unit ℕ true false)
      [Event.openFailed] = true ∧
    (run (β := Unit) cfg10 (initState Unit ℕ true false)
      [Event.openFailed]).2 = [Out.exportEnded false] :=
  ⟨by decide, (open_failure_short_circuit cfg10 true false [] (by decide)).2.1⟩

/-- Claim C7 counterexample: a job with neither stream enabled is not a
no-op success — after the encoder opens, no completion event is enabled any
more, yet the job has not ended and its status is still false: it stalls
forever instead of succeeding. -/
theorem noop_job_stalls_cex :
    validRun (β := Unit) cfgNoop (initState Unit ℕ false false)
      [Event.openSucceeded] = true ∧
    noEventEnabled (β := Unit) cfgNoop
      (run (β := Unit) cfgNoop (initState Unit ℕ false false)
        [Event.openSucceeded]).1 ∧
    (run (β := Unit) cfgNoop (initState Unit ℕ false false)
      [Event.openSucceeded]).1.ended = false ∧
    (run (β := Unit) cfgNoop (initState Unit ℕ false false)
      [Event.openSucceeded]).1.export_status = false := by
  refine ⟨by decide, ?_, rfl, rfl⟩
  intro e
  cases e <;> rfl

/-- Claim C7 (amended): a job with neither stream enabled performs no
rendering or encoding work, emits no sound request, never emits a successful
terminal event and its status stays false — it is a no-op, but it never
terminates successfully. -/
theorem noop_job_never_succeeds {α β H : Type} [DecidableEq H]
    (cfg : Config α β H) (es : List (Event α))
    (hval : validRun (β := β) cfg (initState α H false false) es = true) :
    writesOf (run (β := β) cfg (initState α H false false) es).2 = [] ∧
    progressOf (run (β := β) cfg (initState α H false false) es).2 = [] ∧
    convertsOf (run (β := β) cfg (initState α H false false) es).2 = [] ∧
    soundOuts (run (β := β) cfg (initState α H false false) es).2 = [] ∧
    Out.exportEnded (α := α) (β := β) true ∉
      (run (β := β) cfg (initState α H false false) es).2 ∧
    (run (β := β) cfg (initState α H false false) es).1.export_status = false :=
  run_noop cfg es (initState α H false false) rfl rfl rfl rfl rfl rfl rfl rfl hval

theorem noop_job_never_succeeds_witness :
    validRun (β := Unit) cfgNoop (initState Unit ℕ false false)
      [Event.openSucceeded] = true ∧
    (run (β := Unit) cfgNoop (initState Unit ℕ false false)
      [Event.openSucceeded]).1.export_status = false :=
  ⟨by decide,
   (noop_job_never_succeeds cfgNoop [Event.openSucceeded] (by decide)).2.2.2.2.2⟩

/-- Claim C8: in every job, whenever the encoder `Close` has been requested
both done flags were already set and the status was already success
(`ExportSucceeded`'s guard); the guard is re-evaluated on each stream's
completion callback — `AudioEncodeComplete` sets `audio_done_` and requests
`Close` exactly when video is already done, and the video-completion path
inside `EncodeFrame` requests `Close` exactly when audio is already done —
and a job whose audio stream is never enabled stays audio-done and never
issues an audio-related request. -/
theorem close_requires_both_done {α β H : Type} [DecidableEq H]
    (cfg : Config α β H) (ve se : Bool) (es : List (Event α))
    (hval : validRun (β := β) cfg (initState α H ve se) es = true) :
    CloseFlagsOk (run (β := β) cfg (initState α H ve se) es).1 ∧
    (∀ s : ExpState α H, s.video_done = true →
      step (β := β) cfg s Event.soundComplete =
        ({ s with soundCompleted := true, sound_done := true,
                  export_status := true, closeRequested := true },
         [Out.req Request.closeEnc])) ∧
    (∀ s : ExpState α H, s.video_done = false →
      step (β := β) cfg s Event.soundComplete =
        ({ s with soundCompleted := true, sound_done := true }, [])) ∧
    (∀ (t : ℚ) (v : α) (s : ExpState α H), t = s.waiting →
      cfg.len ≤ (encodeLoop cfg.pipe cfg.tb cfg.len v s.waiting s.cached).2.1 →
      s.sound_done = true →
      (encodeFrameS (β := β) cfg t v s).1.closeRequested = true ∧
      (encodeFrameS (β := β) cfg t v s).1.export_status = true ∧
      (encodeFrameS (β := β) cfg t v s).1.video_done = true) ∧
    (∀ (t : ℚ) (v : α) (s : ExpState α H), t = s.waiting →
      cfg.len ≤ (encodeLoop cfg.pipe cfg.tb cfg.len v s.waiting s.cached).2.1 →
      s.sound_done = false →
      (encodeFrameS (β := β) cfg t v s).1.closeRequested = s.closeRequested ∧
      (encodeFrameS (β := β) cfg t v s).1.video_done = true) ∧
    (se = false →
      (run (β := β) cfg (initState α H ve se) es).1.sound_done = true ∧
      soundOuts (run (β := β) cfg (initState α H ve se) es).2 = []) := by
  refine ⟨?_, ?_, ?_, ?_, ?_, ?_⟩
  · exact run_close_guard cfg es (initState α H ve se)
      (fun h => absurd h (by simp [initState])) hval
  · intro s hv
    exact step_soundComplete_done cfg hv
  · intro s hv
    exact step_soundComplete_notdone cfg hv
  · intro t v s h h2 h3
    rw [encodeFrameS_of_eq_done_sound cfg v h h2 h3]
    exact ⟨rfl, rfl, rfl⟩
  · intro t v s h h2 h3
    rw [encodeFrameS_of_eq_done_nosound cfg v h h2 h3]
    exact ⟨rfl, rfl⟩
  · intro hse
    subst hse
    obtain ⟨_, i2, i3⟩ := run_video_only cfg es (initState α H ve false)
      rfl rfl rfl (fun h => absurd h (by simp [initState])) hval
    exact ⟨i2, i3⟩

theorem close_requires_both_done_witness :
    validRun (β := Unit) cfg10 (initState Unit ℕ true true) trace10a = true ∧
    CloseFlagsOk (run (β := Unit) cfg10
      (initState Unit ℕ true true) trace10a).1 ∧
    (run (β := Unit) cfg10
      (initState Unit ℕ true true) trace10a).1.export_status = true ∧
    (run (β := Unit) cfg10
      (initState Unit ℕ true true) trace10a).1.video_done = true ∧
    (run (β := Unit) cfg10
      (initState Unit ℕ true true) trace10a).1.sound_done = true ∧
    validRun (β := Unit) cfg10 (initState Unit ℕ true false) trace10 = true ∧
    CloseFlagsOk (run (β := Unit) cfg10
      (initState Unit ℕ true false) trace10).1 ∧
    soundOuts (run (β := Unit) cfg10
      (initState Unit ℕ true false) trace10).2 = [] :=
  ⟨by decide,
   (close_requires_both_done cfg10 true true trace10a (by decide)).1,
   by decide, by decide, by decide, by decide,
   (close_requires_both_done cfg10 true false trace10 (by decide)).1,
   ((close_requires_both_done cfg10 true false trace10
     (by decide)).2.2.2.2.2 rfl).2⟩

/-- Claim C9: an `EncodeFrame` call with a timestamp strictly below the
expected one issues no write, leaves the expected timestamp unchanged,
buffers the value under its stale key, and over every continuation of the
job the stale entry is never removed and its timestamp is never written. -/
theorem stale_frame_never_encoded {α β H : Type} [DecidableEq H]
    (cfg : Config α β H) (htb : 0 < cfg.tb) (t : ℚ) (v : α) (s : ExpState α H)
    (hlt : t < s.waiting) (es : List (Event α)) :
    (encodeFrameS (β := β) cfg t v s).2 = [] ∧
    (encodeFrameS (β := β) cfg t v s).1.waiting = s.waiting ∧
    alookup (encodeFrameS (β := β) cfg t v s).1.cached t = some v ∧
    (alookup (run (β := β) cfg
      (encodeFrameS (β := β) cfg t v s).1 es).1.cached t).isSome = true ∧
    t < (run (β := β) cfg (encodeFrameS (β := β) cfg t v s).1 es).1.waiting ∧
    ∀ x ∈ writeTimes (run (β := β) cfg
      (encodeFrameS (β := β) cfg t v s).1 es).2, t < x := by
  have hne : ¬ t = s.waiting := ne_of_lt hlt
  have heq := encodeFrameS_of_ne (β := β) cfg v hne
  have h1 : (encodeFrameS (β := β) cfg t v s).2 = [] := by rw [heq]
  have h2 : (encodeFrameS (β := β) cfg t v s).1.waiting = s.waiting := by rw [heq]
  have h3 : alookup (encodeFrameS (β := β) cfg t v s).1.cached t = some v := by
    rw [heq]
    show alookup (ainsert s.cached t v) t = some v
    rw [alookup_ainsert, if_pos rfl]
  have hsome : (alookup (encodeFrameS (β := β) cfg t v s).1.cached t).isSome
      = true := by
    rw [h3]
    rfl
  have hlt2 : t < (encodeFrameS (β := β) cfg t v s).1.waiting := by
    rw [h2]
    exact hlt
  obtain ⟨r1, r2⟩ := run_stale cfg htb es (encodeFrameS (β := β) cfg t v s).1
    hlt2 hsome
  obtain ⟨_, _, rc3⟩ := run_chain cfg htb es (encodeFrameS (β := β) cfg t v s).1
  refine ⟨h1, h2, h3, r1, r2, ?_⟩
  intro x hx
  exact lt_of_lt_of_le hlt2 (rc3 x hx).1

theorem stale_frame_never_encoded_witness :
    (0 : ℚ) < (run (β := Unit) cfg1
      (initState Unit ℕ true false) trace1pre).1.waiting ∧
    alookup (encodeFrameS (β := Unit) cfg1 0 ()
      (run (β := Unit) cfg1 (initState Unit ℕ true false) trace1pre).1).1.cached
      0 = some () :=
  ⟨by decide, (stale_frame_never_encoded cfg1 (by decide) 0 ()
    (run (β := Unit) cfg1 (initState Unit ℕ true false) trace1pre).1
    (by decide) []).2.2.1⟩

/-- Claim C10: `ClickableLabel` emits `MouseClicked` on mouse release exactly
when the cursor is still over the widget, and emits `MouseDoubleClicked` on
every double click regardless of cursor position. -/
theorem clickable_label_signals :
    (∀ u : Bool, mouseReleaseEvent u =
      if u then [LabelSignal.mouseClicked] else []) ∧
    (∀ u : Bool, (LabelSignal.mouseClicked ∈ mouseReleaseEvent u ↔ u = true)) ∧
    (∀ u : Bool, mouseDoubleClickEvent u = [LabelSignal.mouseDoubleClicked]) := by
  refine ⟨fun u => rfl, fun u => ?_, fun u => rfl⟩
  cases u <;> simp [mouseReleaseEvent]

/-- Claim C2: on hash completion the pairwise scan is exhaustive: for every
hash group the earliest timestamp survives (it stays in the render set), every
later timestamp of the group is appended to that hash's `matched_frames_`
entry and removed from the pending ranges as a one-time-base-wide sub-range,
and the resulting ranges cover exactly the surviving grid timestamps. -/
theorem hash_dedup_collapse {α β H : Type} [DecidableEq H] (cfg : Config α β H)
    {n : ℕ} (htb : 0 < cfg.tb) (hkeys : cfg.thm.map Prod.fst = gridList n cfg.tb)
    (hlen : cfg.len = (n : ℚ) * cfg.tb) (s : ExpState α H)
    (hm : s.matched = []) :
    (videoHashesComplete (β := β) cfg s).1.renderRanges =
      (removedOf cfg.thm).foldl
        (fun acc d => removeTimeRange acc ⟨d, d + cfg.tb⟩) [⟨0, cfg.len⟩] ∧
    (∀ t h, (t, h) ∈ cfg.thm →
      ((t, h) ∈ survivors cfg.thm ↔ ∀ q ∈ cfg.thm, q.2 = h → t ≤ q.1)) ∧
    (∀ p ∈ cfg.thm, p ∉ survivors cfg.thm →
      p.1 ∈ alookupD (videoHashesComplete (β := β) cfg s).1.matched p.2 ∧
      p.1 ∈ removedOf cfg.thm) ∧
    (∀ τ, (isGridMul cfg.tb τ = true ∧
        covers (videoHashesComplete (β := β) cfg s).1.renderRanges τ = true) ↔
      τ ∈ (survivors cfg.thm).map Prod.fst) := by
  have hmr : (videoHashesComplete (β := β) cfg s).1.renderRanges =
      colRanges cfg := by
    show (collapse cfg.tb cfg.thm [⟨0, cfg.len⟩] s.matched).2.1 = colRanges cfg
    rw [hm]
    rfl
  have hmm : (videoHashesComplete (β := β) cfg s).1.matched = colMatched cfg := by
    show (collapse cfg.tb cfg.thm [⟨0, cfg.len⟩] s.matched).2.2 = colMatched cfg
    rw [hm]
    rfl
  refine ⟨?_, ?_, ?_, ?_⟩
  · rw [hmr]
    exact collapse_ranges cfg.tb cfg.thm [⟨0, cfg.len⟩] []
  · intro t h hmem
    exact mem_survivors_iff_earliest cfg.thm (thm_sorted htb hkeys) t h hmem
  · intro p hp hps
    rw [hmm]
    exact non_survivor_matched cfg.tb cfg.thm [⟨0, cfg.len⟩] []
      (fun h' _ => rfl) p hp hps
  · intro τ
    rw [hmr]
    exact dedup_covered_iff_survivor cfg htb hkeys hlen τ

theorem hash_dedup_collapse_witness :
    0 < cfg10.tb ∧ (initState Unit ℕ true false).matched = [] ∧
    (∀ τ, (isGridMul cfg10.tb τ = true ∧
        covers (videoHashesComplete (β := Unit) cfg10
          (initState Unit ℕ true false)).1.renderRanges τ = true) ↔
      τ ∈ (survivors cfg10.thm).map Prod.fst) :=
  ⟨by decide, rfl,
   (hash_dedup_collapse cfg10 (n := 10) (by decide) (by decide) (by decide)
     (initState Unit ℕ true false) rfl).2.2.2⟩

/-- Claim C3 counterexample: on the §8 scenario the grid timestamps covered
by the render ranges the coordinator actually requests are
`{0,1,2,3,4,5,6,8,9}` — the primary of the duplicate pair `{3,7}` stays in
the render set, so the spec's expected set `{0,1,2,4,5,6,8,9}` (which drops
timestamp 3) is wrong. -/
theorem render_set_includes_primary_cex :
    (gridList 10 1).filter
      (fun τ => isGridMul cfg10.tb τ && covers (colRanges cfg10) τ) =
      ([0, 1, 2, 3, 4, 5, 6, 8, 9] : List ℚ) ∧
    covers (colRanges cfg10) 3 = true ∧
    (3 : ℚ) ∉ ([0, 1, 2, 4, 5, 6, 8, 9] : List ℚ) := by
  refine ⟨by decide, by decide, by decide⟩

/-- Claim C3 (amended): over a complete job — a valid trace that delivers
every surviving primary — the `WriteFrame` calls are exactly the grid
timestamps of `[0, length)`, duplicates included: their number equals the
number of grid timestamps. -/
theorem writeFrame_total_count {α β H : Type} [DecidableEq H]
    (cfg : Config α β H) {n : ℕ} (htb : 0 < cfg.tb)
    (hkeys : cfg.thm.map Prod.fst = gridList n cfg.tb)
    (hlen : cfg.len = (n : ℚ) * cfg.tb) (se : Bool) (es : List (Event α))
    (hval : validRun (β := β) cfg (initState α H true se) es = true)
    (hall : ∀ t ∈ (survivors cfg.thm).map Prod.fst,
      t ∈ (run (β := β) cfg (initState α H true se) es).1.delivered.map
        Prod.fst) :
    writeTimes (run (β := β) cfg (initState α H true se) es).2 =
      gridList n cfg.tb ∧
    (writeTimes (run (β := β) cfg (initState α H true se) es).2).length = n := by
  obtain ⟨hw, _, _⟩ := run_complete_spec cfg htb hkeys hlen se es hval hall
  refine ⟨hw, ?_⟩
  rw [hw]
  simp [gridList]

theorem writeFrame_total_count_witness :
    validRun (β := Unit) cfg10 (initState Unit ℕ true false) trace10 = true ∧
    (writeTimes (run (β := Unit) cfg10
      (initState Unit ℕ true false) trace10).2).length = 10 :=
  ⟨by decide,
   (writeFrame_total_count cfg10 (n := 10) (by decide) (by decide) (by decide)
     false trace10 (by decide) (by decide)).2⟩

/-- Claim C4 counterexample: the conversion pipeline *is* re-run per
duplicate: on a two-frame timeline whose frames share one hash, a complete
run renders a single primary frame yet executes the conversion pipeline
twice (once for the primary's write, once more when the duplicate timestamp
is encoded). -/
theorem duplicate_pipeline_rerun_cex :
    validRun (β := Unit) cfg2 (initState Unit ℕ true false) trace2 = true ∧
    (survivors cfg2.thm).length = 1 ∧
    (convertsOf (run (β := Unit) cfg2
      (initState Unit ℕ true false) trace2).2).length = 2 := by
  refine ⟨by decide, by decide, by decide⟩

/-- Claim C4 (amended): over a complete job, for every delivered primary
frame `(t, v)` and every duplicate timestamp `d` of its hash, the frame
content written at `d` equals the frame content written at `t` — both are
the pipeline output of the same rendered value `v`. -/
theorem duplicate_content_identical {α β H : Type} [DecidableEq H]
    (cfg : Config α β H) {n : ℕ} (htb : 0 < cfg.tb)
    (hkeys : cfg.thm.map Prod.fst = gridList n cfg.tb)
    (hlen : cfg.len = (n : ℚ) * cfg.tb) (se : Bool) (es : List (Event α))
    (hval : validRun (β := β) cfg (initState α H true se) es = true)
    (hall : ∀ t ∈ (survivors cfg.thm).map Prod.fst,
      t ∈ (run (β := β) cfg (initState α H true se) es).1.delivered.map
        Prod.fst)
    (t : ℚ) (v : α) (d : ℚ)
    (hdel : (t, v) ∈ (run (β := β) cfg (initState α H true se) es).1.delivered)
    (hd : d ∈ dupsOf cfg t) :
    alookup (writesOf (run (β := β) cfg (initState α H true se) es).2) d =
      some (cfg.pipe v) ∧
    alookup (writesOf (run (β := β) cfg (initState α H true se) es).2) t =
      some (cfg.pipe v) := by
  obtain ⟨hw, hcont, hperm⟩ := run_complete_spec cfg htb hkeys hlen se es
    hval hall
  have hnodup := hperm.nodup_iff.2 (gridList_nodup htb n)
  have hmem_t : (t, v) ∈ flattenCalls cfg
      (run (β := β) cfg (initState α H true se) es).1.delivered :=
    List.mem_flatMap.2 ⟨(t, v), hdel, List.mem_cons_self _ _⟩
  have hmem_d : (d, v) ∈ flattenCalls cfg
      (run (β := β) cfg (initState α H true se) es).1.delivered :=
    List.mem_flatMap.2 ⟨(t, v), hdel, List.mem_cons_of_mem _
      (List.mem_map.2 ⟨d, hd, rfl⟩)⟩
  have hlook_t : alookup (flattenCalls cfg
      (run (β := β) cfg (initState α H true se) es).1.delivered) t = some v :=
    alookup_eq_some_of_mem_nodup hnodup hmem_t
  have hlook_d : alookup (flattenCalls cfg
      (run (β := β) cfg (initState α H true se) es).1.delivered) d = some v :=
    alookup_eq_some_of_mem_nodup hnodup hmem_d
  have key : ∀ τ v', alookup (flattenCalls cfg
      (run (β := β) cfg (initState α H true se) es).1.delivered) τ = some v' →
      alookup (writesOf (run (β := β) cfg (initState α H true se) es).2) τ =
        some (cfg.pipe v') := by
    intro τ v' hlk
    have hτflat : τ ∈ (flattenCalls cfg
        (run (β := β) cfg (initState α H true se) es).1.delivered).map
          Prod.fst :=
      List.mem_map.2 ⟨(τ, v'), mem_of_alookup_eq_some hlk, rfl⟩
    have hsome : (alookup (writesOf
        (run (β := β) cfg (initState α H true se) es).2) τ).isSome = true := by
      rw [alookup_isSome_iff]
      show τ ∈ (writesOf (run (β := β) cfg (initState α H true se) es).2).map
        Prod.fst
      rw [← writeTimes_eq_map_fst, hw]
      exact hperm.mem_iff.1 hτflat
    obtain ⟨c, hc⟩ := Option.isSome_iff_exists.1 hsome
    obtain ⟨v'', hv1, hv2⟩ := hcont (τ, c) (mem_of_alookup_eq_some hc)
    rw [hlk] at hv1
    injection hv1 with hv1
    have hv2' : c = cfg.pipe v'' := hv2
    rw [hc, hv2', ← hv1]
  exact ⟨key d v hlook_d, key t v hlook_t⟩

theorem duplicate_content_identical_witness :
    validRun (β := Unit) cfg2 (initState Unit ℕ true false) trace2 = true ∧
    (1 : ℚ) ∈ dupsOf cfg2 0 ∧
    alookup (writesOf (run (β := Unit) cfg2
      (initState Unit ℕ true false) trace2).2) 1 = some (cfg2.pipe ()) :=
  ⟨by decide, by decide,
   (duplicate_content_identical cfg2 (n := 2) (by decide) (by decide)
     (by decide) false trace2 (by decide) (by decide) 0 () 1 (by decide)
     (by decide)).1⟩

/-- Claim C5 counterexample: the progress value 100 is *not* reached only at
the terminal event — on a one-frame timeline, encoding the single frame
already emits progress 100 while the job has not ended and the encoder has
not closed. -/
theorem progress_hundred_before_terminal_cex :
    validRun (β := Unit) cfg1 (initState Unit ℕ true false) trace1pre = true ∧
    progressOf (run (β := Unit) cfg1
      (initState Unit ℕ true false) trace1pre).2 = [100] ∧
    (run (β := Unit) cfg1
      (initState Unit ℕ true false) trace1pre).1.ended = false ∧
    (run (β := Unit) cfg1
      (initState Unit ℕ true false) trace1pre).1.closedDone = false := by
  refine ⟨by decide, by decide, by decide, by decide⟩

/-- Claim C5 (amended): over any valid run of a video-enabled job the emitted
progress sequence is monotonically non-decreasing and bounded by 100, and it
consists of the value `qRound(100 · (written + tb) / length)` for each written
frame, followed by the `100` that `EncoderClosed` emits. -/
theorem progress_monotone {α β H : Type} [DecidableEq H] (cfg : Config α β H)
    {n : ℕ} (htb : 0 < cfg.tb)
    (hkeys : cfg.thm.map Prod.fst = gridList n cfg.tb)
    (hlen : cfg.len = (n : ℚ) * cfg.tb) (se : Bool) (es : List (Event α))
    (hval : validRun (β := β) cfg (initState α H true se) es = true) :
    List.Chain' (· ≤ ·)
      (progressOf (run (β := β) cfg (initState α H true se) es).2) ∧
    (∀ p ∈ progressOf (run (β := β) cfg (initState α H true se) es).2,
      p ≤ 100) ∧
    progressOf (run (β := β) cfg (initState α H true se) es).2 =
      (writeTimes (run (β := β) cfg (initState α H true se) es).2).map
        (fun τ => progAt cfg.tb cfg.len τ) ++
        (if (run (β := β) cfg (initState α H true se) es).1.closedDone
          then [100] else []) := by
  obtain ⟨k, hkn, hw, hp⟩ := run_video_shape cfg htb hkeys hlen se es hval
  have hbound : ∀ p ∈ (gridList k cfg.tb).map
      (fun τ => progAt cfg.tb cfg.len τ), p ≤ 100 := by
    intro p hp2
    obtain ⟨τ, hτ, rfl⟩ := List.mem_map.1 hp2
    obtain ⟨j, hj, rfl⟩ := mem_gridList.1 hτ
    have hn0 : 0 < n := by omega
    have hlen0 : 0 < cfg.len := by
      rw [hlen]
      apply mul_pos _ htb
      exact_mod_cast hn0
    apply progAt_le_100 hlen0
    rw [hlen]
    have hjn : (j : ℚ) + 1 ≤ (n : ℚ) := by
      exact_mod_cast Nat.succ_le_of_lt (lt_of_lt_of_le hj hkn)
    calc (j : ℚ) * cfg.tb + cfg.tb = ((j : ℚ) + 1) * cfg.tb := by ring
      _ ≤ (n : ℚ) * cfg.tb :=
        mul_le_mul_of_nonneg_right hjn (le_of_lt htb)
  have hmap : List.Chain' (· ≤ ·) ((gridList k cfg.tb).map
      (fun τ => progAt cfg.tb cfg.len τ)) := by
    by_cases hk0 : k = 0
    · subst hk0
      rw [show gridList 0 cfg.tb = [] from rfl]
      exact List.chain'_nil
    · have hn0 : 0 < n := by omega
      have hlen0 : 0 < cfg.len := by
        rw [hlen]
        apply mul_pos _ htb
        exact_mod_cast hn0
      rw [List.chain'_map]
      apply List.Chain'.imp (fun a b hab => progAt_mono hlen0 (le_of_lt hab))
      rw [gridList_eq_segList]
      exact chain_segList htb 0 k
  refine ⟨?_, ?_, ?_⟩
  · rw [hp]
    cases hcd : (run (β := β) cfg (initState α H true se) es).1.closedDone
    · rw [if_neg (by simp)]
      rw [List.append_nil]
      exact hmap
    · rw [if_pos rfl]
      apply List.Chain'.append hmap (List.chain'_singleton _)
      intro x hx y hy
      have hy' : (100 : ℤ) = y := by simpa using hy
      rw [← hy']
      exact hbound x (getLast?_mem_of_eq _ _ hx)
  · rw [hp]
    intro p hpm
    rcases List.mem_append.1 hpm with hpm | hpm
    · exact hbound p hpm
    · rcases hcd : (run (β := β) cfg (initState α H true se) es).1.closedDone
      · rw [hcd] at hpm
        rw [if_neg (by simp)] at hpm
        exact absurd hpm (List.not_mem_nil p)
      · rw [hcd] at hpm
        rw [if_pos rfl] at hpm
        rw [List.mem_singleton] at hpm
        rw [hpm]
  · rw [hp, hw]

theorem progress_monotone_witness :
    validRun (β := Unit) cfg10 (initState Unit ℕ true false) trace10 = true ∧
    List.Chain' (· ≤ ·)
      (progressOf (run (β := Unit) cfg10
        (initState Unit ℕ true false) trace10).2) :=
  ⟨by decide,
   (progress_monotone cfg10 (n := 10) (by decide) (by decide) (by decide)
     false trace10 (by decide)).1⟩

end OliveExport
